import Mathlib

/-!
Verification of the write-batch-with-index overlay of this repository.

The development shallowly embeds, over `Nat` keys, the components that the
claims refer to:

* `utilities/write_batch_with_index/write_batch_interval_map.h` —
  `IntervalMap::AddInterval`, `IntervalMap::FixIntervalFrom`,
  `IntervalMap::FixIntervalTo`, `IntervalMap::IsInInterval`;
* `utilities/write_batch_with_index/write_batch_with_index_internal.cc` —
  `WriteBatchEntryComparator::operator()`, `WriteBatchEntryComparator::CompareKey`,
  `WriteBatchWithIndexInternal::GetFromBatch`, and the `BaseDeltaIterator`
  state machine (`Seek*`, `Next`, `Prev`, `UpdateCurrent`, `status`);
* `utilities/write_batch_with_index/write_batch_with_index_deleted_range_map.cc` —
  `DeletedRangeMap::IsInInterval` (delegates to `IntervalMap` with a
  `(cf, key)` point key; a single column family is embedded here, so point
  keys are plain `Nat`s).

The skip list backing the interval map (`memtable/skiplist.h`) is not among
the source files; its iterator semantics (`Seek` = least entry ≥ probe,
`SeekForPrev` = greatest entry ≤ probe, `Next`, `Prev`, `Remove` = unlink
current and move to next) are modelled from the spec, §4.2, as operations on
a sorted list: the sorted-list surgery below (`takeWhile`/`dropWhile`
splits, ordered insertion between the two halves, removal of the element at
the border) is exactly what those skip-list calls do on the ordered set of
entries.  The entry comparator of the interval map compares point keys only
(`PointEntryComparator`), so a map state is a list of key/marker pairs that
is strictly sorted by key.
-/

namespace WBWI

/-- Marker of an interval-map entry: `IntervalMap::Marker` (`Start`/`Stop`). -/
inductive IMarker where
  | start : IMarker
  | stop : IMarker
deriving DecidableEq

/-- An interval-map entry: `IntervalMap::PointEntry` with its `PointKey`
(embedded as `Nat`) and its `PointData` marker.  The map state is the list
of entries in skip-list (key) order. -/
structure IEntry where
  key : Nat
  marker : IMarker
deriving DecidableEq

/-- `IntervalMap::FixIntervalFrom(from_key)`: `SeekForPrev` to the greatest
entry with key ≤ `from_key` (the last element of the `takeWhile` prefix).
If it exists and is a `Start`, an earlier start covers `from_key`; if it is
a `Stop` exactly at `from_key`, remove it; otherwise insert a new `Start`
at `from_key` (between the two halves of the sorted list). -/
def fixIntervalFrom (L : List IEntry) (fk : Nat) : List IEntry :=
  let pre := L.takeWhile (fun e => e.key ≤ fk)
  let post := L.dropWhile (fun e => e.key ≤ fk)
  match pre.getLast? with
  | some e =>
    if e.marker = IMarker.start then L
    else if e.key = fk then pre.dropLast ++ post
    else pre ++ (⟨fk, IMarker.start⟩ :: post)
  | none => ⟨fk, IMarker.start⟩ :: post

/-- `IntervalMap::FixIntervalTo(to_key)`: `Seek` to the least entry with
key ≥ `to_key` (the head of the `dropWhile` suffix).  If it exists and is a
`Stop`, a later stop covers `to_key`; if it is a `Start` exactly at
`to_key`, remove it; otherwise insert a new `Stop` at `to_key`. -/
def fixIntervalTo (L : List IEntry) (tk : Nat) : List IEntry :=
  let pre := L.takeWhile (fun e => e.key < tk)
  let post := L.dropWhile (fun e => e.key < tk)
  match post.head? with
  | some e =>
    if e.marker = IMarker.stop then L
    else if e.key = tk then pre ++ post.tail
    else pre ++ (⟨tk, IMarker.stop⟩ :: post)
  | none => pre ++ [⟨tk, IMarker.stop⟩]

/-- The sweep loop at the end of `IntervalMap::AddInterval`:
`SeekForPrev(from)` (keeping every entry with key ≤ `from_key`), `Next`,
then `Remove` every entry strictly below `to_key`. -/
def sweepMid (L : List IEntry) (fk tk : Nat) : List IEntry :=
  L.takeWhile (fun e => e.key ≤ fk) ++
    ((L.dropWhile (fun e => e.key ≤ fk)).dropWhile (fun e => e.key < tk))

/-- `IntervalMap::AddInterval(from_key, to_key)`: fix the two endpoints,
then sweep away every entry strictly inside the new interval. -/
def addInterval (L : List IEntry) (fk tk : Nat) : List IEntry :=
  sweepMid (fixIntervalTo (fixIntervalFrom L fk) tk) fk tk

/-- `IntervalMap::IsInInterval(key)`: `Seek(key)`.  No entry ≥ `key` means
outside; an entry strictly greater means inside iff it is a `Stop`; an
entry exactly at `key` means inside iff it is a `Start`. -/
def isInInterval (L : List IEntry) (k : Nat) : Bool :=
  match (L.dropWhile (fun e => e.key < k)).head? with
  | none => false
  | some e =>
    if k < e.key then decide (e.marker = IMarker.stop)
    else decide (e.marker = IMarker.start)

/-- The interval-map state reached from the empty map by a sequence of
`AddInterval` calls. -/
def foldAdd (ops : List (Nat × Nat)) : List IEntry :=
  ops.foldl (fun L p => addInterval L p.1 p.2) []

/-- The alternation invariant of the claim: adjacent entries carry distinct
markers, and a `Start` is followed by a strictly larger key. -/
def altOK : List IEntry → Bool
  | [] => true
  | [_] => true
  | a :: b :: rest =>
    decide (a.marker ≠ b.marker) &&
      (decide (a.marker = IMarker.stop) || decide (a.key < b.key)) &&
      altOK (b :: rest)

/-! ### Abstract interval lists

A well-formed interval-map state is the flattening of a list of disjoint,
ordered, non-abutting, nonempty intervals.  `insertInterval` is the
normalised union used to characterise `addInterval`. -/

/-- Every interval of `I` lies strictly beyond `x`, the intervals are
nonempty, ordered and pairwise non-abutting. -/
def chainGTb : Nat → List (Nat × Nat) → Bool
  | _, [] => true
  | x, (a, b) :: rest => decide (x < a) && decide (a < b) && chainGTb b rest

/-- Well-formed abstract interval list. -/
def chainOKb : List (Nat × Nat) → Bool
  | [] => true
  | (a, b) :: rest => decide (a < b) && chainGTb b rest

/-- Flatten an abstract interval list into its interval-map entries. -/
def toEntries : List (Nat × Nat) → List IEntry
  | [] => []
  | (a, b) :: rest => ⟨a, IMarker.start⟩ :: ⟨b, IMarker.stop⟩ :: toEntries rest

/-- Normalised insertion of `[l, h)` into an abstract interval list:
skip intervals entirely below, place the interval if entirely above the
next one, otherwise merge into the hull and continue. -/
def insertInterval : List (Nat × Nat) → Nat → Nat → List (Nat × Nat)
  | [], l, h => [(l, h)]
  | (a, b) :: rest, l, h =>
    if b < l then (a, b) :: insertInterval rest l h
    else if h < a then (l, h) :: (a, b) :: rest
    else insertInterval rest (min a l) (max b h)

/-- Abstract membership: `k` lies in some interval of `I`. -/
def memB (I : List (Nat × Nat)) (k : Nat) : Bool :=
  I.any fun p => decide (p.1 ≤ k) && decide (k < p.2)

/-- Iterated `insertInterval` from a list of intervals. -/
def foldIns (ops : List (Nat × Nat)) : List (Nat × Nat) :=
  ops.foldl (fun I p => insertInterval I p.1 p.2) []

/-! ### The point-read resolver `GetFromBatch`

`WriteBatchWithIndexInternal::GetFromBatch` walks one column family's slice
of the write-batch index.  An index entry is embedded together with its
decoded record (`WBWIIteratorImpl::Entry()` decodes `(type, key, value)`
from the record buffer at the stored offset; the byte-level decoding is
collapsed into the fields below).  The list is in skip-list order: sorted
by key, ties ordered by record-buffer offset, i.e. insertion order. -/

/-- Decoded record types, as produced by
`ReadableWriteBatch::GetEntryFromDataOffset` (`WriteType`). -/
inductive WType where
  | putRecord : WType
  | mergeRecord : WType
  | deleteRecord : WType
  | singleDeleteRecord : WType
  | deleteRangeRecord : WType
  | logDataRecord : WType
  | xidRecord : WType
deriving DecidableEq

/-- One indexed entry of a column family: decoded key, record type, decoded
value and the cached `is_in_deleted_range` bit. -/
structure BEntry where
  key : Nat
  wtype : WType
  value : Nat
  inDelRange : Bool
deriving DecidableEq

/-- `WriteBatchWithIndexInternal::Result`. -/
inductive GFBResult where
  | kFound : Nat → GFBResult
  | kDeleted : GFBResult
  | kNotFound : GFBResult
  | kMergeInProgress : GFBResult
  | kError : GFBResult
deriving DecidableEq

/-- The `switch (entry.type)` of the backward walk in `GetFromBatch`:
`Put` yields `kFound`/`kDeleted` according to `is_in_deleted_range`,
`Merge` pushes an operand, `Delete`/`SingleDelete` yield `kDeleted`,
`LogData`/XID records are ignored, anything else is a corruption error. -/
def gfbSwitch (e : BEntry) (res : GFBResult) (ops : List Nat) :
    GFBResult × List Nat :=
  match e.wtype with
  | WType.putRecord =>
    (if e.inDelRange then GFBResult.kDeleted else GFBResult.kFound e.value, ops)
  | WType.mergeRecord => (GFBResult.kMergeInProgress, ops ++ [e.value])
  | WType.deleteRecord => (GFBResult.kDeleted, ops)
  | WType.singleDeleteRecord => (GFBResult.kDeleted, ops)
  | WType.logDataRecord => (res, ops)
  | WType.xidRecord => (res, ops)
  | WType.deleteRangeRecord => (GFBResult.kError, ops)

/-- The loop-exit test after the switch: stop on a `Put`/`Delete`/error,
and on a merge when `overwrite_key` is set. -/
def gfbBreak (ow : Bool) (res : GFBResult) : Bool :=
  match res with
  | GFBResult.kFound _ => true
  | GFBResult.kDeleted => true
  | GFBResult.kError => true
  | GFBResult.kMergeInProgress => ow
  | GFBResult.kNotFound => false

/-- Fallback entry for out-of-range `getD` reads; the walk is only entered
at in-range indices. -/
def dfltBEntry : BEntry := ⟨0, WType.putRecord, 0, false⟩

/-- The backward walk of `GetFromBatch`, from index `i` towards the front:
stop when `MatchesKey` fails, fold the entry, stop on `gfbBreak`, else
`Prev` (the `i = 0` case ends because `Prev` invalidates the cursor). -/
def gfbWalk (L : List BEntry) (k : Nat) (ow : Bool) :
    Nat → GFBResult → List Nat → GFBResult × List Nat
  | 0, res, ops =>
    if (L.getD 0 dfltBEntry).key ≠ k then (res, ops)
    else gfbSwitch (L.getD 0 dfltBEntry) res ops
  | i + 1, res, ops =>
    if (L.getD (i + 1) dfltBEntry).key ≠ k then (res, ops)
    else
      let ro := gfbSwitch (L.getD (i + 1) dfltBEntry) res ops
      if gfbBreak ow ro.1 then ro
      else gfbWalk L k ow i ro.1 ro.2

/-- The positioning phase of `GetFromBatch` on a sorted column-family
slice: `Seek(key)`, `Next` past every entry matching the key, then
`SeekToLast` when the cursor ran off the end and `Prev` otherwise.  The
result is the index of the last entry with key `k` when one exists,
interpreted against a key-sorted list. -/
def gfbStartIdx (L : List BEntry) (k : Nat) : Option Nat :=
  match L.findIdx? (fun e => decide (k < e.key)) with
  | some 0 => none
  | some (j + 1) => some j
  | none => if L.isEmpty then none else some (L.length - 1)

/-- `WriteBatchWithIndexInternal::GetFromBatch`: position at the most
recent entry for `key`, walk backward folding records, then merge when
operands were collected (`MergeKey` is the injected merge operator:
`none` models a merge failure), and finally consult the deleted-range
interval map on `kNotFound`. -/
def getFromBatch (L : List BEntry) (dr : List IEntry) (k : Nat) (ow : Bool)
    (mergeFun : Option Nat → List Nat → Option Nat) : GFBResult :=
  let w := match gfbStartIdx L k with
    | none => (GFBResult.kNotFound, ([] : List Nat))
    | some i => gfbWalk L k ow i GFBResult.kNotFound []
  match w.1 with
  | GFBResult.kError => GFBResult.kError
  | GFBResult.kFound v =>
    if w.2.isEmpty then GFBResult.kFound v
    else
      match mergeFun (some v) w.2 with
      | some m => GFBResult.kFound m
      | none => GFBResult.kError
  | GFBResult.kDeleted =>
    if w.2.isEmpty then GFBResult.kDeleted
    else
      match mergeFun none w.2 with
      | some m => GFBResult.kFound m
      | none => GFBResult.kError
  | GFBResult.kMergeInProgress => GFBResult.kMergeInProgress
  | GFBResult.kNotFound =>
    if isInInterval dr k then GFBResult.kDeleted else GFBResult.kNotFound

/-! ### The index-entry comparator

`WriteBatchEntryComparator` orders `WriteBatchIndexEntry` values.  The
entry layout (`column_family`, `offset`, key span or `search_key`,
`is_min_in_cf`) is modelled from the spec, §3, since the header declaring
it is not among the source files; the comparison code itself is
`write_batch_with_index_internal.cc`.  `storedKey` stands for the slice
`Data()[key_offset, key_offset + key_size)`. -/

/-- A write-batch index entry as seen by the comparator. -/
structure WBIndexEntry where
  columnFamily : Nat
  offset : Nat
  storedKey : List Nat
  searchKey : Option (List Nat)
  minInCf : Bool

/-- `WriteBatchEntryComparator::CompareKey`: the column family's own
comparator when one is configured, the default comparator otherwise. -/
def compareKeyCF (cfCmps : List (Option (List Nat → List Nat → Int)))
    (defCmp : List Nat → List Nat → Int) (cf : Nat) (k1 k2 : List Nat) :
    Int :=
  if h : cf < cfCmps.length then
    match cfCmps[cf] with
    | some c => c k1 k2
    | none => defCmp k1 k2
  else defCmp k1 k2

/-- The key a comparison uses for an entry: the record key decoded from
the buffer when `search_key == nullptr`, the supplied `search_key`
otherwise. -/
def effectiveKey (e : WBIndexEntry) : List Nat :=
  match e.searchKey with
  | none => e.storedKey
  | some s => s

/-- `WriteBatchEntryComparator::operator()`: order by column family, then
`is_min_in_cf` probes below everything, then the effective keys
(`search_key` when set, the decoded record key otherwise), then the
record-buffer offset. -/
def wbeCompare (cfCmps : List (Option (List Nat → List Nat → Int)))
    (defCmp : List Nat → List Nat → Int) (e1 e2 : WBIndexEntry) : Int :=
  if e1.columnFamily > e2.columnFamily then 1
  else if e1.columnFamily < e2.columnFamily then -1
  else if e1.minInCf then -1
  else if e2.minInCf then 1
  else
    let cmp := compareKeyCF cfCmps defCmp e1.columnFamily
      (effectiveKey e1) (effectiveKey e2)
    if cmp ≠ 0 then cmp
    else if e1.offset > e2.offset then 1
    else if e1.offset < e2.offset then -1
    else 0

/-! ### The base+delta merge iterator

`BaseDeltaIterator` merges an engine (base) iterator with the batch (delta)
iterator.  The base iterator is an external collaborator (spec §6): it
presents a strictly key-sorted sequence, embedded as a sorted `List Nat`
of keys with an index cursor (`none` = invalid) and a fixed status.  The
delta iterator presents the batch entries of one column family in index
order, embedded as a `List (Nat × WType)` of key/type pairs.  Values are
omitted: the claims below concern positions, keys, sides and statuses.
`Seek` positions at the least entry ≥ probe, `SeekForPrev` at the greatest
entry ≤ probe, `Next`/`Prev` step the index, and running off either end
invalidates the cursor. -/

/-- Iterator status: `Status::OK`, `Status::NotSupported` (from `Next`/
`Prev` on an invalid merge iterator) and a representative error
(`Status::Corruption`). -/
inductive MStatus where
  | ok : MStatus
  | notSupported : MStatus
  | corruption : MStatus
deriving DecidableEq

/-- A merge-iterator configuration: the two cursor contents, the two
cursor statuses (constant: the pure cursors never fail mid-run) and
`ReadOptions::iterate_upper_bound`. -/
structure BDCfg where
  base : List Nat
  delta : List (Nat × WType)
  bStat : MStatus
  dStat : MStatus
  ub : Option Nat
deriving DecidableEq

/-- The `BaseDeltaIterator` state: `forward_`, `current_at_base_`,
`equal_keys_`, `status_` and the two cursor positions. -/
structure BDState where
  fwd : Bool
  atBase : Bool
  eqKeys : Bool
  stat : MStatus
  bPos : Option Nat
  dPos : Option Nat
deriving DecidableEq

/-- The delta iterator's key sequence. -/
def dKeys (c : BDCfg) : List Nat := c.delta.map Prod.fst

/-- `Seek`: index of the least element ≥ `k` of a sorted list. -/
def firstGE (L : List Nat) (k : Nat) : Option Nat :=
  L.findIdx? (fun x => decide (k ≤ x))

/-- `SeekToLast`: index of the last element. -/
def lastIdx {α : Type} (L : List α) : Option Nat :=
  if L.isEmpty then none else some (L.length - 1)

/-- `SeekForPrev`: index of the greatest element ≤ `k` of a sorted list. -/
def lastLE (L : List Nat) (k : Nat) : Option Nat :=
  match L.findIdx? (fun x => decide (k < x)) with
  | some 0 => none
  | some (j + 1) => some j
  | none => lastIdx L

/-- Cursor `Next`. -/
def optNext (n : Nat) : Option Nat → Option Nat
  | some i => if i + 1 < n then some (i + 1) else none
  | none => none

/-- Cursor `Prev`. -/
def optPrev : Option Nat → Option Nat
  | some i => if i = 0 then none else some (i - 1)
  | none => none

/-- Base key under the cursor (`base_iterator_->key()`). -/
def bKeyAt (c : BDCfg) (i : Nat) : Nat := c.base.getD i 0

/-- Delta entry under the cursor (`delta_iterator_->Entry()`). -/
def dEntryAt (c : BDCfg) (j : Nat) : Nat × WType :=
  c.delta.getD j (0, WType.putRecord)

/-- Delta tombstones: `kDeleteRecord` and `kSingleDeleteRecord`. -/
def isTomb : WType → Bool
  | WType.deleteRecord => true
  | WType.singleDeleteRecord => true
  | _ => false

/-- `AdvanceDelta`: `Next` when forward, `Prev` when backward. -/
def advD (c : BDCfg) (fwd : Bool) (p : Option Nat) : Option Nat :=
  if fwd then optNext c.delta.length p else optPrev p

/-- `AdvanceBase`. -/
def advB (c : BDCfg) (fwd : Bool) (p : Option Nat) : Option Nat :=
  if fwd then optNext c.base.length p else optPrev p

/-- Three-way key comparison (`Comparator::Compare` on the embedded
keys). -/
def natCmp (a b : Nat) : Int := if a < b then -1 else if b < a then 1 else 0

/-- The `iterate_upper_bound` test: `Compare(delta_key, *ub) >= 0`. -/
def ubExceeded (c : BDCfg) (k : Nat) : Bool :=
  match c.ub with
  | some u => decide (u ≤ k)
  | none => false

/-- `BaseDeltaIterator::Valid()`: status OK and the current side's cursor
valid. -/
def bdValid (s : BDState) : Bool :=
  decide (s.stat = MStatus.ok) && (if s.atBase then s.bPos.isSome
    else s.dPos.isSome)

/-- `BaseDeltaIterator::key()`. -/
def bdKey (c : BDCfg) (s : BDState) : Nat :=
  if s.atBase then bKeyAt c (s.bPos.getD 0)
  else (dEntryAt c (s.dPos.getD 0)).1

/-- The loop of `BaseDeltaIterator::UpdateCurrent`, with explicit fuel
(each iteration advances the delta cursor, so the fuel passed by
`updateCurrent` suffices). -/
def ucGo (c : BDCfg) : Nat → BDState → BDState
  | 0, s => s
  | fuel + 1, s =>
    if s.dPos = none ∧ c.dStat ≠ MStatus.ok then
      { s with atBase := false }
    else
      let s1 := { s with eqKeys := false }
      match s.bPos, s.dPos with
      | none, none =>
        if c.bStat ≠ MStatus.ok then { s1 with atBase := true } else s1
      | none, some j =>
        if c.bStat ≠ MStatus.ok then { s1 with atBase := true }
        else
          let de := dEntryAt c j
          if ubExceeded c de.1 then s1
          else if isTomb de.2 then
            ucGo c fuel { s1 with dPos := advD c s1.fwd (some j) }
          else { s1 with atBase := false }
      | some _, none => { s1 with atBase := true }
      | some i, some j =>
        let de := dEntryAt c j
        let cmp := (if s1.fwd then (1 : Int) else -1) * natCmp de.1 (bKeyAt c i)
        if cmp ≤ 0 then
          let s2 := if cmp = 0 then { s1 with eqKeys := true } else s1
          if isTomb de.2 = false then { s2 with atBase := false }
          else
            ucGo c fuel { s2 with
              dPos := advD c s2.fwd (some j),
              bPos := if s2.eqKeys then advB c s2.fwd (some i) else s2.bPos }
        else { s1 with atBase := true }

/-- `BaseDeltaIterator::UpdateCurrent`: resets `status_` to OK, then
resolves the current side. -/
def updateCurrent (c : BDCfg) (s : BDState) : BDState :=
  ucGo c (c.base.length + c.delta.length + 2) { s with stat := MStatus.ok }

/-- `BaseDeltaIterator::SeekToFirst`. -/
def bdSeekToFirst (c : BDCfg) (s : BDState) : BDState :=
  updateCurrent c { s with
    fwd := true,
    bPos := if c.base.isEmpty then none else some 0,
    dPos := if c.delta.isEmpty then none else some 0 }

/-- `BaseDeltaIterator::SeekToLast`. -/
def bdSeekToLast (c : BDCfg) (s : BDState) : BDState :=
  updateCurrent c { s with
    fwd := false,
    bPos := lastIdx c.base,
    dPos := lastIdx c.delta }

/-- `BaseDeltaIterator::Seek`. -/
def bdSeek (c : BDCfg) (k : Nat) (s : BDState) : BDState :=
  updateCurrent c { s with
    fwd := true,
    bPos := firstGE c.base k,
    dPos := firstGE (dKeys c) k }

/-- `BaseDeltaIterator::SeekForPrev`. -/
def bdSeekForPrev (c : BDCfg) (k : Nat) (s : BDState) : BDState :=
  updateCurrent c { s with
    fwd := false,
    bPos := lastLE c.base k,
    dPos := lastLE (dKeys c) k }

/-- `BaseDeltaIterator::Advance`: advance both sides on `equal_keys_`,
otherwise only the current side, then `UpdateCurrent`. -/
def bdAdvance (c : BDCfg) (s : BDState) : BDState :=
  let s' :=
    if s.eqKeys then
      { s with bPos := advB c s.fwd s.bPos, dPos := advD c s.fwd s.dPos }
    else if s.atBase then { s with bPos := advB c s.fwd s.bPos }
    else { s with dPos := advD c s.fwd s.dPos }
  updateCurrent c s'

/-- The direction-reversal block of `BaseDeltaIterator::Next`, followed by
the recomputation of `equal_keys_`. -/
def bdReverseToFwd (c : BDCfg) (s : BDState) : BDState :=
  let sa := { s with fwd := true, eqKeys := false }
  let sb :=
    if sa.bPos = none then
      { sa with bPos := if c.base.isEmpty then none else some 0 }
    else if sa.dPos = none then
      { sa with dPos := if c.delta.isEmpty then none else some 0 }
    else if sa.atBase then { sa with dPos := advD c true sa.dPos }
    else { sa with bPos := advB c true sa.bPos }
  if sb.bPos.isSome ∧ sb.dPos.isSome ∧
      (dEntryAt c (sb.dPos.getD 0)).1 = bKeyAt c (sb.bPos.getD 0) then
    { sb with eqKeys := true }
  else sb

/-- The direction-reversal block of `BaseDeltaIterator::Prev`. -/
def bdReverseToBwd (c : BDCfg) (s : BDState) : BDState :=
  let sa := { s with fwd := false, eqKeys := false }
  let sb :=
    if sa.bPos = none then { sa with bPos := lastIdx c.base }
    else if sa.dPos = none then { sa with dPos := lastIdx c.delta }
    else if sa.atBase then { sa with dPos := advD c false sa.dPos }
    else { sa with bPos := advB c false sa.bPos }
  if sb.bPos.isSome ∧ sb.dPos.isSome ∧
      (dEntryAt c (sb.dPos.getD 0)).1 = bKeyAt c (sb.bPos.getD 0) then
    { sb with eqKeys := true }
  else sb

/-- `BaseDeltaIterator::Next`. -/
def bdNext (c : BDCfg) (s : BDState) : BDState :=
  if bdValid s = false then { s with stat := MStatus.notSupported }
  else bdAdvance c (if s.fwd = false then bdReverseToFwd c s else s)

/-- `BaseDeltaIterator::Prev`. -/
def bdPrev (c : BDCfg) (s : BDState) : BDState :=
  if bdValid s = false then { s with stat := MStatus.notSupported }
  else bdAdvance c (if s.fwd = true then bdReverseToBwd c s else s)

/-- `BaseDeltaIterator::status()`: the sticky own status first, then the
base iterator's, then the delta iterator's. -/
def bdStatus (c : BDCfg) (s : BDState) : MStatus :=
  if s.stat ≠ MStatus.ok then s.stat
  else if c.bStat ≠ MStatus.ok then c.bStat
  else c.dStat

/-- The state of a freshly constructed `BaseDeltaIterator`: forward,
current at base, no equal keys, OK status, both cursors invalid. -/
def bdInit : BDState :=
  ⟨true, true, false, MStatus.ok, none, none⟩

/-- The public seek/advance operations of the merge iterator. -/
inductive BDOp where
  | opSeekToFirst : BDOp
  | opSeekToLast : BDOp
  | opSeek : Nat → BDOp
  | opSeekForPrev : Nat → BDOp
  | opNext : BDOp
  | opPrev : BDOp
deriving DecidableEq

/-- Dispatch one operation. -/
def bdStep (c : BDCfg) (s : BDState) : BDOp → BDState
  | BDOp.opSeekToFirst => bdSeekToFirst c s
  | BDOp.opSeekToLast => bdSeekToLast c s
  | BDOp.opSeek k => bdSeek c k s
  | BDOp.opSeekForPrev k => bdSeekForPrev c k s
  | BDOp.opNext => bdNext c s
  | BDOp.opPrev => bdPrev c s

/-- Run a sequence of operations from the fresh iterator. -/
def bdRun (c : BDCfg) (ops : List BDOp) : BDState :=
  ops.foldl (bdStep c) bdInit

/-- Remaining delta steps: the measure consumed by the `UpdateCurrent`
loop. -/
def dRemaining (c : BDCfg) (s : BDState) : Nat :=
  match s.dPos with
  | some j => if s.fwd then c.delta.length - j else j + 1
  | none => 0

/-- Positions are within the cursor contents. -/
def WFpos (c : BDCfg) (s : BDState) : Prop :=
  (∀ i : Nat, s.bPos = some i → i < c.base.length) ∧
  (∀ j : Nat, s.dPos = some j → j < c.delta.length)

/-- The greatest index whose key is strictly below `w`: the cursor produced
by stepping back from the least entry ≥ `w`. -/
def lastLT (L : List Nat) (w : Nat) : Option Nat :=
  match L.findIdx? (fun x => decide (w ≤ x)) with
  | some 0 => none
  | some (j + 1) => some j
  | none => lastIdx L

/-- Whether the base contains key `v`. -/
def baseHas (c : BDCfg) (v : Nat) : Bool := decide (v ∈ c.base)

/-- Whether the write batch contains an entry for key `v`. -/
def deltaHas (c : BDCfg) (v : Nat) : Bool := decide (v ∈ dKeys c)

/-- The type of the batch entry for key `v`, when one exists. -/
def dTypeOf (c : BDCfg) (v : Nat) : Option WType :=
  (c.delta.find? (fun e => decide (e.1 = v))).map Prod.snd

/-- A key the merge iterator presents: a batch entry that is not a
tombstone, or a base entry not shadowed by any batch entry. -/
def isVis (c : BDCfg) (v : Nat) : Bool :=
  match dTypeOf c v with
  | some ty => !(isTomb ty)
  | none => decide (v ∈ c.base)

/-- Minimum of a list of keys. -/
def listMin? : List Nat → Option Nat
  | [] => none
  | x :: xs =>
    match listMin? xs with
    | none => some x
    | some m => some (min x m)

/-- Maximum of a list of keys. -/
def listMax? : List Nat → Option Nat
  | [] => none
  | x :: xs =>
    match listMax? xs with
    | none => some x
    | some m => some (max x m)

/-- The least visible key ≥ `w`: the key `Seek(w)` must present. -/
def visGE (c : BDCfg) (w : Nat) : Option Nat :=
  listMin? ((c.base ++ dKeys c).filter (fun x => decide (w ≤ x) && isVis c x))

/-- The greatest visible key < `w`: the key a `Prev` from `w` must
present. -/
def visLT (c : BDCfg) (w : Nat) : Option Nat :=
  listMax? ((c.base ++ dKeys c).filter (fun x => decide (x < w) && isVis c x))

/-- The observable outcome of an operation sequence: validity and the
presented key. -/
def obsRun (c : BDCfg) (ops : List BDOp) : Bool × Nat :=
  (bdValid (bdRun c ops), bdKey c (bdRun c ops))

/-- The scenario of the spec's walk-through: base keys `a < b < c`
rendered as `10 < 20 < 30`, the delta holding a single `Put` for `b`. -/
def cW3 : BDCfg :=
  ⟨[10, 30], [(20, WType.putRecord)], MStatus.ok, MStatus.ok, none⟩

/-! ### List helper lemmas -/

theorem takeWhile_append_all {α : Type} (p : α → Bool) (X Y : List α)
    (h : ∀ x ∈ X, p x = true) : (X ++ Y).takeWhile p = X ++ Y.takeWhile p := by
  induction X with
  | nil => simp
  | cons a X ih =>
    simp only [List.cons_append, List.takeWhile_cons, h a (by simp), if_true]
    rw [ih (fun x hx => h x (by simp [hx]))]

theorem dropWhile_append_all {α : Type} (p : α → Bool) (X Y : List α)
    (h : ∀ x ∈ X, p x = true) : (X ++ Y).dropWhile p = Y.dropWhile p := by
  induction X with
  | nil => simp
  | cons a X ih =>
    simp only [List.cons_append, List.dropWhile_cons, h a (by simp), if_true]
    exact ih (fun x hx => h x (by simp [hx]))

theorem takeWhile_all_neg {α : Type} (p : α → Bool) (L : List α)
    (h : ∀ x ∈ L, p x = false) : L.takeWhile p = [] := by
  cases L with
  | nil => rfl
  | cons a L => simp [List.takeWhile_cons, h a (by simp)]

theorem dropWhile_all_neg {α : Type} (p : α → Bool) (L : List α)
    (h : ∀ x ∈ L, p x = false) : L.dropWhile p = L := by
  cases L with
  | nil => rfl
  | cons a L => simp [List.dropWhile_cons, h a (by simp)]

theorem takeWhile_cons_neg {α : Type} (p : α → Bool) (a : α) (L : List α)
    (h : p a = false) : (a :: L).takeWhile p = [] := by
  simp [List.takeWhile_cons, h]

theorem dropWhile_cons_neg {α : Type} (p : α → Bool) (a : α) (L : List α)
    (h : p a = false) : (a :: L).dropWhile p = a :: L := by
  simp [List.dropWhile_cons, h]

theorem takeWhile_cons_pos {α : Type} (p : α → Bool) (a : α) (L : List α)
    (h : p a = true) : (a :: L).takeWhile p = a :: L.takeWhile p := by
  simp [List.takeWhile_cons, h]

theorem dropWhile_cons_pos {α : Type} (p : α → Bool) (a : α) (L : List α)
    (h : p a = true) : (a :: L).dropWhile p = L.dropWhile p := by
  simp [List.dropWhile_cons, h]

/-! ### Chain infrastructure -/

theorem chainGTb_mono {x y : Nat} {I : List (Nat × Nat)} (hxy : y ≤ x)
    (h : chainGTb x I = true) : chainGTb y I = true := by
  cases I with
  | nil => rfl
  | cons p rest =>
    obtain ⟨a, b⟩ := p
    simp only [chainGTb, Bool.and_eq_true, decide_eq_true_eq] at h ⊢
    exact ⟨⟨by omega, h.1.2⟩, h.2⟩

theorem chainGTb_chainOKb {x : Nat} {I : List (Nat × Nat)}
    (h : chainGTb x I = true) : chainOKb I = true := by
  cases I with
  | nil => rfl
  | cons p rest =>
    obtain ⟨a, b⟩ := p
    simp only [chainGTb, Bool.and_eq_true, decide_eq_true_eq] at h
    simp only [chainOKb, Bool.and_eq_true, decide_eq_true_eq]
    exact ⟨h.1.2, h.2⟩

theorem chainGTb_pairs {x : Nat} {I : List (Nat × Nat)}
    (h : chainGTb x I = true) : ∀ p ∈ I, x < p.1 ∧ p.1 < p.2 := by
  induction I generalizing x with
  | nil => simp
  | cons q rest ih =>
    obtain ⟨a, b⟩ := q
    simp only [chainGTb, Bool.and_eq_true, decide_eq_true_eq] at h
    intro p hp
    rcases List.mem_cons.mp hp with rfl | hp
    · exact ⟨h.1.1, h.1.2⟩
    · have := ih h.2 p hp
      exact ⟨by omega, this.2⟩

theorem toEntries_all_gt {x : Nat} {I : List (Nat × Nat)}
    (h : chainGTb x I = true) : ∀ e ∈ toEntries I, x < e.key := by
  induction I generalizing x with
  | nil => simp [toEntries]
  | cons q rest ih =>
    obtain ⟨a, b⟩ := q
    simp only [chainGTb, Bool.and_eq_true, decide_eq_true_eq] at h
    intro e he
    simp only [toEntries, List.mem_cons] at he
    rcases he with rfl | rfl | he
    · exact h.1.1
    · show x < b
      omega
    · have := ih h.2 e he
      omega

theorem toEntries_pairwise {I : List (Nat × Nat)} (h : chainOKb I = true) :
    (toEntries I).Pairwise (fun e f => e.key < f.key) := by
  induction I with
  | nil => simp [toEntries]
  | cons q rest ih =>
    obtain ⟨a, b⟩ := q
    simp only [chainOKb, Bool.and_eq_true, decide_eq_true_eq] at h
    have hrest := ih (chainGTb_chainOKb h.2)
    have hb := toEntries_all_gt h.2
    simp only [toEntries]
    refine List.Pairwise.cons ?_ (List.Pairwise.cons ?_ hrest)
    · intro e he
      simp only [List.mem_cons] at he
      rcases he with rfl | he
      · exact h.1
      · have := hb e he
        show a < e.key
        omega
    · intro e he
      exact hb e he

theorem toEntries_head_start {I : List (Nat × Nat)} :
    ∀ e ∈ (toEntries I).head?, e.marker = IMarker.start := by
  cases I with
  | nil => simp [toEntries]
  | cons q rest =>
    obtain ⟨a, b⟩ := q
    simp [toEntries]

/-! ### Decomposition lemmas for `addInterval` -/

theorem fixFrom_gt_head (L : List IEntry) (fk : Nat)
    (h : ∀ e ∈ L.head?, fk < e.key) :
    fixIntervalFrom L fk = ⟨fk, IMarker.start⟩ :: L := by
  cases L with
  | nil => rfl
  | cons a L =>
    have ha : decide (a.key ≤ fk) = false := by
      simp only [List.head?_cons, Option.mem_some_iff] at h
      simp only [decide_eq_false_iff_not]
      have := h a rfl
      omega
    unfold fixIntervalFrom
    rw [takeWhile_cons_neg (fun e => decide (e.key ≤ fk)) a L ha,
      dropWhile_cons_neg (fun e => decide (e.key ≤ fk)) a L ha]
    rfl

theorem fixFrom_cons₂ (e1 e2 : IEntry) (T : List IEntry) (fk : Nat)
    (h1 : e1.key ≤ fk) (h2 : e2.key ≤ fk) (hm : e2.marker = IMarker.stop)
    (hk : e2.key ≠ fk) :
    fixIntervalFrom (e1 :: e2 :: T) fk = e1 :: e2 :: fixIntervalFrom T fk := by
  have h1' : decide (e1.key ≤ fk) = true := by simpa using h1
  have h2' : decide (e2.key ≤ fk) = true := by simpa using h2
  unfold fixIntervalFrom
  simp only [List.takeWhile_cons, List.dropWhile_cons, h1', h2', if_true]
  cases htw : T.takeWhile (fun e => decide (e.key ≤ fk)) with
  | nil =>
    have hdw : T.dropWhile (fun e => decide (e.key ≤ fk)) = T := by
      cases T with
      | nil => rfl
      | cons c T =>
        rw [List.takeWhile_cons] at htw
        by_cases hc : decide (c.key ≤ fk) = true
        · simp [hc] at htw
        · rw [dropWhile_cons_neg _ _ _ (by simpa using hc)]
    rw [hdw]
    simp only [List.getLast?_cons_cons, List.getLast?_singleton]
    rw [if_neg (by simp [hm]), if_neg hk]
    simp

  | cons f F =>
    simp only [List.getLast?_cons_cons]
    have hne : (f :: F).getLast? = some ((f :: F).getLast (by simp)) :=
      List.getLast?_eq_getLast _ _
    cases hgl : (f :: F).getLast? with
    | none =>
      rw [hgl] at hne
      exact Option.noConfusion hne
    | some g =>
      simp only
      by_cases hgm : g.marker = IMarker.start
      · rw [if_pos hgm, if_pos hgm]
      · rw [if_neg hgm, if_neg hgm]
        by_cases hgk : g.key = fk
        · rw [if_pos hgk, if_pos hgk]
          simp [List.dropLast_cons₂]
        · rw [if_neg hgk, if_neg hgk]
          simp

theorem fixTo_append_lt (X T : List IEntry) (tk : Nat)
    (hX : ∀ e ∈ X, e.key < tk) :
    fixIntervalTo (X ++ T) tk = X ++ fixIntervalTo T tk := by
  have hX' : ∀ e ∈ X, decide (e.key < tk) = true := fun e he => by
    simpa using hX e he
  unfold fixIntervalTo
  rw [takeWhile_append_all _ _ _ hX', dropWhile_append_all _ _ _ hX']
  cases hdw : T.dropWhile (fun e => decide (e.key < tk)) with
  | nil => simp
  | cons c C =>
    simp only [List.head?_cons]
    by_cases hcm : c.marker = IMarker.stop
    · rw [if_pos hcm, if_pos hcm]
    · rw [if_neg hcm, if_neg hcm]
      by_cases hck : c.key = tk
      · rw [if_pos hck, if_pos hck]
        simp
      · rw [if_neg hck, if_neg hck]
        simp

theorem mem_fixTo {T : List IEntry} {tk : Nat} {e : IEntry}
    (he : e ∈ fixIntervalTo T tk) : e ∈ T ∨ e = ⟨tk, IMarker.stop⟩ := by
  have hpre : ∀ f ∈ T.takeWhile (fun e => decide (e.key < tk)), f ∈ T :=
    fun f hf => (List.takeWhile_sublist _).mem hf
  have hpost : ∀ f ∈ T.dropWhile (fun e => decide (e.key < tk)), f ∈ T :=
    fun f hf => (List.dropWhile_sublist _).mem hf
  unfold fixIntervalTo at he
  cases hdw : T.dropWhile (fun e => decide (e.key < tk)) with
  | nil =>
    rw [hdw] at he
    simp only [List.head?_nil, List.mem_append, List.mem_singleton] at he
    rcases he with he | he
    · exact Or.inl (hpre e he)
    · exact Or.inr he
  | cons c C =>
    rw [hdw] at he
    simp only [List.head?_cons] at he
    by_cases hcm : c.marker = IMarker.stop
    · rw [if_pos hcm] at he
      exact Or.inl he
    · rw [if_neg hcm] at he
      by_cases hck : c.key = tk
      · rw [if_pos hck] at he
        simp only [List.tail_cons, List.mem_append] at he
        rcases he with he | he
        · exact Or.inl (hpre e he)
        · exact Or.inl (hpost e (by rw [hdw]; exact List.mem_cons_of_mem c he))
      · rw [if_neg hck] at he
        simp only [List.mem_append, List.mem_cons] at he
        rcases he with he | he | he
        · exact Or.inl (hpre e he)
        · exact Or.inr he
        · exact Or.inl (hpost e (by rw [hdw]; exact List.mem_cons.mpr he))

/-- Core of the `addInterval` characterisation: once `FixIntervalFrom` has
produced a single `Start` at `x` below a middle section and a tail `T`, the
`FixIntervalTo`-plus-sweep steps keep only that `Start` and whatever
`FixIntervalTo` leaves at or beyond `tk`. -/
theorem addTail (T : List IEntry) (x g tk : Nat) (MID : List IEntry)
    (hx : x ≤ g) (hgh : g < tk)
    (hMID : ∀ e ∈ MID, g < e.key ∧ e.key < tk)
    (hT : ∀ e ∈ T, g < e.key) :
    sweepMid (fixIntervalTo (⟨x, IMarker.start⟩ :: (MID ++ T)) tk) g tk
      = ⟨x, IMarker.start⟩ ::
          (fixIntervalTo T tk).dropWhile (fun e => decide (e.key < tk)) := by
  have hX : ∀ e ∈ ⟨x, IMarker.start⟩ :: MID, e.key < tk := by
    intro e he
    rcases List.mem_cons.mp he with rfl | he
    · show x < tk
      omega
    · exact (hMID e he).2
  have hsplit : (⟨x, IMarker.start⟩ :: (MID ++ T) : List IEntry)
      = (⟨x, IMarker.start⟩ :: MID) ++ T := by simp
  rw [hsplit, fixTo_append_lt _ _ _ hX]
  unfold sweepMid
  have hxg : decide ((⟨x, IMarker.start⟩ : IEntry).key ≤ g) = true := by
    simp only [decide_eq_true_eq]
    exact hx
  have hrest : ∀ e ∈ MID ++ fixIntervalTo T tk, decide (e.key ≤ g) = false := by
    intro e he
    simp only [decide_eq_false_iff_not, not_le]
    rcases List.mem_append.mp he with he | he
    · exact (hMID e he).1
    · rcases mem_fixTo he with he | rfl
      · exact hT e he
      · exact hgh
  rw [List.cons_append,
    takeWhile_cons_pos (fun e : IEntry => decide (e.key ≤ g)) _ _ hxg,
    takeWhile_all_neg _ _ hrest,
    dropWhile_cons_pos (fun e : IEntry => decide (e.key ≤ g)) _ _ hxg,
    dropWhile_all_neg _ _ hrest,
    dropWhile_append_all _ _ _ (fun e he => by
      simp only [decide_eq_true_eq]
      exact (hMID e he).2)]
  simp

/-- With every key of `T` beyond `b` and `T` headed by a `Start` (or empty),
`FixIntervalTo b` inserts a `Stop` at `b` in front and the sweep keeps it. -/
theorem finalTail (T : List IEntry) (b : Nat)
    (hT : ∀ e ∈ T, b < e.key)
    (hhd : ∀ e ∈ T.head?, e.marker = IMarker.start) :
    (fixIntervalTo T b).dropWhile (fun e => decide (e.key < b))
      = ⟨b, IMarker.stop⟩ :: T := by
  cases T with
  | nil => simp [fixIntervalTo]
  | cons c C =>
    have hc : decide (c.key < b) = false := by
      simp only [decide_eq_false_iff_not, not_lt]
      have := hT c (by simp)
      omega
    have hcm : c.marker = IMarker.start := by
      simp only [List.head?_cons, Option.mem_some_iff] at hhd
      exact hhd c rfl
    unfold fixIntervalTo
    rw [takeWhile_cons_neg (fun e => decide (e.key < b)) c C hc,
      dropWhile_cons_neg (fun e => decide (e.key < b)) c C hc]
    simp only [List.head?_cons]
    rw [if_neg (by simp [hcm]), if_neg (by have := hT c (by simp); omega)]
    rw [List.nil_append]
    rw [dropWhile_cons_neg (fun e : IEntry => decide (e.key < b)) ⟨b, IMarker.stop⟩ (c :: C) (by simp)]

/-- `AddInterval` of `[x, tk)` into a map whose keys all lie strictly
beyond `x`. -/
theorem addInterval_from_above (T : List IEntry) (x tk : Nat)
    (hT : ∀ e ∈ T, x < e.key) (hxh : x < tk) :
    addInterval T x tk = ⟨x, IMarker.start⟩ ::
      (fixIntervalTo T tk).dropWhile (fun e => decide (e.key < tk)) := by
  unfold addInterval
  rw [fixFrom_gt_head T x (fun e he => hT e (by
    cases T with
    | nil => simp at he
    | cons c C =>
      simp only [List.head?_cons, Option.mem_some_iff] at he
      simp [he]))]
  have : (⟨x, IMarker.start⟩ :: T : List IEntry)
      = ⟨x, IMarker.start⟩ :: ([] ++ T) := by simp
  rw [this]
  exact addTail T x x tk [] (le_refl x) hxh (by simp) hT

theorem sweepMid_start_mid (x : Nat) (MID2 R : List IEntry) (fk tk : Nat)
    (hx : x ≤ fk) (hM : ∀ e ∈ MID2, ¬ e.key ≤ fk ∧ e.key < tk)
    (hR : ∀ e ∈ R.head?, ¬ e.key ≤ fk ∧ ¬ e.key < tk) :
    sweepMid (⟨x, IMarker.start⟩ :: (MID2 ++ R)) fk tk
      = ⟨x, IMarker.start⟩ :: R := by
  have htw : (MID2 ++ R).takeWhile (fun e => decide (e.key ≤ fk)) = [] := by
    cases MID2 with
    | nil =>
      cases R with
      | nil => rfl
      | cons r R =>
        simp only [List.nil_append]
        exact takeWhile_cons_neg _ r R (by
          simp only [decide_eq_false_iff_not]
          exact (hR r (by simp)).1)
    | cons m M =>
      simp only [List.cons_append]
      exact takeWhile_cons_neg _ _ _ (by
        simp only [decide_eq_false_iff_not]
        exact (hM m (by simp)).1)
  have hdw : (MID2 ++ R).dropWhile (fun e => decide (e.key ≤ fk)) = MID2 ++ R := by
    cases MID2 with
    | nil =>
      cases R with
      | nil => rfl
      | cons r R =>
        simp only [List.nil_append]
        exact dropWhile_cons_neg _ r R (by
          simp only [decide_eq_false_iff_not]
          exact (hR r (by simp)).1)
    | cons m M =>
      simp only [List.cons_append]
      exact dropWhile_cons_neg _ _ _ (by
        simp only [decide_eq_false_iff_not]
        exact (hM m (by simp)).1)
  have hdw2 : (MID2 ++ R).dropWhile (fun e => decide (e.key < tk)) = R := by
    rw [dropWhile_append_all _ _ _ (fun e he => by
      simp only [decide_eq_true_eq]
      exact (hM e he).2)]
    cases R with
    | nil => rfl
    | cons r R =>
      exact dropWhile_cons_neg _ r R (by
        simp only [decide_eq_false_iff_not]
        exact (hR r (by simp)).2)
  unfold sweepMid
  rw [takeWhile_cons_pos (fun e : IEntry => decide (e.key ≤ fk)) _ _
      (by simpa using hx),
    htw,
    dropWhile_cons_pos (fun e : IEntry => decide (e.key ≤ fk)) _ _
      (by simpa using hx),
    hdw, hdw2]
  simp

theorem addInterval_merge (a b l h : Nat) (rest : List (Nat × Nat))
    (hab : a < b) (hch : chainGTb b rest = true)
    (hlb : l ≤ b) (hah : a ≤ h) (hlh : l < h) :
    addInterval (toEntries ((a, b) :: rest)) l h
      = addInterval (toEntries rest) (min a l) (max b h) := by
  have hT : ∀ e ∈ toEntries rest, b < e.key := toEntries_all_gt hch
  have hhd : ∀ e ∈ (toEntries rest).head?, e.marker = IMarker.start :=
    toEntries_head_start
  have hRHS : addInterval (toEntries rest) (min a l) (max b h)
      = ⟨min a l, IMarker.start⟩ ::
          (fixIntervalTo (toEntries rest) (max b h)).dropWhile
            (fun e => decide (e.key < max b h)) :=
    addInterval_from_above _ _ _
      (fun e he => by have := hT e he; omega) (by omega)
  rw [hRHS]
  show addInterval (⟨a, IMarker.start⟩ :: ⟨b, IMarker.stop⟩ :: toEntries rest) l h = _
  rcases Nat.lt_or_ge l a with hla | hal
  · -- l < a : FixIntervalFrom inserts a new Start at l in front
    have hmin : min a l = l := by omega
    unfold addInterval
    rw [fixFrom_gt_head _ l (by
      intro e he
      simp only [List.head?_cons, Option.mem_some_iff] at he
      subst he
      exact hla)]
    rcases Nat.lt_or_ge b h with hbh | hhb
    · -- b < h : the new interval swallows [a,b); use the tail lemma
      have hmax : max b h = h := by omega
      have hshape : (⟨l, IMarker.start⟩ :: ⟨a, IMarker.start⟩ ::
          ⟨b, IMarker.stop⟩ :: toEntries rest : List IEntry)
          = ⟨l, IMarker.start⟩ ::
              ([⟨a, IMarker.start⟩, ⟨b, IMarker.stop⟩] ++ toEntries rest) := rfl
      rw [hshape, addTail _ l l h _ (le_refl l) hlh
        (by
          intro e he
          simp only [List.mem_cons, List.not_mem_nil, or_false] at he
          rcases he with rfl | rfl
          · show l < a ∧ a < h
            omega
          · show l < b ∧ b < h
            omega)
        (fun e he => by have := hT e he; omega), hmin, hmax]
    · -- h ≤ b : the stop at b survives
      have hmax : max b h = b := by omega
      rw [hmin, hmax, finalTail _ _ hT hhd]
      rcases Nat.eq_or_lt_of_le hah with hha | hah'
      · -- h = a : FixIntervalTo removes the Start at a
        unfold fixIntervalTo
        rw [takeWhile_cons_pos (fun e : IEntry => decide (e.key < h)) _ _
            (by simpa using hlh),
          takeWhile_cons_neg (fun e : IEntry => decide (e.key < h)) _ _
            (by simp; omega),
          dropWhile_cons_pos (fun e : IEntry => decide (e.key < h)) _ _
            (by simpa using hlh),
          dropWhile_cons_neg (fun e : IEntry => decide (e.key < h)) _ _
            (by simp; omega)]
        simp only [List.head?_cons]
        rw [if_neg (by simp), if_pos (by simp [hha]), List.tail_cons]
        have hshape : (⟨l, IMarker.start⟩ :: ([] : List IEntry) ++
            ⟨b, IMarker.stop⟩ :: toEntries rest : List IEntry)
            = ⟨l, IMarker.start⟩ ::
                ([] ++ (⟨b, IMarker.stop⟩ :: toEntries rest)) := by simp
        rw [hshape, sweepMid_start_mid l [] _ l h (le_refl l) (by simp)
          (by
            intro e he
            simp only [List.head?_cons, Option.mem_some_iff] at he
            subst he
            show ¬ b ≤ l ∧ ¬ b < h
            omega)]
      · -- a < h ≤ b : FixIntervalTo finds the Stop at b and changes nothing
        unfold fixIntervalTo
        rw [takeWhile_cons_pos (fun e : IEntry => decide (e.key < h)) _ _
            (by simpa using hlh),
          takeWhile_cons_pos (fun e : IEntry => decide (e.key < h)) _ _
            (by simpa using hah'),
          takeWhile_cons_neg (fun e : IEntry => decide (e.key < h)) _ _
            (by simp; omega),
          dropWhile_cons_pos (fun e : IEntry => decide (e.key < h)) _ _
            (by simpa using hlh),
          dropWhile_cons_pos (fun e : IEntry => decide (e.key < h)) _ _
            (by simpa using hah'),
          dropWhile_cons_neg (fun e : IEntry => decide (e.key < h)) _ _
            (by simp; omega)]
        simp only [List.head?_cons]
        rw [if_pos (by simp)]
        have hshape : (⟨l, IMarker.start⟩ :: ⟨a, IMarker.start⟩ ::
            ⟨b, IMarker.stop⟩ :: toEntries rest : List IEntry)
            = ⟨l, IMarker.start⟩ :: ([⟨a, IMarker.start⟩] ++
                (⟨b, IMarker.stop⟩ :: toEntries rest)) := rfl
        rw [hshape, sweepMid_start_mid l _ _ l h (le_refl l)
          (by
            intro e he
            simp only [List.mem_singleton] at he
            subst he
            show ¬ a ≤ l ∧ a < h
            omega)
          (by
            intro e he
            simp only [List.head?_cons, Option.mem_some_iff] at he
            subst he
            show ¬ b ≤ l ∧ ¬ b < h
            omega)]
  · -- a ≤ l
    have hmin : min a l = a := by omega
    rcases Nat.eq_or_lt_of_le hlb with hlb' | hlb'
    · -- l = b : FixIntervalFrom removes the Stop at b
      subst hlb'
      unfold addInterval
      unfold fixIntervalFrom
      rw [takeWhile_cons_pos (fun e : IEntry => decide (e.key ≤ l)) _ _
          (by simpa using hal),
        takeWhile_cons_pos (fun e : IEntry => decide (e.key ≤ l)) _ _
          (by simp),
        takeWhile_all_neg _ _ (fun e he => by
          simp only [decide_eq_false_iff_not, not_le]
          exact hT e he),
        dropWhile_cons_pos (fun e : IEntry => decide (e.key ≤ l)) _ _
          (by simpa using hal),
        dropWhile_cons_pos (fun e : IEntry => decide (e.key ≤ l)) _ _
          (by simp),
        dropWhile_all_neg _ _ (fun e he => by
          simp only [decide_eq_false_iff_not, not_le]
          exact hT e he)]
      simp only [List.getLast?_cons_cons, List.getLast?_singleton]
      rw [if_neg (by simp), if_pos (by simp)]
      simp only [List.dropLast_cons₂, List.dropLast_single, List.cons_append,
        List.nil_append]
      have hmax : max l h = h := by omega
      have hshape : (⟨a, IMarker.start⟩ :: toEntries rest : List IEntry)
          = ⟨a, IMarker.start⟩ :: ([] ++ toEntries rest) := by simp
      rw [hshape, addTail _ a l h [] hal hlh (by simp)
        (fun e he => by have := hT e he; omega), hmin, hmax]
    · -- a ≤ l < b : FixIntervalFrom finds the Start at a and changes nothing
      unfold addInterval
      unfold fixIntervalFrom
      rw [takeWhile_cons_pos (fun e : IEntry => decide (e.key ≤ l)) _ _
          (by simpa using hal),
        takeWhile_cons_neg (fun e : IEntry => decide (e.key ≤ l)) _ _
          (by simp; omega),
        dropWhile_cons_pos (fun e : IEntry => decide (e.key ≤ l)) _ _
          (by simpa using hal),
        dropWhile_cons_neg (fun e : IEntry => decide (e.key ≤ l)) _ _
          (by simp; omega)]
      simp only [List.getLast?_singleton]
      rw [if_pos (by simp)]
      rcases Nat.lt_or_ge b h with hbh | hhb
      · -- b < h : swallowed stop; use the tail lemma
        have hmax : max b h = h := by omega
        have hshape : (⟨a, IMarker.start⟩ :: ⟨b, IMarker.stop⟩ ::
            toEntries rest : List IEntry)
            = ⟨a, IMarker.start⟩ ::
                ([⟨b, IMarker.stop⟩] ++ toEntries rest) := rfl
        rw [hshape, addTail _ a l h _ hal hlh
          (by
            intro e he
            simp only [List.mem_singleton] at he
            subst he
            show l < b ∧ b < h
            omega)
          (fun e he => by have := hT e he; omega), hmin, hmax]
      · -- h ≤ b : nothing moves
        have hmax : max b h = b := by omega
        rw [hmin, hmax, finalTail _ _ hT hhd]
        unfold fixIntervalTo
        rw [takeWhile_cons_pos (fun e : IEntry => decide (e.key < h)) _ _
            (by simp; omega),
          takeWhile_cons_neg (fun e : IEntry => decide (e.key < h)) _ _
            (by simp; omega),
          dropWhile_cons_pos (fun e : IEntry => decide (e.key < h)) _ _
            (by simp; omega),
          dropWhile_cons_neg (fun e : IEntry => decide (e.key < h)) _ _
            (by simp; omega)]
        simp only [List.head?_cons]
        rw [if_pos (by simp)]
        have hshape : (⟨a, IMarker.start⟩ :: ⟨b, IMarker.stop⟩ ::
            toEntries rest : List IEntry)
            = ⟨a, IMarker.start⟩ ::
                ([] ++ (⟨b, IMarker.stop⟩ :: toEntries rest)) := rfl
        rw [hshape, sweepMid_start_mid a [] _ l h hal (by simp)
          (by
            intro e he
            simp only [List.head?_cons, Option.mem_some_iff] at he
            subst he
            show ¬ b ≤ l ∧ ¬ b < h
            omega)]
        simp

theorem sweepMid_cons₂ (e1 e2 : IEntry) (M : List IEntry) (fk tk : Nat)
    (h1 : e1.key ≤ fk) (h2 : e2.key ≤ fk) :
    sweepMid (e1 :: e2 :: M) fk tk = e1 :: e2 :: sweepMid M fk tk := by
  unfold sweepMid
  rw [takeWhile_cons_pos (fun e : IEntry => decide (e.key ≤ fk)) _ _
      (by simpa using h1),
    takeWhile_cons_pos (fun e : IEntry => decide (e.key ≤ fk)) _ _
      (by simpa using h2),
    dropWhile_cons_pos (fun e : IEntry => decide (e.key ≤ fk)) _ _
      (by simpa using h1),
    dropWhile_cons_pos (fun e : IEntry => decide (e.key ≤ fk)) _ _
      (by simpa using h2)]
  simp

/-- An interval entirely beyond the first stored interval: `AddInterval`
keeps the leading `Start`/`Stop` pair untouched. -/
theorem addInterval_below (a b l h : Nat) (T : List IEntry)
    (hab : a < b) (hbl : b < l) (hbh : b < h) :
    addInterval (⟨a, IMarker.start⟩ :: ⟨b, IMarker.stop⟩ :: T) l h
      = ⟨a, IMarker.start⟩ :: ⟨b, IMarker.stop⟩ :: addInterval T l h := by
  unfold addInterval
  rw [fixFrom_cons₂ _ _ _ _ (by show a ≤ l; omega) (by show b ≤ l; omega)
      rfl (by show b ≠ l; omega)]
  have hshape : (⟨a, IMarker.start⟩ :: ⟨b, IMarker.stop⟩ ::
      fixIntervalFrom T l : List IEntry)
      = [⟨a, IMarker.start⟩, ⟨b, IMarker.stop⟩] ++ fixIntervalFrom T l := rfl
  rw [hshape, fixTo_append_lt _ _ _ (by
    intro e he
    simp only [List.mem_cons, List.not_mem_nil, or_false] at he
    rcases he with rfl | rfl
    · show a < h
      omega
    · show b < h
      omega)]
  exact sweepMid_cons₂ _ _ _ _ _ (by show a ≤ l; omega) (by show b ≤ l; omega)

/-- An interval entirely before the first stored interval: `AddInterval`
places a fresh `Start`/`Stop` pair in front. -/
theorem addInterval_above (a l h : Nat) (R : List IEntry)
    (hlh : l < h) (hha : h < a) :
    addInterval (⟨a, IMarker.start⟩ :: R) l h
      = ⟨l, IMarker.start⟩ :: ⟨h, IMarker.stop⟩ ::
          ⟨a, IMarker.start⟩ :: R := by
  unfold addInterval
  rw [fixFrom_gt_head _ l (by
    intro e he
    simp only [List.head?_cons, Option.mem_some_iff] at he
    subst he
    show l < a
    omega)]
  unfold fixIntervalTo
  rw [takeWhile_cons_pos (fun e : IEntry => decide (e.key < h)) _ _
      (by simpa using hlh),
    takeWhile_cons_neg (fun e : IEntry => decide (e.key < h)) _ _
      (by simp; omega),
    dropWhile_cons_pos (fun e : IEntry => decide (e.key < h)) _ _
      (by simpa using hlh),
    dropWhile_cons_neg (fun e : IEntry => decide (e.key < h)) _ _
      (by simp; omega)]
  simp only [List.head?_cons]
  rw [if_neg (by simp), if_neg (by show ¬ (a = h); omega)]
  have hshape : ((⟨l, IMarker.start⟩ :: [] : List IEntry) ++
      ⟨h, IMarker.stop⟩ :: ⟨a, IMarker.start⟩ :: R)
      = ⟨l, IMarker.start⟩ ::
          ([] ++ (⟨h, IMarker.stop⟩ :: ⟨a, IMarker.start⟩ :: R)) := by simp
  rw [hshape, sweepMid_start_mid l [] _ l h (le_refl l) (by simp)
    (by
      intro e he
      simp only [List.head?_cons, Option.mem_some_iff] at he
      subst he
      show ¬ h ≤ l ∧ ¬ h < h
      omega)]

/-- The commuting square: `AddInterval` on the flattened entries of a
well-formed abstract interval list is the flattening of the normalised
insertion. -/
theorem addInterval_toEntries (I : List (Nat × Nat)) :
    ∀ l h : Nat, chainOKb I = true → l < h →
    addInterval (toEntries I) l h = toEntries (insertInterval I l h) := by
  induction I with
  | nil =>
    intro l h _ hlh
    show addInterval [] l h = _
    rw [addInterval_from_above [] l h (by simp) hlh]
    simp [fixIntervalTo, insertInterval, toEntries]
  | cons p rest ih =>
    obtain ⟨a, b⟩ := p
    intro l h hch hlh
    simp only [chainOKb, Bool.and_eq_true, decide_eq_true_eq] at hch
    obtain ⟨hab, hch⟩ := hch
    by_cases hbl : b < l
    · show addInterval (⟨a, IMarker.start⟩ :: ⟨b, IMarker.stop⟩ ::
        toEntries rest) l h = _
      rw [addInterval_below a b l h _ hab hbl (by omega),
        ih l h (chainGTb_chainOKb hch) hlh]
      simp only [insertInterval, if_pos hbl]
      rfl
    · by_cases hha : h < a
      · show addInterval (⟨a, IMarker.start⟩ :: ⟨b, IMarker.stop⟩ ::
          toEntries rest) l h = _
        rw [addInterval_above a l h _ hlh hha]
        simp only [insertInterval, if_neg hbl, if_pos hha]
        rfl
      · rw [addInterval_merge a b l h rest hab hch (by omega) (by omega) hlh,
          ih (min a l) (max b h) (chainGTb_chainOKb hch) (by omega)]
        simp only [insertInterval, if_neg hbl, if_neg hha]

/-! ### `insertInterval` preserves well-formedness and denotes union -/

theorem insertInterval_chainGT {x : Nat} (I : List (Nat × Nat)) :
    ∀ l h : Nat, chainGTb x I = true → x < l → l < h →
    chainGTb x (insertInterval I l h) = true := by
  induction I generalizing x with
  | nil =>
    intro l h _ hxl hlh
    simp only [insertInterval, chainGTb, Bool.and_eq_true, decide_eq_true_eq]
    exact ⟨⟨hxl, hlh⟩, trivial⟩
  | cons p rest ih =>
    obtain ⟨a, b⟩ := p
    intro l h hch hxl hlh
    simp only [chainGTb, Bool.and_eq_true, decide_eq_true_eq] at hch
    obtain ⟨⟨hxa, hab⟩, hch⟩ := hch
    by_cases hbl : b < l
    · simp only [insertInterval, if_pos hbl, chainGTb, Bool.and_eq_true,
        decide_eq_true_eq]
      exact ⟨⟨hxa, hab⟩, ih l h hch hbl hlh⟩
    · by_cases hha : h < a
      · simp only [insertInterval, if_neg hbl, if_pos hha, chainGTb,
          Bool.and_eq_true, decide_eq_true_eq]
        exact ⟨⟨hxl, hlh⟩, ⟨hha, hab⟩, hch⟩
      · simp only [insertInterval, if_neg hbl, if_neg hha]
        have hrest : chainGTb x rest = true :=
          chainGTb_mono (by omega) hch
        exact ih (min a l) (max b h) hrest (by omega) (by omega)

theorem insertInterval_chainOK (I : List (Nat × Nat)) :
    ∀ l h : Nat, chainOKb I = true → l < h →
    chainOKb (insertInterval I l h) = true := by
  induction I with
  | nil =>
    intro l h _ hlh
    simp only [insertInterval, chainOKb, Bool.and_eq_true, decide_eq_true_eq]
    exact ⟨hlh, rfl⟩
  | cons p rest ih =>
    obtain ⟨a, b⟩ := p
    intro l h hch hlh
    simp only [chainOKb, Bool.and_eq_true, decide_eq_true_eq] at hch
    obtain ⟨hab, hch⟩ := hch
    by_cases hbl : b < l
    · simp only [insertInterval, if_pos hbl, chainOKb, Bool.and_eq_true,
        decide_eq_true_eq]
      exact ⟨hab, insertInterval_chainGT rest l h hch hbl hlh⟩
    · by_cases hha : h < a
      · simp only [insertInterval, if_neg hbl, if_pos hha, chainOKb, chainGTb,
          Bool.and_eq_true, decide_eq_true_eq]
        exact ⟨hlh, ⟨hha, hab⟩, hch⟩
      · simp only [insertInterval, if_neg hbl, if_neg hha]
        have hrest : chainOKb rest = true := chainGTb_chainOKb hch
        exact ih (min a l) (max b h) hrest (by omega)

theorem memB_insert (I : List (Nat × Nat)) :
    ∀ l h k : Nat, chainOKb I = true → l < h →
    memB (insertInterval I l h) k
      = (memB I k || (decide (l ≤ k) && decide (k < h))) := by
  induction I with
  | nil =>
    intro l h k _ _
    simp [insertInterval, memB]
  | cons p rest ih =>
    obtain ⟨a, b⟩ := p
    intro l h k hch hlh
    simp only [chainOKb, Bool.and_eq_true, decide_eq_true_eq] at hch
    obtain ⟨hab, hch⟩ := hch
    by_cases hbl : b < l
    · simp only [insertInterval, if_pos hbl, memB, List.any_cons]
      rw [show (rest.any fun p => decide (p.1 ≤ k) && decide (k < p.2))
          = memB rest k from rfl,
        show ((insertInterval rest l h).any
            fun p => decide (p.1 ≤ k) && decide (k < p.2))
          = memB (insertInterval rest l h) k from rfl,
        ih l h k (chainGTb_chainOKb hch) hlh]
      cases hd : decide (a ≤ k) && decide (k < b) <;> simp
    · by_cases hha : h < a
      · simp only [insertInterval, if_neg hbl, if_pos hha, memB, List.any_cons]
        cases h1 : decide (l ≤ k) && decide (k < h) <;>
          cases h2 : decide (a ≤ k) && decide (k < b) <;> simp [Bool.or_comm]
      · simp only [insertInterval, if_neg hbl, if_neg hha]
        rw [ih (min a l) (max b h) k (chainGTb_chainOKb hch) (by omega)]
        simp only [memB, List.any_cons]
        have harith : (decide (min a l ≤ k) && decide (k < max b h))
            = ((decide (a ≤ k) && decide (k < b)) ||
               (decide (l ≤ k) && decide (k < h))) := by
          rw [← Bool.decide_and, ← Bool.decide_and, ← Bool.decide_and,
            ← Bool.decide_or, decide_eq_decide]
          omega
        rw [harith]
        cases hd1 : decide (a ≤ k) && decide (k < b) <;>
          cases hd2 : decide (l ≤ k) && decide (k < h) <;>
          cases hd3 : memB rest k <;> simp

/-! ### `IsInInterval` on flattened interval lists -/

theorem isInInterval_cons_lt {e : IEntry} {L : List IEntry} {k : Nat}
    (h : e.key < k) : isInInterval (e :: L) k = isInInterval L k := by
  unfold isInInterval
  rw [dropWhile_cons_pos (fun e : IEntry => decide (e.key < k)) _ _
    (by simpa using h)]

theorem isInInterval_cons_ge {e : IEntry} {L : List IEntry} {k : Nat}
    (h : ¬ e.key < k) :
    isInInterval (e :: L) k
      = if k < e.key then decide (e.marker = IMarker.stop)
        else decide (e.marker = IMarker.start) := by
  unfold isInInterval
  rw [dropWhile_cons_neg (fun e : IEntry => decide (e.key < k)) _ _
    (by simpa using h)]
  rfl

theorem memB_cons (a b k : Nat) (rest : List (Nat × Nat)) :
    memB ((a, b) :: rest) k
      = ((decide (a ≤ k) && decide (k < b)) || memB rest k) := rfl

theorem memB_all_gt {k : Nat} {I : List (Nat × Nat)}
    (h : ∀ p ∈ I, k < p.1) : memB I k = false := by
  induction I with
  | nil => rfl
  | cons p rest ih =>
    simp only [memB, List.any_cons, Bool.or_eq_false_iff]
    constructor
    · rw [decide_eq_false (by have := h p (by simp); omega)]
      simp
    · exact ih (fun q hq => h q (by simp [hq]))

theorem isInInterval_toEntries (I : List (Nat × Nat)) :
    ∀ k : Nat, chainOKb I = true → isInInterval (toEntries I) k = memB I k := by
  induction I with
  | nil => intro k _; rfl
  | cons p rest ih =>
    obtain ⟨a, b⟩ := p
    intro k hch
    simp only [chainOKb, Bool.and_eq_true, decide_eq_true_eq] at hch
    obtain ⟨hab, hch⟩ := hch
    have hpairs := chainGTb_pairs hch
    show isInInterval (⟨a, IMarker.start⟩ :: ⟨b, IMarker.stop⟩ ::
      toEntries rest) k = _
    rw [memB_cons]
    rcases Nat.lt_or_ge a k with hak | hak
    · rw [isInInterval_cons_lt (by simpa using hak)]
      rcases Nat.lt_or_ge b k with hbk | hbk
      · rw [isInInterval_cons_lt (by simpa using hbk),
          ih k (chainGTb_chainOKb hch)]
        have d1 : decide (k < b) = false := by
          simp only [decide_eq_false_iff_not]
          omega
        rw [d1]
        simp
      · rw [isInInterval_cons_ge (by simpa using hbk)]
        rcases Nat.eq_or_lt_of_le hbk with hkb | hkb
        · rw [if_neg (by show ¬ (k < b); omega)]
          have d1 : decide (k < b) = false := by
            simp only [decide_eq_false_iff_not]
            omega
          rw [d1, memB_all_gt (fun q hq => by have := hpairs q hq; omega)]
          simp
        · rw [if_pos (by show k < b; omega)]
          have d1 : decide (a ≤ k) = true := by
            simp only [decide_eq_true_eq]
            omega
          have d2 : decide (k < b) = true := by
            simp only [decide_eq_true_eq]
            omega
          rw [d1, d2]
          simp
    · rw [isInInterval_cons_ge (by show ¬ (a < k); omega)]
      rcases Nat.eq_or_lt_of_le hak with hka | hka
      · rw [if_neg (by show ¬ (k < a); omega)]
        have d1 : decide (a ≤ k) = true := by
          simp only [decide_eq_true_eq]
          omega
        have d2 : decide (k < b) = true := by
          simp only [decide_eq_true_eq]
          omega
        rw [d1, d2]
        simp
      · rw [if_pos (by show k < a; omega)]
        have d1 : decide (a ≤ k) = false := by
          simp only [decide_eq_false_iff_not]
          omega
        rw [d1, memB_all_gt (fun q hq => by have := hpairs q hq; omega)]
        simp

/-! ### Alternation of flattened interval lists -/

theorem altOK_toEntries (I : List (Nat × Nat)) (h : chainOKb I = true) :
    altOK (toEntries I) = true := by
  induction I with
  | nil => rfl
  | cons p rest ih =>
    obtain ⟨a, b⟩ := p
    simp only [chainOKb, Bool.and_eq_true, decide_eq_true_eq] at h
    obtain ⟨hab, hch⟩ := h
    have hrest := ih (chainGTb_chainOKb hch)
    show altOK (⟨a, IMarker.start⟩ :: ⟨b, IMarker.stop⟩ :: toEntries rest)
      = true
    cases hT : toEntries rest with
    | nil =>
      simp only [altOK, Bool.and_eq_true, decide_eq_true_eq, Bool.or_eq_true]
      refine ⟨⟨by simp, ?_⟩, trivial⟩
      right
      simpa using hab
    | cons t T =>
      have ht : t.marker = IMarker.start := by
        have := @toEntries_head_start rest
        rw [hT] at this
        exact this t rfl
      rw [hT] at hrest
      simp only [altOK, Bool.and_eq_true, decide_eq_true_eq, Bool.or_eq_true]
        at hrest ⊢
      refine ⟨⟨by simp, by right; simpa using hab⟩, ⟨by simp [ht], by left; simp⟩,
        hrest⟩

/-! ### Reachable states -/

theorem foldAdd_go (ops : List (Nat × Nat)) :
    ∀ I : List (Nat × Nat), chainOKb I = true → (∀ p ∈ ops, p.1 < p.2) →
    ops.foldl (fun L p => addInterval L p.1 p.2) (toEntries I)
      = toEntries (ops.foldl (fun J p => insertInterval J p.1 p.2) I) ∧
    chainOKb (ops.foldl (fun J p => insertInterval J p.1 p.2) I) = true := by
  induction ops with
  | nil => intro I hI _; exact ⟨rfl, hI⟩
  | cons q ops ih =>
    intro I hI hops
    simp only [List.foldl_cons]
    rw [addInterval_toEntries I q.1 q.2 hI (hops q (by simp))]
    exact ih _ (insertInterval_chainOK I q.1 q.2 hI (hops q (by simp)))
      (fun p hp => hops p (by simp [hp]))

theorem memB_foldIns (ops : List (Nat × Nat)) :
    ∀ I : List (Nat × Nat), chainOKb I = true → (∀ p ∈ ops, p.1 < p.2) →
    ∀ k : Nat,
    memB (ops.foldl (fun J p => insertInterval J p.1 p.2) I) k
      = (memB I k || ops.any fun p => decide (p.1 ≤ k) && decide (k < p.2)) := by
  induction ops with
  | nil => intro I _ _ k; simp
  | cons q ops ih =>
    intro I hI hops k
    simp only [List.foldl_cons, List.any_cons]
    rw [ih _ (insertInterval_chainOK I q.1 q.2 hI (hops q (by simp)))
        (fun p hp => hops p (by simp [hp])) k,
      memB_insert I q.1 q.2 k hI (hops q (by simp)), Bool.or_assoc]

/-! ### Idempotence of `insertInterval` -/

theorem insertInterval_below_all (a b : Nat) (rest : List (Nat × Nat))
    (hab : a < b) (hch : chainGTb b rest = true) :
    insertInterval rest a b = (a, b) :: rest := by
  cases rest with
  | nil => rfl
  | cons q rest' =>
    obtain ⟨c, d⟩ := q
    simp only [chainGTb, Bool.and_eq_true, decide_eq_true_eq] at hch
    simp only [insertInterval]
    rw [if_neg (by omega), if_pos (by omega)]

theorem insertInterval_absorb (J : List (Nat × Nat)) :
    ∀ l h α β : Nat, chainOKb J = true → (α, β) ∈ J → α ≤ l → l < h → h ≤ β →
    insertInterval J l h = J := by
  induction J with
  | nil => simp
  | cons q rest ih =>
    obtain ⟨a, b⟩ := q
    intro l h α β hch hmem hαl hlh hhβ
    simp only [chainOKb, Bool.and_eq_true, decide_eq_true_eq] at hch
    obtain ⟨hab, hgt⟩ := hch
    rcases List.mem_cons.mp hmem with heq | hmem'
    · rw [Prod.mk.injEq] at heq
      obtain ⟨h1, h2⟩ := heq
      simp only [insertInterval]
      rw [if_neg (by omega), if_neg (by omega),
        show min a l = a by omega, show max b h = b by omega]
      exact insertInterval_below_all a b rest hab hgt
    · have hbound := chainGTb_pairs hgt (α, β) hmem'
      simp only [insertInterval]
      rw [if_pos (by simp only at hbound; omega)]
      rw [ih l h α β (chainGTb_chainOKb hgt) hmem' hαl hlh hhβ]

theorem insertInterval_cover (I : List (Nat × Nat)) :
    ∀ l h : Nat, l < h →
    ∃ q ∈ insertInterval I l h, q.1 ≤ l ∧ h ≤ q.2 := by
  induction I with
  | nil =>
    intro l h _
    exact ⟨(l, h), by simp [insertInterval], le_refl l, le_refl h⟩
  | cons p rest ih =>
    obtain ⟨a, b⟩ := p
    intro l h hlh
    by_cases hbl : b < l
    · simp only [insertInterval, if_pos hbl]
      obtain ⟨q, hq, h1, h2⟩ := ih l h hlh
      exact ⟨q, List.mem_cons_of_mem _ hq, h1, h2⟩
    · by_cases hha : h < a
      · simp only [insertInterval, if_neg hbl, if_pos hha]
        exact ⟨(l, h), by simp, le_refl l, le_refl h⟩
      · simp only [insertInterval, if_neg hbl, if_neg hha]
        obtain ⟨q, hq, h1, h2⟩ := ih (min a l) (max b h) (by omega)
        exact ⟨q, hq, by omega, by omega⟩

/-! ### Empty intervals -/

theorem sweepMid_head_gt (L : List IEntry) (fk tk : Nat)
    (h : ∀ e ∈ L.head?, ¬ e.key ≤ fk ∧ ¬ e.key < tk) :
    sweepMid L fk tk = L := by
  cases L with
  | nil => rfl
  | cons e L =>
    have he := h e (by simp)
    unfold sweepMid
    rw [takeWhile_cons_neg (fun e : IEntry => decide (e.key ≤ fk)) _ _
        (by simp only [decide_eq_false_iff_not]; exact he.1),
      dropWhile_cons_neg (fun e : IEntry => decide (e.key ≤ fk)) _ _
        (by simp only [decide_eq_false_iff_not]; exact he.1),
      dropWhile_cons_neg (fun e : IEntry => decide (e.key < tk)) _ _
        (by simp only [decide_eq_false_iff_not]; exact he.2)]
    simp

theorem mem_toEntries_start {I : List (Nat × Nat)} {p : Nat × Nat}
    (h : p ∈ I) : (⟨p.1, IMarker.start⟩ : IEntry) ∈ toEntries I := by
  induction I with
  | nil => simp at h
  | cons q rest ih =>
    obtain ⟨a, b⟩ := q
    rcases List.mem_cons.mp h with rfl | h
    · simp [toEntries]
    · simp only [toEntries, List.mem_cons]
      right; right
      exact ih h

/-- `AddInterval(k, k)` is the structural identity on a well-formed map
whose left endpoints avoid `k`. -/
theorem addInterval_empty_id (I : List (Nat × Nat)) :
    ∀ k : Nat, chainOKb I = true → (∀ p ∈ I, p.1 ≠ k) →
    addInterval (toEntries I) k k = toEntries I := by
  induction I with
  | nil =>
    intro k _ _
    show addInterval [] k k = []
    unfold addInterval fixIntervalFrom fixIntervalTo sweepMid
    simp
  | cons p rest ih =>
    obtain ⟨a, b⟩ := p
    intro k hch hk
    simp only [chainOKb, Bool.and_eq_true, decide_eq_true_eq] at hch
    obtain ⟨hab, hch⟩ := hch
    have hT : ∀ e ∈ toEntries rest, b < e.key := toEntries_all_gt hch
    have hka : a ≠ k := hk (a, b) (by simp)
    show addInterval (⟨a, IMarker.start⟩ :: ⟨b, IMarker.stop⟩ ::
      toEntries rest) k k
      = ⟨a, IMarker.start⟩ :: ⟨b, IMarker.stop⟩ :: toEntries rest
    rcases Nat.lt_or_ge k a with hlt | hge
    · -- k strictly below the first interval
      unfold addInterval
      rw [fixFrom_gt_head _ k (by
        intro e he
        simp only [List.head?_cons, Option.mem_some_iff] at he
        subst he
        exact hlt)]
      unfold fixIntervalTo
      rw [takeWhile_cons_neg (fun e : IEntry => decide (e.key < k)) _ _
          (by simp),
        dropWhile_cons_neg (fun e : IEntry => decide (e.key < k)) _ _
          (by simp)]
      simp only [List.head?_cons]
      rw [if_neg (by simp), if_pos (by simp), List.nil_append, List.tail_cons]
      exact sweepMid_head_gt _ k k (by
        intro e he
        simp only [List.head?_cons, Option.mem_some_iff] at he
        subst he
        show ¬ a ≤ k ∧ ¬ a < k
        omega)
    · have hak : a < k := by omega
      rcases Nat.lt_or_ge k b with hkb | hbk
      · -- a < k < b : strictly inside the first interval
        unfold addInterval
        unfold fixIntervalFrom
        rw [takeWhile_cons_pos (fun e : IEntry => decide (e.key ≤ k)) _ _
            (by simp only [decide_eq_true_eq]; show a ≤ k; omega),
          takeWhile_cons_neg (fun e : IEntry => decide (e.key ≤ k)) _ _
            (by simp only [decide_eq_false_iff_not]; show ¬ b ≤ k; omega),
          dropWhile_cons_pos (fun e : IEntry => decide (e.key ≤ k)) _ _
            (by simp only [decide_eq_true_eq]; show a ≤ k; omega),
          dropWhile_cons_neg (fun e : IEntry => decide (e.key ≤ k)) _ _
            (by simp only [decide_eq_false_iff_not]; show ¬ b ≤ k; omega)]
        simp only [List.getLast?_singleton]
        rw [if_pos (by simp)]
        unfold fixIntervalTo
        rw [takeWhile_cons_pos (fun e : IEntry => decide (e.key < k)) _ _
            (by simp only [decide_eq_true_eq]; show a < k; omega),
          takeWhile_cons_neg (fun e : IEntry => decide (e.key < k)) _ _
            (by simp only [decide_eq_false_iff_not]; show ¬ b < k; omega),
          dropWhile_cons_pos (fun e : IEntry => decide (e.key < k)) _ _
            (by simp only [decide_eq_true_eq]; show a < k; omega),
          dropWhile_cons_neg (fun e : IEntry => decide (e.key < k)) _ _
            (by simp only [decide_eq_false_iff_not]; show ¬ b < k; omega)]
        simp only [List.head?_cons]
        rw [if_pos (by simp)]
        unfold sweepMid
        rw [takeWhile_cons_pos (fun e : IEntry => decide (e.key ≤ k)) _ _
            (by simp only [decide_eq_true_eq]; show a ≤ k; omega),
          takeWhile_cons_neg (fun e : IEntry => decide (e.key ≤ k)) _ _
            (by simp only [decide_eq_false_iff_not]; show ¬ b ≤ k; omega),
          dropWhile_cons_pos (fun e : IEntry => decide (e.key ≤ k)) _ _
            (by simp only [decide_eq_true_eq]; show a ≤ k; omega),
          dropWhile_cons_neg (fun e : IEntry => decide (e.key ≤ k)) _ _
            (by simp only [decide_eq_false_iff_not]; show ¬ b ≤ k; omega),
          dropWhile_cons_neg (fun e : IEntry => decide (e.key < k)) _ _
            (by simp only [decide_eq_false_iff_not]; show ¬ b < k; omega)]
        simp
      · rcases Nat.eq_or_lt_of_le hbk with hbk' | hbk'
        · -- k = b : the Stop at b is removed and reinserted
          unfold addInterval
          unfold fixIntervalFrom
          rw [takeWhile_cons_pos (fun e : IEntry => decide (e.key ≤ k)) _ _
              (by simp only [decide_eq_true_eq]; show a ≤ k; omega),
            takeWhile_cons_pos (fun e : IEntry => decide (e.key ≤ k)) _ _
              (by simp [hbk']),
            takeWhile_all_neg _ _ (fun e he => by
              simp only [decide_eq_false_iff_not, not_le]
              have := hT e he
              omega),
            dropWhile_cons_pos (fun e : IEntry => decide (e.key ≤ k)) _ _
              (by simp only [decide_eq_true_eq]; show a ≤ k; omega),
            dropWhile_cons_pos (fun e : IEntry => decide (e.key ≤ k)) _ _
              (by simp [hbk']),
            dropWhile_all_neg _ _ (fun e he => by
              simp only [decide_eq_false_iff_not, not_le]
              have := hT e he
              omega)]
          simp only [List.getLast?_cons_cons, List.getLast?_singleton]
          rw [if_neg (by simp), if_pos hbk']
          simp only [List.dropLast_cons₂, List.dropLast_single,
            List.cons_append, List.nil_append]
          unfold fixIntervalTo
          rw [takeWhile_cons_pos (fun e : IEntry => decide (e.key < k)) _ _
              (by simp only [decide_eq_true_eq]; show a < k; omega),
            takeWhile_all_neg _ _ (fun e he => by
              simp only [decide_eq_false_iff_not, not_lt]
              have := hT e he
              omega),
            dropWhile_cons_pos (fun e : IEntry => decide (e.key < k)) _ _
              (by simp only [decide_eq_true_eq]; show a < k; omega),
            dropWhile_all_neg _ _ (fun e he => by
              simp only [decide_eq_false_iff_not, not_lt]
              have := hT e he
              omega)]
          cases hTre : toEntries rest with
          | nil =>
            simp only [List.head?_nil]
            unfold sweepMid
            simp only [List.singleton_append]
            rw [takeWhile_cons_pos (fun e : IEntry => decide (e.key ≤ k)) _ _
                (by simp only [decide_eq_true_eq]; show a ≤ k; omega),
              takeWhile_cons_pos (fun e : IEntry => decide (e.key ≤ k)) _ _
                (by simp),
              dropWhile_cons_pos (fun e : IEntry => decide (e.key ≤ k)) _ _
                (by simp only [decide_eq_true_eq]; show a ≤ k; omega),
              dropWhile_cons_pos (fun e : IEntry => decide (e.key ≤ k)) _ _
                (by simp)]
            simp [hbk']
          | cons t T =>
            have htm : t.marker = IMarker.start := by
              have := @toEntries_head_start rest
              rw [hTre] at this
              exact this t rfl
            have htk : b < t.key := by
              have := hT t (by rw [hTre]; simp)
              omega
            simp only [List.head?_cons]
            rw [if_neg (by simp [htm]), if_neg (by omega)]
            unfold sweepMid
            simp only [List.singleton_append]
            rw [takeWhile_cons_pos (fun e : IEntry => decide (e.key ≤ k)) _ _
                (by simp only [decide_eq_true_eq]; show a ≤ k; omega)]
            rw [takeWhile_cons_pos (fun e : IEntry => decide (e.key ≤ k)) _ _
                (by simp),
              takeWhile_cons_neg (fun e : IEntry => decide (e.key ≤ k)) _ _
                (by simp only [decide_eq_false_iff_not]; omega),
              dropWhile_cons_pos (fun e : IEntry => decide (e.key ≤ k)) _ _
                (by simp only [decide_eq_true_eq]; show a ≤ k; omega),
              dropWhile_cons_pos (fun e : IEntry => decide (e.key ≤ k)) _ _
                (by simp),
              dropWhile_cons_neg (fun e : IEntry => decide (e.key ≤ k)) _ _
                (by simp only [decide_eq_false_iff_not]; omega),
              dropWhile_cons_neg (fun e : IEntry => decide (e.key < k)) _ _
                (by simp only [decide_eq_false_iff_not]; omega)]
            simp [hbk']
        · -- b < k : the first interval is untouched; recurse
          rw [addInterval_below a b k k _ hab hbk' hbk',
            ih k (chainGTb_chainOKb hch) (fun p hp => hk p (by simp [hp]))]

/-! ### Claim theorems for the interval map -/

/-- Claim C1, counterexample to the claim as stated: over arbitrary
`AddInterval` sequences the correspondence fails.  After
`AddInterval(1,3); AddInterval(1,1)` the key `0` is reported inside,
although `0` lies in neither `[1,3)` nor the empty `[1,1)`: the second call
finds the `Start` marker at its `to_key` and removes it
(`FixIntervalTo`), leaving a dangling `Stop` at 3. -/
theorem C1_counterexample :
    isInInterval (foldAdd [(1, 3), (1, 1)]) 0 = true ∧
      ¬ ∃ p ∈ [(1, 3), (1, 1)], p.1 ≤ 0 ∧ 0 < p.2 := by decide

/-- Claim C1 (amended: every added interval is nonempty, `l < h`): for any
sequence of `AddInterval` calls starting from the empty map and any key
`k`, `IsInInterval(k)` holds iff some added interval `[l, h)` satisfies
`l ≤ k < h`. -/
theorem C1_interval_map_correct (ops : List (Nat × Nat))
    (hops : ∀ p ∈ ops, p.1 < p.2) (k : Nat) :
    isInInterval (foldAdd ops) k = true ↔ ∃ p ∈ ops, p.1 ≤ k ∧ k < p.2 := by
  obtain ⟨heq, hch⟩ := foldAdd_go ops [] rfl hops
  have h0 : foldAdd ops
      = toEntries (ops.foldl (fun J p => insertInterval J p.1 p.2) []) := heq
  rw [h0, isInInterval_toEntries _ k hch, memB_foldIns ops [] rfl hops k]
  show (memB [] k || _) = true ↔ _
  simp [List.any_eq_true, memB]

theorem C1_interval_map_correct_witness :
    isInInterval (foldAdd [(0, 2)]) 1 = true
      ↔ ∃ p ∈ [(0, 2)], p.1 ≤ 1 ∧ 1 < p.2 :=
  C1_interval_map_correct [(0, 2)] (by decide) 1

/-- Claim C4, counterexample to the claim as stated: an `AddInterval` call
with an empty interval whose endpoint coincides with a `Start` marker
removes that marker, leaving two adjacent `Stop` entries. -/
theorem C4_counterexample :
    altOK (foldAdd [(1, 3), (1, 1), (5, 7), (5, 5)]) = false := by decide

/-- Claim C4 (amended: every added interval is nonempty, `l < h`): after
every completed `AddInterval` call the interval map's entries strictly
alternate: adjacent entries carry distinct markers, and a `Start` is
followed by a strictly larger key. -/
theorem C4_alternation (ops : List (Nat × Nat))
    (hops : ∀ p ∈ ops, p.1 < p.2) : altOK (foldAdd ops) = true := by
  obtain ⟨heq, hch⟩ := foldAdd_go ops [] rfl hops
  have h0 : foldAdd ops
      = toEntries (ops.foldl (fun J p => insertInterval J p.1 p.2) []) := heq
  rw [h0]
  exact altOK_toEntries _ hch

theorem C4_alternation_witness :
    altOK (foldAdd [(0, 2), (1, 5), (7, 9)]) = true :=
  C4_alternation [(0, 2), (1, 5), (7, 9)] (by decide)

/-- Claim C8, counterexample: structural idempotence fails on a state
reached with an empty interval in the history.  `AddInterval(0,1);
AddInterval(2,3); AddInterval(2,2)` leaves the non-alternating state
`Start@0, Stop@1, Stop@3` (the empty call removes `Start@2` and the
following `Stop@3` blocks the restore).  From it, a first
`AddInterval(3,4)` consumes the `Stop` at exactly 3 and yields
`Start@0, Stop@1, Stop@4`, while a second `AddInterval(3,4)` re-inserts
a `Start` at 3, yielding `Start@0, Stop@1, Start@3, Stop@4`. -/
theorem C8_counterexample :
    addInterval (addInterval (foldAdd [(0, 1), (2, 3), (2, 2)]) 3 4) 3 4
      ≠ addInterval (foldAdd [(0, 1), (2, 3), (2, 2)]) 3 4 := by decide

/-- Claim C8 (amended: nonempty intervals only): on any interval map
reached by a sequence of `AddInterval` calls with nonempty intervals,
adding a nonempty `[l, h)` twice leaves the same entry sequence as adding
it once. -/
theorem C8_addInterval_idempotent (ops : List (Nat × Nat))
    (hops : ∀ p ∈ ops, p.1 < p.2) (l h : Nat) (hlh : l < h) :
    addInterval (addInterval (foldAdd ops) l h) l h
      = addInterval (foldAdd ops) l h := by
  obtain ⟨heq, hch⟩ := foldAdd_go ops [] rfl hops
  have h0 : foldAdd ops
      = toEntries (ops.foldl (fun J p => insertInterval J p.1 p.2) []) := heq
  rw [h0, addInterval_toEntries _ l h hch hlh,
    addInterval_toEntries _ l h (insertInterval_chainOK _ l h hch hlh) hlh]
  congr 1
  obtain ⟨q, hq, h1, h2⟩ := insertInterval_cover _ l h hlh
  exact insertInterval_absorb _ l h q.1 q.2
    (insertInterval_chainOK _ l h hch hlh) (by simpa using hq) h1 hlh h2

theorem C8_addInterval_idempotent_witness :
    addInterval (addInterval (foldAdd [(0, 2), (5, 8)]) 1 6) 1 6
      = addInterval (foldAdd [(0, 2), (5, 8)]) 1 6 :=
  C8_addInterval_idempotent [(0, 2), (5, 8)] (by decide) 1 6 (by decide)

/-- Claim C10, counterexample: `AddInterval(1,1)` on the map holding
`[1,3)` does not leave `IsInInterval` unchanged — afterwards key `0` is
reported inside.  `FixIntervalTo(1)` finds the `Start` marker at key 1 and
removes it, so the claimed identity fails exactly when the empty
interval's key coincides with an existing `Start` marker. -/
theorem C10_counterexample :
    isInInterval (addInterval (foldAdd [(1, 3)]) 1 1) 0 = true ∧
      isInInterval (foldAdd [(1, 3)]) 0 = false := by decide

/-- Claim C10 (amended: the map was built by `AddInterval` calls with
nonempty intervals, and `k` does not coincide with an existing `Start`
marker): `AddInterval(k, k)` then leaves `IsInInterval` unchanged for
every key — in such states this includes `k` sitting on an existing
`Stop` marker, whose removal the sweep always restores.  On states built
with empty intervals the identity can fail even at a `Stop` marker:
after `(0,1), (2,3), (2,2)` the state is `Start@0, Stop@1, Stop@3`, and
`AddInterval(1,1)` removes `Stop@1` without restoring it. -/
theorem C10_empty_interval_id (ops : List (Nat × Nat))
    (hops : ∀ p ∈ ops, p.1 < p.2) (k : Nat)
    (hnos : (⟨k, IMarker.start⟩ : IEntry) ∉ foldAdd ops) :
    ∀ k' : Nat, isInInterval (addInterval (foldAdd ops) k k) k'
      = isInInterval (foldAdd ops) k' := by
  obtain ⟨heq, hch⟩ := foldAdd_go ops [] rfl hops
  have h0 : foldAdd ops
      = toEntries (ops.foldl (fun J p => insertInterval J p.1 p.2) []) := heq
  have hne : ∀ p ∈ ops.foldl (fun J p => insertInterval J p.1 p.2) [],
      p.1 ≠ k := by
    intro p hp hpk
    apply hnos
    rw [h0]
    have hm := mem_toEntries_start hp
    rw [hpk] at hm
    exact hm
  intro k'
  rw [h0, addInterval_empty_id _ k hch hne]

theorem C10_empty_interval_id_witness :
    isInInterval (addInterval (foldAdd [(1, 3)]) 2 2) 0
      = isInInterval (foldAdd [(1, 3)]) 0 :=
  C10_empty_interval_id [(1, 3)] (by decide) 2 (by decide) 0

/-! ### `GetFromBatch` lemmas -/

theorem getD_mem {α : Type} (L : List α) (i : Nat) (d : α)
    (h : i < L.length) : L.getD i d ∈ L := by
  rw [List.getD_eq_getElem L d h]
  exact List.getElem_mem h

theorem getD_append_length {α : Type} (X : List α) (y : α) (Y : List α)
    (d : α) : (X ++ y :: Y).getD X.length d = y := by
  induction X with
  | nil => rfl
  | cons a X ih => simpa using ih

theorem findIdx?_append_first {α : Type} (p : α → Bool) (X : List α) (y : α)
    (Y : List α) (hX : ∀ x ∈ X, p x = false) (hy : p y = true) :
    (X ++ y :: Y).findIdx? p = some X.length := by
  induction X with
  | nil => simp [List.findIdx?_cons, hy]
  | cons a X ih =>
    rw [List.cons_append, List.findIdx?_cons, hX a (by simp)]
    rw [if_neg (by simp), List.findIdx?_succ,
      ih (fun x hx => hX x (by simp [hx]))]
    simp

theorem findIdx?_none_of_all {α : Type} (p : α → Bool) (L : List α)
    (h : ∀ x ∈ L, p x = false) : L.findIdx? p = none := by
  induction L with
  | nil => rfl
  | cons a L ih =>
    rw [List.findIdx?_cons, h a (by simp)]
    rw [if_neg (by simp), List.findIdx?_succ,
      ih (fun x hx => h x (by simp [hx]))]
    rfl

theorem gfbStartIdx_lt {L : List BEntry} {k i : Nat}
    (h : gfbStartIdx L k = some i) : i < L.length := by
  unfold gfbStartIdx at h
  cases hf : L.findIdx? (fun e => decide (k < e.key)) with
  | none =>
    rw [hf] at h
    by_cases hL : L.isEmpty
    · rw [if_pos hL] at h
      exact Option.noConfusion h
    · rw [if_neg hL] at h
      have hlen : L.length ≠ 0 := by
        cases L with
        | nil => simp at hL
        | cons a L => simp
      rw [Option.some_inj] at h
      omega
  | some j =>
    rw [hf] at h
    have hj := (List.findIdx?_eq_some_iff_findIdx_eq.mp hf).1
    cases j with
    | zero => exact Option.noConfusion h
    | succ j' =>
      rw [Option.some_inj] at h
      omega

theorem gfbWalk_first_break (L : List BEntry) (k : Nat) (ow : Bool) (i : Nat)
    (res : GFBResult) (ops : List Nat)
    (hkey : (L.getD i dfltBEntry).key = k)
    (hbreak : gfbBreak ow (gfbSwitch (L.getD i dfltBEntry) res ops).1 = true) :
    gfbWalk L k ow i res ops = gfbSwitch (L.getD i dfltBEntry) res ops := by
  cases i with
  | zero =>
    unfold gfbWalk
    rw [if_neg (not_not_intro hkey)]
  | succ i' =>
    unfold gfbWalk
    rw [if_neg (not_not_intro hkey)]
    simp only [if_pos hbreak]

/-- Claim C2: `GetFromBatch` resolves a key from the most recent matching
batch entry.  On a key-sorted slice `A ++ K ++ B` with `K` the run of
entries for the queried key, the last element of `K` decides: a `Put`
outside a deleted range yields `kFound` with its value, a `Put` inside a
deleted range yields `kDeleted`, and a `Delete`/`SingleDelete` yields
`kDeleted`. -/
theorem C2_getFromBatch_last_entry (A K B : List BEntry) (k : Nat)
    (ow : Bool) (dr : List IEntry)
    (mergeFun : Option Nat → List Nat → Option Nat)
    (hA : ∀ x ∈ A, x.key < k) (hK : ∀ x ∈ K, x.key = k)
    (hB : ∀ x ∈ B, k < x.key) (e : BEntry) (hlast : K.getLast? = some e) :
    (e.wtype = WType.putRecord → e.inDelRange = false →
      getFromBatch (A ++ K ++ B) dr k ow mergeFun = GFBResult.kFound e.value) ∧
    (e.wtype = WType.putRecord → e.inDelRange = true →
      getFromBatch (A ++ K ++ B) dr k ow mergeFun = GFBResult.kDeleted) ∧
    (e.wtype = WType.deleteRecord ∨ e.wtype = WType.singleDeleteRecord →
      getFromBatch (A ++ K ++ B) dr k ow mergeFun = GFBResult.kDeleted) := by
  obtain ⟨K', rfl⟩ : ∃ K', K = K' ++ [e] := by
    cases K with
    | nil => exact Option.noConfusion hlast
    | cons a K =>
      rw [List.getLast?_eq_getLast (a :: K) (by simp)] at hlast
      rw [Option.some_inj] at hlast
      exact ⟨(a :: K).dropLast, by
        rw [← hlast]
        exact (List.dropLast_append_getLast (by simp)).symm⟩
  have hke : e.key = k := hK e (by simp)
  have hidx : gfbStartIdx (A ++ (K' ++ [e]) ++ B) k
      = some (A.length + K'.length) := by
    unfold gfbStartIdx
    cases B with
    | nil =>
      rw [findIdx?_none_of_all _ _ (by
        intro x hx
        simp only [List.append_nil, List.mem_append, List.mem_singleton] at hx
        simp only [decide_eq_false_iff_not, not_lt]
        rcases hx with hx | hx | rfl
        · have := hA x hx
          omega
        · have := hK x (by simp [hx])
          omega
        · omega)]
      rw [if_neg (by simp)]
      simp only [Option.some_inj]
      simp
    | cons b B' =>
      have hsplit : A ++ (K' ++ [e]) ++ (b :: B') =
          (A ++ (K' ++ [e])) ++ b :: B' := by simp
      rw [hsplit, findIdx?_append_first _ _ _ _ (by
          intro x hx
          simp only [List.mem_append, List.mem_singleton] at hx
          simp only [decide_eq_false_iff_not, not_lt]
          rcases hx with hx | hx | rfl
          · have := hA x hx
            omega
          · have := hK x (by simp [hx])
            omega
          · omega)
        (by
          simp only [decide_eq_true_eq]
          exact hB b (by simp))]
      simp only [List.length_append, List.length_append, List.length_singleton]
      rfl
  have hgetD : (A ++ (K' ++ [e]) ++ B).getD (A.length + K'.length) dfltBEntry
      = e := by
    have hsplit : A ++ (K' ++ [e]) ++ B = (A ++ K') ++ e :: B := by simp
    rw [hsplit, show A.length + K'.length = (A ++ K').length by simp,
      getD_append_length]
  refine ⟨?_, ?_, ?_⟩
  · intro ht hd
    unfold getFromBatch
    rw [hidx]
    simp only
    rw [gfbWalk_first_break _ _ _ _ _ _ (by rw [hgetD, hke])
      (by rw [hgetD]; unfold gfbSwitch; rw [ht]; simp only [hd]; rfl)]
    rw [hgetD]
    unfold gfbSwitch
    rw [ht]
    simp [hd]
  · intro ht hd
    unfold getFromBatch
    rw [hidx]
    simp only
    rw [gfbWalk_first_break _ _ _ _ _ _ (by rw [hgetD, hke])
      (by rw [hgetD]; unfold gfbSwitch; rw [ht]; simp only [hd]; rfl)]
    rw [hgetD]
    unfold gfbSwitch
    rw [ht]
    simp [hd]
  · intro ht
    unfold getFromBatch
    rw [hidx]
    simp only
    rcases ht with ht | ht <;>
      (rw [gfbWalk_first_break _ _ _ _ _ _ (by rw [hgetD, hke])
        (by rw [hgetD]; unfold gfbSwitch; rw [ht]; rfl)]
       rw [hgetD]
       unfold gfbSwitch
       rw [ht]
       rfl)

theorem C2_getFromBatch_last_entry_witness :
    getFromBatch ([⟨1, WType.putRecord, 5, false⟩] ++
        [⟨4, WType.deleteRecord, 0, false⟩, ⟨4, WType.putRecord, 7, false⟩] ++
        [⟨9, WType.putRecord, 2, false⟩]) [] 4 false (fun _ _ => none)
      = GFBResult.kFound 7 :=
  (C2_getFromBatch_last_entry [⟨1, WType.putRecord, 5, false⟩]
    [⟨4, WType.deleteRecord, 0, false⟩, ⟨4, WType.putRecord, 7, false⟩]
    [⟨9, WType.putRecord, 2, false⟩] 4 false [] (fun _ _ => none)
    (by decide) (by decide) (by decide) ⟨4, WType.putRecord, 7, false⟩
    (by decide)).1 rfl rfl

/-- Claim C6: when no batch entry matches the key, `GetFromBatch` consults
the deleted-range interval map: membership yields `kDeleted`, otherwise
the result stays `kNotFound`. -/
theorem C6_getFromBatch_notFound (L : List BEntry) (dr : List IEntry)
    (k : Nat) (ow : Bool) (mergeFun : Option Nat → List Nat → Option Nat)
    (hnone : ∀ x ∈ L, x.key ≠ k) :
    getFromBatch L dr k ow mergeFun
      = if isInInterval dr k then GFBResult.kDeleted
        else GFBResult.kNotFound := by
  unfold getFromBatch
  cases hidx : gfbStartIdx L k with
  | none => rfl
  | some i =>
    have hi : i < L.length := gfbStartIdx_lt hidx
    have hkey : (L.getD i dfltBEntry).key ≠ k :=
      hnone (L.getD i dfltBEntry) (getD_mem L i dfltBEntry hi)
    simp only
    cases i with
    | zero =>
      unfold gfbWalk
      rw [if_pos (by simpa using hkey)]
    | succ i' =>
      unfold gfbWalk
      rw [if_pos (by simpa using hkey)]

theorem C6_getFromBatch_notFound_witness :
    getFromBatch [⟨1, WType.putRecord, 5, false⟩] (foldAdd [(2, 6)]) 3 false
        (fun _ _ => none)
      = if isInInterval (foldAdd [(2, 6)]) 3 then GFBResult.kDeleted
        else GFBResult.kNotFound :=
  C6_getFromBatch_notFound [⟨1, WType.putRecord, 5, false⟩] (foldAdd [(2, 6)])
    3 false (fun _ _ => none) (by decide)

/-! ### The index-entry comparator claim -/

/-- Claim C5: the index-entry comparator orders entries by
`(column_family, key, offset)`: a larger column family is larger; within a
column family an `is_min_in_cf` probe compares below every real entry; the
keys compared are the `search_key` when set and the decoded record key
otherwise, using the column family's comparator when configured and the
default comparator otherwise; equal keys are ordered by offset. -/
theorem C5_entry_comparator
    (cfCmps : List (Option (List Nat → List Nat → Int)))
    (defCmp : List Nat → List Nat → Int) (e1 e2 : WBIndexEntry) :
    (e1.columnFamily < e2.columnFamily →
      wbeCompare cfCmps defCmp e1 e2 = -1) ∧
    (e2.columnFamily < e1.columnFamily →
      wbeCompare cfCmps defCmp e1 e2 = 1) ∧
    (e1.columnFamily = e2.columnFamily → e1.minInCf = true →
      e2.minInCf = false → wbeCompare cfCmps defCmp e1 e2 = -1) ∧
    (e1.columnFamily = e2.columnFamily → e1.minInCf = false →
      e2.minInCf = true → wbeCompare cfCmps defCmp e1 e2 = 1) ∧
    (e1.columnFamily = e2.columnFamily → e1.minInCf = false →
      e2.minInCf = false →
      compareKeyCF cfCmps defCmp e1.columnFamily (effectiveKey e1)
          (effectiveKey e2) ≠ 0 →
      wbeCompare cfCmps defCmp e1 e2
        = compareKeyCF cfCmps defCmp e1.columnFamily (effectiveKey e1)
            (effectiveKey e2)) ∧
    (e1.columnFamily = e2.columnFamily → e1.minInCf = false →
      e2.minInCf = false →
      compareKeyCF cfCmps defCmp e1.columnFamily (effectiveKey e1)
          (effectiveKey e2) = 0 →
      wbeCompare cfCmps defCmp e1 e2
        = if e2.offset < e1.offset then 1
          else if e1.offset < e2.offset then -1 else 0) ∧
    (∀ cf : Nat, ∀ k1 k2 : List Nat,
      ∀ c : List Nat → List Nat → Int,
      cfCmps.getD cf none = some c →
      compareKeyCF cfCmps defCmp cf k1 k2 = c k1 k2) ∧
    (∀ cf : Nat, ∀ k1 k2 : List Nat,
      cfCmps.getD cf none = none →
      compareKeyCF cfCmps defCmp cf k1 k2 = defCmp k1 k2) := by
  refine ⟨?_, ?_, ?_, ?_, ?_, ?_, ?_, ?_⟩
  · intro h
    unfold wbeCompare
    rw [if_neg (by omega), if_pos h]
  · intro h
    unfold wbeCompare
    rw [if_pos h]
  · intro hcf h1 _
    unfold wbeCompare
    rw [if_neg (by omega), if_neg (by omega), if_pos h1]
  · intro hcf h1 h2
    unfold wbeCompare
    rw [if_neg (by omega), if_neg (by omega), if_neg (by simp [h1]),
      if_pos h2]
  · intro hcf h1 h2 hcmp
    unfold wbeCompare
    rw [if_neg (by omega), if_neg (by omega), if_neg (by simp [h1]),
      if_neg (by simp [h2])]
    simp only [if_pos hcmp]
  · intro hcf h1 h2 hcmp
    unfold wbeCompare
    rw [if_neg (by omega), if_neg (by omega), if_neg (by simp [h1]),
      if_neg (by simp [h2])]
    simp only [hcmp]
    rw [if_neg (by simp)]
  · intro cf k1 k2 c hc
    unfold compareKeyCF
    have hcf : cf < cfCmps.length := by
      by_contra hge
      rw [List.getD_eq_default] at hc
      · exact Option.noConfusion hc
      · omega
    rw [dif_pos hcf]
    rw [List.getD_eq_getElem cfCmps none hcf] at hc
    rw [hc]
  · intro cf k1 k2 hc
    unfold compareKeyCF
    by_cases hcf : cf < cfCmps.length
    · rw [dif_pos hcf]
      rw [List.getD_eq_getElem cfCmps none hcf] at hc
      rw [hc]
    · rw [dif_neg hcf]

theorem C5_entry_comparator_witness :
    wbeCompare [] (fun _ _ => 0) ⟨0, 4, [1], none, false⟩
      ⟨1, 2, [0], none, false⟩ = -1 :=
  (C5_entry_comparator [] (fun _ _ => 0) ⟨0, 4, [1], none, false⟩
    ⟨1, 2, [0], none, false⟩).1 (by decide)

/-! ### Cursor well-formedness for the merge iterator -/

theorem firstGE_wf {L : List Nat} {k i : Nat} (h : firstGE L k = some i) :
    i < L.length :=
  (List.findIdx?_eq_some_iff_findIdx_eq.mp h).1

theorem lastIdx_wf {α : Type} {L : List α} {i : Nat}
    (h : lastIdx L = some i) : i < L.length := by
  unfold lastIdx at h
  by_cases hL : L.isEmpty
  · rw [if_pos hL] at h
    exact Option.noConfusion h
  · rw [if_neg hL] at h
    rw [Option.some_inj] at h
    have : L.length ≠ 0 := by
      cases L with
      | nil => simp at hL
      | cons a L => simp
    omega

theorem lastLE_wf {L : List Nat} {k i : Nat} (h : lastLE L k = some i) :
    i < L.length := by
  unfold lastLE at h
  cases hf : L.findIdx? (fun x => decide (k < x)) with
  | none =>
    rw [hf] at h
    exact lastIdx_wf h
  | some j =>
    rw [hf] at h
    have hj := (List.findIdx?_eq_some_iff_findIdx_eq.mp hf).1
    cases j with
    | zero => exact Option.noConfusion h
    | succ j' =>
      rw [Option.some_inj] at h
      omega

theorem optNext_wf {n i : Nat} {p : Option Nat} (h : optNext n p = some i) :
    i < n := by
  cases p with
  | none => exact Option.noConfusion h
  | some j =>
    simp only [optNext] at h
    split at h
    · rw [Option.some_inj] at h
      omega
    · exact Option.noConfusion h

theorem optPrev_wf {n i : Nat} {p : Option Nat}
    (hp : ∀ j : Nat, p = some j → j < n) (h : optPrev p = some i) : i < n := by
  cases p with
  | none => exact Option.noConfusion h
  | some j =>
    simp only [optPrev] at h
    split at h
    · exact Option.noConfusion h
    · rw [Option.some_inj] at h
      have := hp j rfl
      omega

theorem advD_wf {c : BDCfg} {fwd : Bool} {p : Option Nat} {j : Nat}
    (hp : ∀ j' : Nat, p = some j' → j' < c.delta.length)
    (h : advD c fwd p = some j) : j < c.delta.length := by
  unfold advD at h
  cases fwd with
  | true => exact optNext_wf (by simpa using h)
  | false => exact optPrev_wf hp (by simpa using h)

theorem optBound_some {n j : Nat} (h : j < n) :
    ∀ i : Nat, (some j : Option Nat) = some i → i < n :=
  fun _ hi => Option.some_inj.mp hi ▸ h

theorem optBound_none {n : Nat} :
    ∀ i : Nat, (none : Option Nat) = some i → i < n :=
  fun _ hi => Option.noConfusion hi

theorem seekFirstBound {α : Type} {L : List α} {j : Nat}
    (h : (if L.isEmpty then (none : Option Nat) else some 0) = some j) :
    j < L.length := by
  split at h
  · exact Option.noConfusion h
  · rename_i hne
    rw [Option.some_inj] at h
    cases hL : L with
    | nil =>
      rw [hL] at hne
      exact absurd rfl hne
    | cons a t =>
      rw [← h]
      simp

theorem dKeys_length (c : BDCfg) : (dKeys c).length = c.delta.length := by
  simp [dKeys]

theorem length_pos_of_not_isEmpty {α : Type} {L : List α}
    (h : ¬ L.isEmpty = true) : 0 < L.length := by
  cases L with
  | nil => exact absurd rfl h
  | cons a t => simp

theorem ucGo_wfd (c : BDCfg) :
    ∀ fuel : Nat, ∀ s : BDState,
      (∀ j : Nat, s.dPos = some j → j < c.delta.length) →
      ∀ j : Nat, (ucGo c fuel s).dPos = some j → j < c.delta.length := by
  intro fuel
  induction fuel with
  | zero => intro s hs; exact hs
  | succ fuel ih =>
    intro s hs
    unfold ucGo
    by_cases h1 : s.dPos = none ∧ c.dStat ≠ MStatus.ok
    · rw [if_pos h1]
      exact hs
    · rw [if_neg h1]
      cases hb : s.bPos with
      | none =>
        cases hd : s.dPos with
        | none =>
          by_cases h2 : c.bStat ≠ MStatus.ok
          · simp only [if_pos h2]
            exact optBound_none
          · simp only [if_neg h2]
            exact optBound_none
        | some j0 =>
          by_cases h2 : c.bStat ≠ MStatus.ok
          · simp only [if_pos h2]
            exact optBound_some (hs j0 hd)
          · simp only [if_neg h2]
            by_cases h3 : ubExceeded c (dEntryAt c j0).1
            · simp only [if_pos h3]
              exact optBound_some (hs j0 hd)
            · simp only [if_neg h3]
              by_cases h4 : isTomb (dEntryAt c j0).2
              · simp only [if_pos h4]
                exact ih _ (fun j' hj' => advD_wf (optBound_some (hs j0 hd)) hj')
              · simp only [if_neg h4]
                exact optBound_some (hs j0 hd)
      | some i =>
        cases hd : s.dPos with
        | none => exact optBound_none
        | some j0 =>
          by_cases h2 : (if s.fwd then (1 : Int) else -1) *
              natCmp (dEntryAt c j0).1 (bKeyAt c i) ≤ 0
          · simp only [if_pos h2]
            by_cases h3 : isTomb (dEntryAt c j0).2 = false
            · simp only [if_pos h3]
              split <;> split <;> exact optBound_some (hs j0 hd)
            · simp only [if_neg h3]
              split <;>
                exact ih _ (fun j' hj' => advD_wf (optBound_some (hs j0 hd)) hj')
          · simp only [if_neg h2]
            exact optBound_some (hs j0 hd)

theorem bdAdvance_wfd (c : BDCfg) (s : BDState)
    (hs : ∀ j : Nat, s.dPos = some j → j < c.delta.length) :
    ∀ j : Nat, (bdAdvance c s).dPos = some j → j < c.delta.length := by
  refine ucGo_wfd c _ _ ?_
  intro j hj
  split_ifs at hj
  · exact advD_wf hs hj
  · exact hs j hj
  · exact advD_wf hs hj

theorem bdReverseToFwd_wfd (c : BDCfg) (s : BDState)
    (hs : ∀ j : Nat, s.dPos = some j → j < c.delta.length) :
    ∀ j : Nat, (bdReverseToFwd c s).dPos = some j → j < c.delta.length := by
  intro j hj
  simp only [bdReverseToFwd] at hj
  split_ifs at hj
  all_goals first
    | exact hs j hj
    | exact advD_wf hs (show advD c true s.dPos = some j from hj)
    | exact Option.noConfusion (show (none : Option Nat) = some j from hj)
    | (have hz : (some 0 : Option Nat) = some j := hj
       rw [Option.some_inj] at hz
       rw [← hz]
       exact length_pos_of_not_isEmpty (by assumption))

theorem bdReverseToBwd_wfd (c : BDCfg) (s : BDState)
    (hs : ∀ j : Nat, s.dPos = some j → j < c.delta.length) :
    ∀ j : Nat, (bdReverseToBwd c s).dPos = some j → j < c.delta.length := by
  intro j hj
  simp only [bdReverseToBwd] at hj
  split_ifs at hj
  all_goals first
    | exact hs j hj
    | exact advD_wf hs (show advD c false s.dPos = some j from hj)
    | exact lastIdx_wf (show lastIdx c.delta = some j from hj)

theorem bdStep_wfd (c : BDCfg) (s : BDState)
    (hs : ∀ j : Nat, s.dPos = some j → j < c.delta.length) (op : BDOp) :
    ∀ j : Nat, (bdStep c s op).dPos = some j → j < c.delta.length := by
  cases op with
  | opSeekToFirst =>
    exact ucGo_wfd c _ _ (fun j hj => seekFirstBound hj)
  | opSeekToLast =>
    exact ucGo_wfd c _ _ (fun j hj => lastIdx_wf hj)
  | opSeek k =>
    exact ucGo_wfd c _ _ (fun j hj => dKeys_length c ▸ firstGE_wf hj)
  | opSeekForPrev k =>
    exact ucGo_wfd c _ _ (fun j hj => dKeys_length c ▸ lastLE_wf hj)
  | opNext =>
    intro j hj
    replace hj : (bdNext c s).dPos = some j := hj
    unfold bdNext at hj
    split at hj
    · exact hs j hj
    · split at hj
      · exact bdAdvance_wfd c _ (bdReverseToFwd_wfd c s hs) j hj
      · exact bdAdvance_wfd c _ hs j hj
  | opPrev =>
    intro j hj
    replace hj : (bdPrev c s).dPos = some j := hj
    unfold bdPrev at hj
    split at hj
    · exact hs j hj
    · split at hj
      · exact bdAdvance_wfd c _ (bdReverseToBwd_wfd c s hs) j hj
      · exact bdAdvance_wfd c _ hs j hj

theorem bdRun_wfd (c : BDCfg) (ops : List BDOp) :
    ∀ j : Nat, (bdRun c ops).dPos = some j → j < c.delta.length := by
  have hgo : ∀ ops' : List BDOp, ∀ s : BDState,
      (∀ j : Nat, s.dPos = some j → j < c.delta.length) →
      ∀ j : Nat, (List.foldl (bdStep c) s ops').dPos = some j →
        j < c.delta.length := by
    intro ops'
    induction ops' with
    | nil => intro s hs; exact hs
    | cons op ops' ih =>
      intro s hs
      exact ih _ (bdStep_wfd c s hs op)
  exact hgo ops bdInit optBound_none

/-! ### The merge iterator never presents a delta tombstone (no upper bound) -/

theorem dEntryAt_default (c : BDCfg) (j : Nat) (h : c.delta.length ≤ j) :
    dEntryAt c j = (0, WType.putRecord) := by
  unfold dEntryAt
  exact List.getD_eq_default _ _ h

theorem dRemaining_le (c : BDCfg) (s : BDState)
    (hs : ∀ j : Nat, s.dPos = some j → j < c.delta.length) :
    dRemaining c s ≤ c.delta.length := by
  unfold dRemaining
  cases hdq : s.dPos with
  | none => exact Nat.zero_le _
  | some j0 =>
    have := hs j0 hdq
    show (if s.fwd = true then c.delta.length - j0 else j0 + 1) ≤ c.delta.length
    split <;> omega

theorem dRemaining_advD (c : BDCfg) (s t : BDState) (j0 : Nat)
    (hj0 : j0 < c.delta.length) (hd : s.dPos = some j0)
    (hf : t.fwd = s.fwd) (ht : t.dPos = advD c s.fwd (some j0)) :
    dRemaining c t < dRemaining c s := by
  cases hsf : s.fwd with
  | true =>
    have hs2 : dRemaining c s = c.delta.length - j0 := by
      simp [dRemaining, hd, hsf]
    by_cases hjl : j0 + 1 < c.delta.length
    · have ht2 : dRemaining c t = c.delta.length - (j0 + 1) := by
        simp [dRemaining, ht, hf, hsf, advD, optNext, hjl]
      omega
    · have ht2 : dRemaining c t = 0 := by
        simp [dRemaining, ht, hf, hsf, advD, optNext, hjl]
      omega
  | false =>
    have hs2 : dRemaining c s = j0 + 1 := by
      simp [dRemaining, hd, hsf]
    by_cases hj00 : j0 = 0
    · have ht2 : dRemaining c t = 0 := by
        simp [dRemaining, ht, hf, hsf, advD, optPrev, hj00]
      omega
    · have ht2 : dRemaining c t = j0 - 1 + 1 := by
        simp [dRemaining, ht, hf, hsf, advD, optPrev, hj00]
      omega

theorem ucGo_no_tomb (c : BDCfg) (hub : c.ub = none) :
    ∀ fuel : Nat, ∀ s : BDState, dRemaining c s < fuel →
      ∀ j : Nat, (ucGo c fuel s).atBase = false →
        (ucGo c fuel s).dPos = some j → isTomb (dEntryAt c j).2 = false := by
  intro fuel
  induction fuel with
  | zero => intro s hlt; omega
  | succ fuel ih =>
    intro s hlt j
    unfold ucGo
    by_cases h1 : s.dPos = none ∧ c.dStat ≠ MStatus.ok
    · rw [if_pos h1]
      intro _ hdp
      replace hdp : s.dPos = some j := hdp
      rw [h1.1] at hdp
      exact Option.noConfusion hdp
    · rw [if_neg h1]
      cases hb : s.bPos with
      | none =>
        cases hd : s.dPos with
        | none =>
          by_cases h2 : c.bStat ≠ MStatus.ok
          · simp only [if_pos h2]
            intro _ hdp
            exact Option.noConfusion (show (none : Option Nat) = some j from hdp)
          · simp only [if_neg h2]
            intro _ hdp
            exact Option.noConfusion (show (none : Option Nat) = some j from hdp)
        | some j0 =>
          by_cases h2 : c.bStat ≠ MStatus.ok
          · simp only [if_pos h2]
            intro hat _
            exact Bool.noConfusion (show true = false from hat)
          · simp only [if_neg h2]
            have hub' : ubExceeded c (dEntryAt c j0).1 = false := by
              simp [ubExceeded, hub]
            simp only [hub', Bool.false_eq_true, if_false]
            by_cases h4 : isTomb (dEntryAt c j0).2
            · simp only [if_pos h4]
              have hj0 : j0 < c.delta.length := by
                by_contra hge
                rw [not_lt] at hge
                rw [dEntryAt_default c j0 hge] at h4
                exact Bool.noConfusion h4
              refine ih _ ?_ j
              exact Nat.lt_of_lt_of_le (dRemaining_advD c s _ j0 hj0 hd rfl rfl)
                (Nat.lt_succ_iff.mp hlt)
            · simp only [if_neg h4]
              intro _ hdp
              replace hdp : (some j0 : Option Nat) = some j := hdp
              rw [Option.some_inj] at hdp
              rw [← hdp]
              simpa using h4
      | some i =>
        cases hd : s.dPos with
        | none =>
          intro hat _
          exact Bool.noConfusion (show true = false from hat)
        | some j0 =>
          by_cases h2 : (if s.fwd then (1 : Int) else -1) *
              natCmp (dEntryAt c j0).1 (bKeyAt c i) ≤ 0
          · simp only [if_pos h2]
            by_cases h3 : isTomb (dEntryAt c j0).2 = false
            · simp only [if_pos h3]
              split <;> split
              all_goals
                intro _ hdp
              all_goals
                replace hdp : (some j0 : Option Nat) = some j := hdp
              all_goals
                rw [Option.some_inj] at hdp
              all_goals
                rw [← hdp]
              all_goals
                exact h3
            · simp only [if_neg h3]
              have h4 : isTomb (dEntryAt c j0).2 = true := by
                cases hbv : isTomb (dEntryAt c j0).2 with
                | true => rfl
                | false => exact absurd hbv h3
              have hj0 : j0 < c.delta.length := by
                by_contra hge
                rw [not_lt] at hge
                rw [dEntryAt_default c j0 hge] at h4
                exact Bool.noConfusion h4
              split <;> split
              all_goals
                refine ih _ ?_ j
              all_goals
                exact Nat.lt_of_lt_of_le (dRemaining_advD c s _ j0 hj0 hd rfl rfl)
                  (Nat.lt_succ_iff.mp hlt)
          · simp only [if_neg h2]
            intro hat _
            exact Bool.noConfusion (show true = false from hat)

theorem updateCurrent_no_tomb (c : BDCfg) (hub : c.ub = none) (s : BDState)
    (hs : ∀ j : Nat, s.dPos = some j → j < c.delta.length) :
    ∀ j : Nat, (updateCurrent c s).atBase = false →
      (updateCurrent c s).dPos = some j → isTomb (dEntryAt c j).2 = false := by
  intro j hat hdp
  refine ucGo_no_tomb c hub (c.base.length + c.delta.length + 2)
    { s with stat := MStatus.ok } ?_ j hat hdp
  have hle : dRemaining c { s with stat := MStatus.ok } ≤ c.delta.length :=
    dRemaining_le c _ (fun j' hj' => hs j' hj')
  omega

theorem bdAdvance_no_tomb (c : BDCfg) (hub : c.ub = none) (s : BDState)
    (hs : ∀ j : Nat, s.dPos = some j → j < c.delta.length) :
    ∀ j : Nat, (bdAdvance c s).atBase = false →
      (bdAdvance c s).dPos = some j → isTomb (dEntryAt c j).2 = false := by
  intro j hat hdp
  refine updateCurrent_no_tomb c hub _ ?_ j hat hdp
  intro j' hj'
  split_ifs at hj'
  · exact advD_wf hs hj'
  · exact hs j' hj'
  · exact advD_wf hs hj'

theorem bdStep_no_tomb (c : BDCfg) (hub : c.ub = none) (s : BDState)
    (hs : ∀ j : Nat, s.dPos = some j → j < c.delta.length) (op : BDOp) :
    ∀ j : Nat, (bdStep c s op).stat = MStatus.ok →
      (bdStep c s op).atBase = false → (bdStep c s op).dPos = some j →
      isTomb (dEntryAt c j).2 = false := by
  cases op with
  | opSeekToFirst =>
    intro j _ hat hdp
    exact updateCurrent_no_tomb c hub _ (fun j' hj' => seekFirstBound hj')
      j hat hdp
  | opSeekToLast =>
    intro j _ hat hdp
    exact updateCurrent_no_tomb c hub _ (fun j' hj' => lastIdx_wf hj') j hat hdp
  | opSeek k =>
    intro j _ hat hdp
    exact updateCurrent_no_tomb c hub _
      (fun j' hj' => dKeys_length c ▸ firstGE_wf hj') j hat hdp
  | opSeekForPrev k =>
    intro j _ hat hdp
    exact updateCurrent_no_tomb c hub _
      (fun j' hj' => dKeys_length c ▸ lastLE_wf hj') j hat hdp
  | opNext =>
    intro j hst hat hdp
    show isTomb (dEntryAt c j).2 = false
    unfold bdStep bdNext at hst hat hdp
    by_cases hv : bdValid s = false
    · rw [if_pos hv] at hst
      exact MStatus.noConfusion (show MStatus.notSupported = MStatus.ok from hst)
    · rw [if_neg hv] at hat hdp
      by_cases hf : s.fwd = false
      · rw [if_pos hf] at hat hdp
        exact bdAdvance_no_tomb c hub _ (bdReverseToFwd_wfd c s hs) j hat hdp
      · rw [if_neg hf] at hat hdp
        exact bdAdvance_no_tomb c hub _ hs j hat hdp
  | opPrev =>
    intro j hst hat hdp
    show isTomb (dEntryAt c j).2 = false
    unfold bdStep bdPrev at hst hat hdp
    by_cases hv : bdValid s = false
    · rw [if_pos hv] at hst
      exact MStatus.noConfusion (show MStatus.notSupported = MStatus.ok from hst)
    · rw [if_neg hv] at hat hdp
      by_cases hf : s.fwd = true
      · rw [if_pos hf] at hat hdp
        exact bdAdvance_no_tomb c hub _ (bdReverseToBwd_wfd c s hs) j hat hdp
      · rw [if_neg hf] at hat hdp
        exact bdAdvance_no_tomb c hub _ hs j hat hdp

theorem bdRun_no_tomb (c : BDCfg) (hub : c.ub = none) (ops : List BDOp) :
    ∀ j : Nat, (bdRun c ops).stat = MStatus.ok →
      (bdRun c ops).atBase = false → (bdRun c ops).dPos = some j →
      isTomb (dEntryAt c j).2 = false := by
  have hgo : ∀ ops' : List BDOp, ∀ s : BDState,
      (∀ j : Nat, s.dPos = some j → j < c.delta.length) →
      (∀ j : Nat, s.stat = MStatus.ok → s.atBase = false → s.dPos = some j →
        isTomb (dEntryAt c j).2 = false) →
      ∀ j : Nat, (List.foldl (bdStep c) s ops').stat = MStatus.ok →
        (List.foldl (bdStep c) s ops').atBase = false →
        (List.foldl (bdStep c) s ops').dPos = some j →
        isTomb (dEntryAt c j).2 = false := by
    intro ops'
    induction ops' with
    | nil => intro s _ hP; exact hP
    | cons op ops' ih =>
      intro s hs hP
      exact ih _ (bdStep_wfd c s hs op)
        (fun j h1 h2 h3 => bdStep_no_tomb c hub s hs op j h1 h2 h3)
  exact hgo ops bdInit optBound_none (fun j _ h2 _ => Bool.noConfusion h2)

/-- Claim C7, counterexample to the unrestricted statement: with
`iterate_upper_bound = 5` over an empty base and delta entries
`(3, Put), (7, Delete)`, `SeekToFirst` presents the delta entry `3`; `Next`
advances the delta cursor to the tombstone `7`, and `UpdateCurrent` returns
at the upper-bound check before choosing a side, leaving the stale
`current_at_base_ = false` in place: the iterator is Valid, the current
side is the delta, and the presented entry is a Delete tombstone. -/
theorem C7_counterexample :
    bdValid (bdRun ⟨[], [(3, WType.putRecord), (7, WType.deleteRecord)],
        MStatus.ok, MStatus.ok, some 5⟩
      [BDOp.opSeekToFirst, BDOp.opNext]) = true ∧
    (bdRun ⟨[], [(3, WType.putRecord), (7, WType.deleteRecord)],
        MStatus.ok, MStatus.ok, some 5⟩
      [BDOp.opSeekToFirst, BDOp.opNext]).atBase = false ∧
    isTomb (dEntryAt ⟨[], [(3, WType.putRecord), (7, WType.deleteRecord)],
        MStatus.ok, MStatus.ok, some 5⟩
      ((bdRun ⟨[], [(3, WType.putRecord), (7, WType.deleteRecord)],
          MStatus.ok, MStatus.ok, some 5⟩
        [BDOp.opSeekToFirst, BDOp.opNext]).dPos.getD 0)).2 = true := by
  decide

/-- Claim C7: when no `iterate_upper_bound` is configured, the merge
iterator never presents a delta tombstone: after any sequence of seek and
advance operations, if the iterator is Valid and the current side is the
delta, the delta entry under the cursor is neither a Delete nor a
SingleDelete. -/
theorem C7_no_delta_tombstone (c : BDCfg) (hub : c.ub = none) (ops : List BDOp)
    (hv : bdValid (bdRun c ops) = true)
    (hside : (bdRun c ops).atBase = false) :
    isTomb (dEntryAt c ((bdRun c ops).dPos.getD 0)).2 = false := by
  simp only [bdValid, hside, Bool.false_eq_true, if_false, Bool.and_eq_true,
    decide_eq_true_eq] at hv
  obtain ⟨hstat, hsome⟩ := hv
  obtain ⟨j, hj⟩ := Option.isSome_iff_exists.mp hsome
  rw [hj]
  show isTomb (dEntryAt c j).2 = false
  exact bdRun_no_tomb c hub ops j hstat hside hj

theorem C7_no_delta_tombstone_witness :
    isTomb (dEntryAt ⟨[10, 30], [(20, WType.deleteRecord), (25, WType.putRecord)],
        MStatus.ok, MStatus.ok, none⟩
      ((bdRun ⟨[10, 30], [(20, WType.deleteRecord), (25, WType.putRecord)],
          MStatus.ok, MStatus.ok, none⟩
        [BDOp.opSeek 15]).dPos.getD 0)).2 = false :=
  C7_no_delta_tombstone
    ⟨[10, 30], [(20, WType.deleteRecord), (25, WType.putRecord)],
      MStatus.ok, MStatus.ok, none⟩
    rfl [BDOp.opSeek 15] (by decide) (by decide)

/-! ### status() ordering -/

/-- Claim C9, counterexample to the claimed order: over an empty base
whose iterator status is Corruption, `SeekToFirst` leaves the merge
iterator invalid, and `Next` then sets the sticky own status to
NotSupported; `status()` now returns NotSupported, not the base's
Corruption, so the own sticky status is checked before the base status. -/
theorem C9_counterexample :
    bdStatus ⟨[], [], MStatus.corruption, MStatus.ok, none⟩
        (bdNext ⟨[], [], MStatus.corruption, MStatus.ok, none⟩
          (bdSeekToFirst ⟨[], [], MStatus.corruption, MStatus.ok, none⟩ bdInit))
      = MStatus.notSupported ∧
    (⟨[], [], MStatus.corruption, MStatus.ok, none⟩ : BDCfg).bStat =
      MStatus.corruption ∧
    MStatus.notSupported ≠ MStatus.corruption := by
  decide

/-- Claim C9: corrected order — `status()` returns the merge iterator's own
sticky status first; only when it is OK is the base iterator's status
returned, and only when both are OK the delta iterator's status. -/
theorem C9_status_order (c : BDCfg) (s : BDState) :
    (s.stat ≠ MStatus.ok → bdStatus c s = s.stat) ∧
    (s.stat = MStatus.ok → c.bStat ≠ MStatus.ok → bdStatus c s = c.bStat) ∧
    (s.stat = MStatus.ok → c.bStat = MStatus.ok → bdStatus c s = c.dStat) := by
  refine ⟨?_, ?_, ?_⟩
  · intro h
    unfold bdStatus
    rw [if_pos h]
  · intro h1 h2
    unfold bdStatus
    rw [if_neg (not_not_intro h1), if_pos h2]
  · intro h1 h2
    unfold bdStatus
    rw [if_neg (not_not_intro h1), if_neg (not_not_intro h2)]

theorem C9_status_order_witness :
    bdStatus ⟨[], [], MStatus.corruption, MStatus.ok, none⟩
      ⟨true, true, false, MStatus.notSupported, none, none⟩ =
      MStatus.notSupported :=
  (C9_status_order ⟨[], [], MStatus.corruption, MStatus.ok, none⟩
    ⟨true, true, false, MStatus.notSupported, none, none⟩).1 (by decide)

/-! ### Sorted-cursor lemmas for merged iteration -/

theorem sorted_getD_lt {L : List Nat} (hL : List.Chain' (· < ·) L)
    {i j : Nat} (hij : i < j) (hj : j < L.length) :
    L.getD i 0 < L.getD j 0 := by
  have hp := List.chain'_iff_pairwise.mp hL
  have hi : i < L.length := lt_trans hij hj
  rw [List.getD_eq_getElem L 0 hi, List.getD_eq_getElem L 0 hj]
  exact List.pairwise_iff_getElem.mp hp i j hi hj hij

theorem mem_getD_nat {L : List Nat} {x : Nat} (h : x ∈ L) :
    ∃ j : Nat, j < L.length ∧ L.getD j 0 = x := by
  obtain ⟨j, hj, he⟩ := List.mem_iff_getElem.mp h
  exact ⟨j, hj, by rw [List.getD_eq_getElem L 0 hj]; exact he⟩

theorem firstGE_iff (L : List Nat) (w : Nat) :
    ∀ i : Nat, firstGE L w = some i ↔
      (i < L.length ∧ w ≤ L.getD i 0 ∧ ∀ j : Nat, j < i → L.getD j 0 < w) := by
  induction L with
  | nil =>
    intro i
    constructor
    · intro h
      exact Option.noConfusion (show (none : Option Nat) = some i from h)
    · intro hc
      have := hc.1
      simp at this
  | cons a t ih =>
    intro i
    unfold firstGE
    rw [List.findIdx?_cons]
    by_cases hpa : w ≤ a
    · rw [if_pos (by simpa using hpa)]
      constructor
      · intro h
        rw [Option.some_inj] at h
        subst h
        refine ⟨by simp, by simpa using hpa, ?_⟩
        intro j hj
        omega
      · intro hc
        cases i with
        | zero => rfl
        | succ i' =>
          have := hc.2.2 0 (by omega)
          rw [List.getD_cons_zero] at this
          omega
    · rw [if_neg (by simpa using hpa), List.findIdx?_succ]
      constructor
      · intro h
        cases hft : t.findIdx? (fun x => decide (w ≤ x)) with
        | none =>
          rw [hft] at h
          exact Option.noConfusion h
        | some i' =>
          rw [hft] at h
          simp at h
          rw [← h]
          have hspec := (ih i').mp hft
          refine ⟨by simp; omega, by simpa using hspec.2.1, ?_⟩
          intro j hj
          cases j with
          | zero =>
            rw [List.getD_cons_zero]
            omega
          | succ j' =>
            rw [List.getD_cons_succ]
            exact hspec.2.2 j' (by omega)
      · intro hc
        cases i with
        | zero =>
          rw [List.getD_cons_zero] at hc
          exact absurd hc.2.1 hpa
        | succ i' =>
          have hft : t.findIdx? (fun x => decide (w ≤ x)) = some i' := by
            refine (ih i').mpr ⟨by have := hc.1; simpa using this,
              by have := hc.2.1; simpa using this, ?_⟩
            intro j hj
            have := hc.2.2 (j + 1) (by omega)
            rw [List.getD_cons_succ] at this
            exact this
          rw [hft]
          simp

theorem firstGE_none_iff (L : List Nat) (w : Nat) :
    firstGE L w = none ↔ ∀ x ∈ L, x < w := by
  unfold firstGE
  rw [List.findIdx?_eq_none_iff]
  constructor
  · intro h x hx
    have := h x hx
    simpa using this
  · intro h x hx
    simpa using h x hx

theorem lastLT_some_iff (L : List Nat) (hL : List.Chain' (· < ·) L)
    (w : Nat) :
    ∀ i : Nat, lastLT L w = some i ↔
      (i < L.length ∧ L.getD i 0 < w ∧
        ∀ j : Nat, i < j → j < L.length → w ≤ L.getD j 0) := by
  intro i
  unfold lastLT
  cases hf : L.findIdx? (fun x => decide (w ≤ x)) with
  | none =>
    have hall : ∀ x ∈ L, x < w := (firstGE_none_iff L w).mp hf
    constructor
    · intro h
      replace h : lastIdx L = some i := h
      have hi := lastIdx_wf h
      refine ⟨hi, hall _ (getD_mem L i 0 hi), ?_⟩
      intro j hj1 hj2
      exfalso
      unfold lastIdx at h
      split at h
      · exact Option.noConfusion h
      · rw [Option.some_inj] at h
        omega
    · intro hc
      show lastIdx L = some i
      unfold lastIdx
      split
      · rename_i he
        exfalso
        have := hc.1
        cases hLc : L with
        | nil => rw [hLc] at this; simp at this
        | cons a u => rw [hLc] at he; simp at he
      · rw [Option.some_inj]
        by_contra hne
        have hi : i < L.length - 1 := by
          have := hc.1
          omega
        have := hc.2.2 (L.length - 1) (by omega) (by omega)
        have hmem := hall _ (getD_mem L (L.length - 1) 0 (by omega))
        omega
  | some i0 =>
    have hspec := (firstGE_iff L w i0).mp hf
    cases i0 with
    | zero =>
      constructor
      · intro h
        exact Option.noConfusion (show (none : Option Nat) = some i from h)
      · intro hc
        exfalso
        have h1 : w ≤ L.getD 0 0 := hspec.2.1
        have h2 : L.getD i 0 < w := hc.2.1
        by_cases hi : i = 0
        · rw [hi] at h2
          omega
        · have := sorted_getD_lt hL (show 0 < i by omega) hc.1
          omega
    | succ j0 =>
      constructor
      · intro h
        replace h : some j0 = some i := h
        rw [Option.some_inj] at h
        subst h
        refine ⟨by omega, hspec.2.2 j0 (by omega), ?_⟩
        intro j hj1 hj2
        have hle : L.getD (j0 + 1) 0 ≤ L.getD j 0 := by
          by_cases hje : j = j0 + 1
          · rw [hje]
          · exact le_of_lt (sorted_getD_lt hL (by omega) hj2)
        have := hspec.2.1
        omega
      · intro hc
        show some j0 = some i
        rw [Option.some_inj]
        by_contra hne
        by_cases hlt : i < j0
        · have := hc.2.2 j0 (by omega) (by omega)
          have := hspec.2.2 j0 (by omega)
          omega
        · have hge : j0 + 1 ≤ i := by omega
          have hle : L.getD (j0 + 1) 0 ≤ L.getD i 0 := by
            by_cases hje : i = j0 + 1
            · rw [hje]
            · exact le_of_lt (sorted_getD_lt hL (by omega) hc.1)
          have := hspec.2.1
          have := hc.2.1
          omega

theorem lastLT_none_iff (L : List Nat) (hL : List.Chain' (· < ·) L)
    (w : Nat) : lastLT L w = none ↔ ∀ x ∈ L, w ≤ x := by
  unfold lastLT
  cases hf : L.findIdx? (fun x => decide (w ≤ x)) with
  | none =>
    have hall : ∀ x ∈ L, x < w := (firstGE_none_iff L w).mp hf
    constructor
    · intro h x hx
      replace h : lastIdx L = none := h
      exfalso
      unfold lastIdx at h
      split at h
      · rename_i he
        cases hLc : L with
        | nil => rw [hLc] at hx; simp at hx
        | cons a u => rw [hLc] at he; simp at he
      · exact Option.noConfusion h
    · intro h
      show lastIdx L = none
      cases hLc : L with
      | nil => rfl
      | cons a u =>
        exfalso
        have h1 := hall a (by rw [hLc]; simp)
        have h2 := h a (by rw [hLc]; simp)
        omega
  | some i0 =>
    have hspec := (firstGE_iff L w i0).mp hf
    cases i0 with
    | zero =>
      constructor
      · intro _ x hx
        obtain ⟨j, hjl, hje⟩ := mem_getD_nat hx
        have h0 : w ≤ L.getD 0 0 := hspec.2.1
        by_cases hj : j = 0
        · rw [hj] at hje
          omega
        · have := sorted_getD_lt hL (show 0 < j by omega) hjl
          omega
      · intro _
        rfl
    | succ j0 =>
      constructor
      · intro h
        exact Option.noConfusion (show (some j0 : Option Nat) = none from h)
      · intro h
        exfalso
        have h1 := hspec.2.2 j0 (by omega)
        have h2 := h _ (getD_mem L j0 0 (by omega))
        omega

theorem firstGE_min {L : List Nat} (hL : List.Chain' (· < ·) L) {w j : Nat}
    (h : firstGE L w = some j) {x : Nat} (hx : x ∈ L) (hwx : w ≤ x) :
    L.getD j 0 ≤ x := by
  obtain ⟨j', hj'l, hj'e⟩ := mem_getD_nat hx
  obtain ⟨h1, h2, h3⟩ := (firstGE_iff L w j).mp h
  by_cases hlt : j' < j
  · have := h3 j' hlt
    omega
  · by_cases hje : j' = j
    · subst hje
      omega
    · have := sorted_getD_lt hL (show j < j' by omega) hj'l
      omega

theorem lastLT_max {L : List Nat} (hL : List.Chain' (· < ·) L) {w j : Nat}
    (h : lastLT L w = some j) {x : Nat} (hx : x ∈ L) (hwx : x < w) :
    x ≤ L.getD j 0 := by
  obtain ⟨j', hj'l, hj'e⟩ := mem_getD_nat hx
  obtain ⟨h1, h2, h3⟩ := (lastLT_some_iff L hL w j).mp h
  by_cases hlt : j < j'
  · have := h3 j' hlt hj'l
    omega
  · by_cases hje : j' = j
    · subst hje
      omega
    · have := sorted_getD_lt hL (show j' < j by omega) h1
      omega

theorem optNext_firstGE {L : List Nat} (hL : List.Chain' (· < ·) L)
    {w i : Nat} (h : firstGE L w = some i) :
    optNext L.length (some i) = firstGE L (L.getD i 0 + 1) := by
  obtain ⟨h1, h2, h3⟩ := (firstGE_iff L w i).mp h
  simp only [optNext]
  by_cases hi : i + 1 < L.length
  · rw [if_pos hi]
    symm
    rw [firstGE_iff]
    refine ⟨hi, ?_, ?_⟩
    · have := sorted_getD_lt hL (show i < i + 1 by omega) hi
      omega
    · intro j hj
      have : L.getD j 0 ≤ L.getD i 0 := by
        by_cases hji : j < i
        · exact le_of_lt (sorted_getD_lt hL hji h1)
        · have : j = i := by omega
          rw [this]
      omega
  · rw [if_neg hi]
    symm
    rw [firstGE_none_iff]
    intro x hx
    obtain ⟨j, hjl, hje⟩ := mem_getD_nat hx
    have : L.getD j 0 ≤ L.getD i 0 := by
      by_cases hji : j < i
      · exact le_of_lt (sorted_getD_lt hL hji h1)
      · have : j = i := by omega
        rw [this]
    omega

theorem optPrev_firstGE {L : List Nat} {w i : Nat}
    (h : firstGE L w = some i) : optPrev (some i) = lastLT L w := by
  have hfi : L.findIdx? (fun x => decide (w ≤ x)) = some i := h
  unfold lastLT
  rw [hfi]
  simp only [optPrev]
  cases i with
  | zero => rfl
  | succ i' =>
    rw [if_neg (show ¬ (i' + 1 = 0) by omega)]
    rfl

theorem optPrev_lastLT {L : List Nat} (hL : List.Chain' (· < ·) L)
    {w i : Nat} (h : lastLT L w = some i) :
    optPrev (some i) = lastLT L (L.getD i 0) := by
  obtain ⟨h1, h2, h3⟩ := (lastLT_some_iff L hL w i).mp h
  simp only [optPrev]
  by_cases hi : i = 0
  · rw [if_pos hi]
    symm
    rw [lastLT_none_iff L hL]
    intro x hx
    obtain ⟨j, hjl, hje⟩ := mem_getD_nat hx
    by_cases hj : j = 0
    · subst hj
      rw [hi]
      omega
    · have := sorted_getD_lt hL (show 0 < j by omega) hjl
      rw [hi]
      omega
  · rw [if_neg hi]
    symm
    rw [lastLT_some_iff L hL]
    refine ⟨by omega, sorted_getD_lt hL (by omega) h1, ?_⟩
    intro j hj1 hj2
    by_cases hji : j = i
    · rw [hji]
    · exact le_of_lt (sorted_getD_lt hL (by omega) hj2)

theorem lastIdx_eq_lastLT {L : List Nat} {w : Nat}
    (hall : ∀ x ∈ L, x < w) : lastIdx L = lastLT L w := by
  have hf : L.findIdx? (fun x => decide (w ≤ x)) = none :=
    (firstGE_none_iff L w).mpr hall
  unfold lastLT
  rw [hf]

theorem firstGE_stable {L : List Nat} {w w' i : Nat}
    (h : firstGE L w = some i) (hw : w ≤ w') (hk : w' ≤ L.getD i 0) :
    firstGE L w' = some i := by
  obtain ⟨h1, h2, h3⟩ := (firstGE_iff L w i).mp h
  rw [firstGE_iff]
  exact ⟨h1, hk, fun j hj => lt_of_lt_of_le (h3 j hj) hw⟩

theorem firstGE_none_stable {L : List Nat} {w w' : Nat}
    (h : firstGE L w = none) (hw : w ≤ w') : firstGE L w' = none := by
  rw [firstGE_none_iff] at h ⊢
  intro x hx
  exact lt_of_lt_of_le (h x hx) hw

theorem lastLT_stable {L : List Nat} (hL : List.Chain' (· < ·) L)
    {w w' i : Nat} (h : lastLT L w = some i) (hw : w' ≤ w)
    (hk : L.getD i 0 < w') : lastLT L w' = some i := by
  obtain ⟨h1, h2, h3⟩ := (lastLT_some_iff L hL w i).mp h
  rw [lastLT_some_iff L hL]
  exact ⟨h1, hk, fun j hj1 hj2 => le_trans hw (h3 j hj1 hj2)⟩

theorem lastLT_none_stable {L : List Nat} (hL : List.Chain' (· < ·) L)
    {w w' : Nat} (h : lastLT L w = none) (hw : w' ≤ w) :
    lastLT L w' = none := by
  rw [lastLT_none_iff L hL] at h ⊢
  intro x hx
  exact le_trans hw (h x hx)

theorem firstGE_mem {L : List Nat} (hL : List.Chain' (· < ·) L) {v : Nat}
    (hv : v ∈ L) : ∃ i : Nat, firstGE L v = some i ∧ L.getD i 0 = v := by
  obtain ⟨j, hjl, hje⟩ := mem_getD_nat hv
  refine ⟨j, ?_, hje⟩
  rw [firstGE_iff]
  refine ⟨hjl, by omega, ?_⟩
  intro j' hj'
  have := sorted_getD_lt hL hj' hjl
  omega

theorem lastLT_mem {L : List Nat} (hL : List.Chain' (· < ·) L) {v : Nat}
    (hv : v ∈ L) : ∃ i : Nat, lastLT L (v + 1) = some i ∧ L.getD i 0 = v := by
  obtain ⟨j, hjl, hje⟩ := mem_getD_nat hv
  refine ⟨j, ?_, hje⟩
  rw [lastLT_some_iff L hL]
  refine ⟨hjl, by omega, ?_⟩
  intro j' hj1 hj2
  have := sorted_getD_lt hL hj1 hj2
  omega

theorem firstGE_succ_of_not_mem {L : List Nat} {v : Nat} (hv : ¬ v ∈ L) :
    firstGE L v = firstGE L (v + 1) := by
  cases h : firstGE L v with
  | none => exact (firstGE_none_stable h (by omega)).symm
  | some i =>
    obtain ⟨h1, h2, h3⟩ := (firstGE_iff L v i).mp h
    have hne : L.getD i 0 ≠ v := fun he => hv (he ▸ getD_mem L i 0 h1)
    exact (firstGE_stable h (by omega) (by omega)).symm

/-! ### The visible key sets -/

theorem listMin?_none_iff (L : List Nat) : listMin? L = none ↔ L = [] := by
  cases L with
  | nil => simp [listMin?]
  | cons a t =>
    unfold listMin?
    cases ht : listMin? t with
    | none => simp
    | some m => simp

theorem listMin?_spec : ∀ (L : List Nat) (m : Nat),
    listMin? L = some m → m ∈ L ∧ ∀ x ∈ L, m ≤ x := by
  intro L
  induction L with
  | nil => intro m h; exact Option.noConfusion h
  | cons a t ih =>
    intro m h
    unfold listMin? at h
    cases ht : listMin? t with
    | none =>
      rw [ht] at h
      rw [Option.some_inj] at h
      subst h
      have hte : t = [] := (listMin?_none_iff t).mp ht
      subst hte
      exact ⟨by simp, by simp⟩
    | some mt =>
      rw [ht] at h
      rw [Option.some_inj] at h
      obtain ⟨hmem, hbd⟩ := ih mt ht
      constructor
      · by_cases hle : a ≤ mt
        · have : m = a := by omega
          rw [this]
          simp
        · have : m = mt := by omega
          rw [this]
          simp [hmem]
      · intro x hx
        rcases List.mem_cons.mp hx with hxa | hxt
        · omega
        · have := hbd x hxt
          omega

theorem listMin?_eq_some {L : List Nat} {m : Nat} (hm : m ∈ L)
    (hb : ∀ x ∈ L, m ≤ x) : listMin? L = some m := by
  induction L with
  | nil => simp at hm
  | cons a t ih =>
    unfold listMin?
    cases ht : listMin? t with
    | none =>
      have hte : t = [] := (listMin?_none_iff t).mp ht
      subst hte
      simp at hm
      rw [hm]
    | some mt =>
      rw [Option.some_inj]
      obtain ⟨hmem, _⟩ := listMin?_spec t mt ht
      have h1 : m ≤ a := hb a (by simp)
      have h2 : m ≤ mt := hb mt (by simp [hmem])
      rcases List.mem_cons.mp hm with he | he
      · omega
      · have := (listMin?_spec t mt ht).2 m he
        omega

theorem listMax?_none_iff (L : List Nat) : listMax? L = none ↔ L = [] := by
  cases L with
  | nil => simp [listMax?]
  | cons a t =>
    unfold listMax?
    cases ht : listMax? t with
    | none => simp
    | some m => simp

theorem listMax?_spec : ∀ (L : List Nat) (m : Nat),
    listMax? L = some m → m ∈ L ∧ ∀ x ∈ L, x ≤ m := by
  intro L
  induction L with
  | nil => intro m h; exact Option.noConfusion h
  | cons a t ih =>
    intro m h
    unfold listMax? at h
    cases ht : listMax? t with
    | none =>
      rw [ht] at h
      rw [Option.some_inj] at h
      subst h
      have hte : t = [] := (listMax?_none_iff t).mp ht
      subst hte
      exact ⟨by simp, by simp⟩
    | some mt =>
      rw [ht] at h
      rw [Option.some_inj] at h
      obtain ⟨hmem, hbd⟩ := ih mt ht
      constructor
      · by_cases hle : a ≤ mt
        · have : m = mt := by omega
          rw [this]
          simp [hmem]
        · have : m = a := by omega
          rw [this]
          simp
      · intro x hx
        rcases List.mem_cons.mp hx with hxa | hxt
        · omega
        · have := hbd x hxt
          omega

theorem listMax?_eq_some {L : List Nat} {m : Nat} (hm : m ∈ L)
    (hb : ∀ x ∈ L, x ≤ m) : listMax? L = some m := by
  induction L with
  | nil => simp at hm
  | cons a t ih =>
    unfold listMax?
    cases ht : listMax? t with
    | none =>
      have hte : t = [] := (listMax?_none_iff t).mp ht
      subst hte
      simp at hm
      rw [hm]
    | some mt =>
      rw [Option.some_inj]
      obtain ⟨hmem, _⟩ := listMax?_spec t mt ht
      have h1 : a ≤ m := hb a (by simp)
      have h2 : mt ≤ m := hb mt (by simp [hmem])
      rcases List.mem_cons.mp hm with he | he
      · omega
      · have := (listMax?_spec t mt ht).2 m he
        omega

theorem visGE_eq_some {c : BDCfg} {w v : Nat}
    (hv : v ∈ c.base ∨ v ∈ dKeys c) (hw : w ≤ v) (hvis : isVis c v = true)
    (hmin : ∀ x : Nat, x ∈ c.base ∨ x ∈ dKeys c → w ≤ x →
      isVis c x = true → v ≤ x) :
    visGE c w = some v := by
  unfold visGE
  refine listMin?_eq_some ?_ ?_
  · rw [List.mem_filter]
    refine ⟨by rw [List.mem_append]; exact hv, ?_⟩
    simp [hw, hvis]
  · intro x hx
    rw [List.mem_filter] at hx
    obtain ⟨hx1, hx2⟩ := hx
    simp only [Bool.and_eq_true, decide_eq_true_eq] at hx2
    exact hmin x (List.mem_append.mp hx1) hx2.1 hx2.2

theorem visGE_eq_none {c : BDCfg} {w : Nat}
    (h : ∀ x : Nat, x ∈ c.base ∨ x ∈ dKeys c → w ≤ x → isVis c x = false) :
    visGE c w = none := by
  unfold visGE
  rw [listMin?_none_iff, List.filter_eq_nil_iff]
  intro x hx
  simp only [Bool.and_eq_true, decide_eq_true_eq, not_and]
  intro hwx
  rw [h x (List.mem_append.mp hx) hwx]
  simp

theorem visGE_some_spec {c : BDCfg} {w v : Nat} (h : visGE c w = some v) :
    (v ∈ c.base ∨ v ∈ dKeys c) ∧ w ≤ v ∧ isVis c v = true ∧
    ∀ x : Nat, x ∈ c.base ∨ x ∈ dKeys c → w ≤ x → isVis c x = true →
      v ≤ x := by
  unfold visGE at h
  obtain ⟨hmem, hbd⟩ := listMin?_spec _ v h
  rw [List.mem_filter] at hmem
  obtain ⟨hm1, hm2⟩ := hmem
  simp only [Bool.and_eq_true, decide_eq_true_eq] at hm2
  refine ⟨List.mem_append.mp hm1, hm2.1, hm2.2, ?_⟩
  intro x hx hwx hvx
  refine hbd x ?_
  rw [List.mem_filter]
  refine ⟨List.mem_append.mpr hx, ?_⟩
  simp [hwx, hvx]

theorem visGE_stable {c : BDCfg} {w t : Nat} (hwt : w ≤ t)
    (hgap : ∀ x : Nat, x ∈ c.base ∨ x ∈ dKeys c → w ≤ x → x < t + 1 →
      isVis c x = false) :
    visGE c w = visGE c (t + 1) := by
  unfold visGE
  congr 1
  apply List.filter_congr
  intro x hx
  by_cases hvx : isVis c x = true
  · by_cases hge : t + 1 ≤ x
    · simp [hvx, hge, show w ≤ x by omega]
    · by_cases hwx : w ≤ x
      · exact absurd hvx
          (by simp [hgap x (List.mem_append.mp hx) hwx (by omega)])
      · simp [hwx, hge]
  · have hfx : isVis c x = false := by
      cases hbv : isVis c x with
      | true => exact absurd hbv hvx
      | false => rfl
    simp [hfx]

theorem visLT_eq_some {c : BDCfg} {w v : Nat}
    (hv : v ∈ c.base ∨ v ∈ dKeys c) (hw : v < w) (hvis : isVis c v = true)
    (hmax : ∀ x : Nat, x ∈ c.base ∨ x ∈ dKeys c → x < w →
      isVis c x = true → x ≤ v) :
    visLT c w = some v := by
  unfold visLT
  refine listMax?_eq_some ?_ ?_
  · rw [List.mem_filter]
    refine ⟨by rw [List.mem_append]; exact hv, ?_⟩
    simp [hw, hvis]
  · intro x hx
    rw [List.mem_filter] at hx
    obtain ⟨hx1, hx2⟩ := hx
    simp only [Bool.and_eq_true, decide_eq_true_eq] at hx2
    exact hmax x (List.mem_append.mp hx1) hx2.1 hx2.2

theorem visLT_eq_none {c : BDCfg} {w : Nat}
    (h : ∀ x : Nat, x ∈ c.base ∨ x ∈ dKeys c → x < w → isVis c x = false) :
    visLT c w = none := by
  unfold visLT
  rw [listMax?_none_iff, List.filter_eq_nil_iff]
  intro x hx
  simp only [Bool.and_eq_true, decide_eq_true_eq, not_and]
  intro hwx
  rw [h x (List.mem_append.mp hx) hwx]
  simp

theorem visLT_some_spec {c : BDCfg} {w v : Nat} (h : visLT c w = some v) :
    (v ∈ c.base ∨ v ∈ dKeys c) ∧ v < w ∧ isVis c v = true ∧
    ∀ x : Nat, x ∈ c.base ∨ x ∈ dKeys c → x < w → isVis c x = true →
      x ≤ v := by
  unfold visLT at h
  obtain ⟨hmem, hbd⟩ := listMax?_spec _ v h
  rw [List.mem_filter] at hmem
  obtain ⟨hm1, hm2⟩ := hmem
  simp only [Bool.and_eq_true, decide_eq_true_eq] at hm2
  refine ⟨List.mem_append.mp hm1, hm2.1, hm2.2, ?_⟩
  intro x hx hwx hvx
  refine hbd x ?_
  rw [List.mem_filter]
  refine ⟨List.mem_append.mpr hx, ?_⟩
  simp [hwx, hvx]

theorem visLT_stable {c : BDCfg} {w t : Nat} (htw : t ≤ w)
    (hgap : ∀ x : Nat, x ∈ c.base ∨ x ∈ dKeys c → t ≤ x → x < w →
      isVis c x = false) :
    visLT c w = visLT c t := by
  unfold visLT
  congr 1
  apply List.filter_congr
  intro x hx
  by_cases hvx : isVis c x = true
  · by_cases hlt : x < t
    · simp [hvx, hlt, show x < w by omega]
    · by_cases hxw : x < w
      · exact absurd hvx
          (by simp [hgap x (List.mem_append.mp hx) (by omega) hxw])
      · simp [hxw, show ¬ x < t by omega]
  · have hfx : isVis c x = false := by
      cases hbv : isVis c x with
      | true => exact absurd hbv hvx
      | false => rfl
    simp [hfx]

/-! ### Keys and types under the delta cursor -/

theorem dEntryAt_key (c : BDCfg) (j : Nat) :
    (dEntryAt c j).1 = (dKeys c).getD j 0 := by
  by_cases hj : j < c.delta.length
  · unfold dEntryAt dKeys
    rw [List.getD_eq_getElem _ _ hj,
      List.getD_eq_getElem _ _ (by simpa using hj)]
    simp
  · unfold dEntryAt dKeys
    rw [List.getD_eq_default _ _ (by omega),
      List.getD_eq_default _ _ (by simpa using hj)]

theorem dTypeOf_none_iff (c : BDCfg) (x : Nat) :
    dTypeOf c x = none ↔ ¬ x ∈ dKeys c := by
  unfold dTypeOf
  rw [Option.map_eq_none', List.find?_eq_none]
  constructor
  · intro h hx
    rw [dKeys, List.mem_map] at hx
    obtain ⟨e, he, hek⟩ := hx
    exact h e he (by simp [hek])
  · intro h e he hp
    simp only [decide_eq_true_eq] at hp
    exact h (by rw [dKeys]; exact List.mem_map.mpr ⟨e, he, hp⟩)

theorem find?_of_sorted_keys :
    ∀ D : List (Nat × WType), List.Chain' (· < ·) (D.map Prod.fst) →
      ∀ j : Nat, j < D.length →
        D.find? (fun e => decide (e.1 = (D.getD j (0, WType.putRecord)).1)) =
          some (D.getD j (0, WType.putRecord)) := by
  intro D
  induction D with
  | nil => intro _ j hj; simp at hj
  | cons a t ih =>
    intro hC j hj
    cases j with
    | zero =>
      rw [List.getD_cons_zero]
      exact List.find?_cons_of_pos _ (by simp)
    | succ j' =>
      rw [List.getD_cons_succ]
      have hkey : (t.getD j' (0, WType.putRecord)).1 ∈ t.map Prod.fst := by
        rw [List.mem_map]
        exact ⟨t.getD j' (0, WType.putRecord),
          getD_mem t j' (0, WType.putRecord) (by simpa using hj), rfl⟩
      have hlt : a.1 < (t.getD j' (0, WType.putRecord)).1 := by
        have hp := List.chain'_iff_pairwise.mp hC
        rw [List.map_cons] at hp
        exact List.rel_of_pairwise_cons hp hkey
      rw [List.find?_cons_of_neg _ (by simp only [decide_eq_true_eq]; omega)]
      refine ih ?_ j' (by simpa using hj)
      rw [List.map_cons] at hC
      exact hC.tail

theorem dTypeOf_at_cursor (c : BDCfg) (hD : List.Chain' (· < ·) (dKeys c))
    {j : Nat} (hj : j < c.delta.length) :
    dTypeOf c ((dEntryAt c j).1) = some ((dEntryAt c j).2) := by
  unfold dTypeOf dEntryAt
  rw [find?_of_sorted_keys c.delta hD j hj]
  rfl

theorem isVis_at_cursor (c : BDCfg) (hD : List.Chain' (· < ·) (dKeys c))
    {j : Nat} (hj : j < c.delta.length) :
    isVis c ((dEntryAt c j).1) = !(isTomb ((dEntryAt c j).2)) := by
  unfold isVis
  rw [dTypeOf_at_cursor c hD hj]

theorem lastIdx_delta_dKeys (c : BDCfg) :
    lastIdx c.delta = lastIdx (dKeys c) := by
  unfold lastIdx
  rw [dKeys_length]
  congr 1
  simp [List.isEmpty_iff, dKeys]

/-! ### The UpdateCurrent loop characterised, forward direction -/

theorem ucGo_pres (c : BDCfg) :
    ∀ fuel : Nat, ∀ s : BDState,
      (ucGo c fuel s).stat = s.stat ∧ (ucGo c fuel s).fwd = s.fwd := by
  intro fuel
  induction fuel with
  | zero => intro s; exact ⟨rfl, rfl⟩
  | succ fuel ih =>
    intro s
    unfold ucGo
    dsimp only
    repeat' split
    all_goals first
      | exact ⟨rfl, rfl⟩
      | exact ih _

theorem ucGo_fwd_some (c : BDCfg) (hB : List.Chain' (· < ·) c.base)
    (hD : List.Chain' (· < ·) (dKeys c)) (hub : c.ub = none)
    (hbs : c.bStat = MStatus.ok) (hds : c.dStat = MStatus.ok) :
    ∀ fuel : Nat, ∀ w : Nat, ∀ s : BDState, dRemaining c s < fuel →
      s.fwd = true → s.bPos = firstGE c.base w →
      s.dPos = firstGE (dKeys c) w →
      ∀ v : Nat, visGE c w = some v →
        (ucGo c fuel s).atBase = !(deltaHas c v) ∧
        (ucGo c fuel s).bPos = firstGE c.base v ∧
        (ucGo c fuel s).dPos = firstGE (dKeys c) v ∧
        (ucGo c fuel s).eqKeys = (baseHas c v && deltaHas c v) ∧
        bdKey c (ucGo c fuel s) = v := by
  intro fuel
  induction fuel with
  | zero => intro w s hlt; omega
  | succ fuel ih =>
    intro w s hlt hf hbp hdp v hvg
    unfold ucGo
    rw [if_neg (fun hcon => hcon.2 hds)]
    rw [hbp, hdp]
    dsimp only
    cases hfb : firstGE c.base w with
    | none =>
      cases hfd : firstGE (dKeys c) w with
      | none =>
        exfalso
        have hnone : visGE c w = none := by
          refine visGE_eq_none ?_
          intro x hx hwx
          exfalso
          rcases hx with hxb | hxd
          · have := (firstGE_none_iff _ _).mp hfb x hxb
            omega
          · have := (firstGE_none_iff _ _).mp hfd x hxd
            omega
        rw [hnone] at hvg
        exact Option.noConfusion hvg
      | some j =>
        have hjlen : j < c.delta.length := by
          have := firstGE_wf hfd
          rwa [dKeys_length] at this
        have hspecd := (firstGE_iff (dKeys c) w j).mp hfd
        have htk : (dEntryAt c j).1 = (dKeys c).getD j 0 := dEntryAt_key c j
        have hwt : w ≤ (dKeys c).getD j 0 := hspecd.2.1
        have hdpj : s.dPos = some j := by rw [hdp, hfd]
        dsimp only
        rw [if_neg (not_not_intro hbs)]
        have hub' : ubExceeded c (dEntryAt c j).1 = false := by
          simp [ubExceeded, hub]
        simp only [hub', Bool.false_eq_true, if_false]
        by_cases h4 : isTomb (dEntryAt c j).2
        · rw [if_pos h4]
          have hgap : ∀ x : Nat, x ∈ c.base ∨ x ∈ dKeys c → w ≤ x →
              x < (dKeys c).getD j 0 + 1 → isVis c x = false := by
            intro x hx hwx hxt
            rcases hx with hxb | hxd
            · exact absurd ((firstGE_none_iff _ _).mp hfb x hxb) (by omega)
            · have hge := firstGE_min hD hfd hxd hwx
              have hxe : x = (dKeys c).getD j 0 := by omega
              rw [hxe, ← htk, isVis_at_cursor c hD hjlen]
              simp [h4]
          refine ih ((dKeys c).getD j 0 + 1) _ ?_ ?_ ?_ ?_ v ?_
          · exact Nat.lt_of_lt_of_le (dRemaining_advD c s _ j hjlen hdpj rfl rfl)
              (Nat.lt_succ_iff.mp hlt)
          · exact hf
          · exact (firstGE_none_stable hfb (by omega)).symm
          · show advD c s.fwd (some j) =
              firstGE (dKeys c) ((dKeys c).getD j 0 + 1)
            rw [hf]
            show optNext c.delta.length (some j) = _
            rw [← dKeys_length c]
            exact optNext_firstGE hD hfd
          · rw [← visGE_stable hwt hgap]
            exact hvg
        · rw [if_neg h4]
          have h4' : isTomb (dEntryAt c j).2 = false := by
            cases hbv : isTomb (dEntryAt c j).2 with
            | true => exact absurd hbv h4
            | false => rfl
          have hvt : visGE c w = some ((dKeys c).getD j 0) := by
            refine visGE_eq_some
              (Or.inr (getD_mem _ j 0 (by rwa [dKeys_length]))) hwt ?_ ?_
            · rw [← htk, isVis_at_cursor c hD hjlen, h4']
              rfl
            · intro x hx hwx hvx
              rcases hx with hxb | hxd
              · exact absurd ((firstGE_none_iff _ _).mp hfb x hxb) (by omega)
              · exact firstGE_min hD hfd hxd hwx
          rw [hvt] at hvg
          rw [Option.some_inj] at hvg
          have hdhv : deltaHas c v = true := by
            unfold deltaHas
            rw [decide_eq_true_eq, ← hvg]
            exact getD_mem _ j 0 (by rwa [dKeys_length])
          have hbhv : baseHas c v = false := by
            unfold baseHas
            simp only [decide_eq_false_iff_not]
            intro hvb
            have := (firstGE_none_iff _ _).mp hfb v hvb
            omega
          refine ⟨?_, ?_, ?_, ?_, ?_⟩
          · rw [hdhv]
            rfl
          · exact (firstGE_none_stable hfb (by omega)).symm
          · symm
            exact firstGE_stable hfd (by omega) (by omega)
          · rw [hbhv]
            rfl
          · show (dEntryAt c j).1 = v
            rw [htk]
            exact hvg
    | some i =>
      have hilen : i < c.base.length := firstGE_wf hfb
      have hspecb := (firstGE_iff c.base w i).mp hfb
      have hwb : w ≤ c.base.getD i 0 := hspecb.2.1
      cases hfd : firstGE (dKeys c) w with
      | none =>
        dsimp only
        have hnotd : ¬ c.base.getD i 0 ∈ dKeys c := by
          intro hmem
          have := (firstGE_none_iff _ _).mp hfd _ hmem
          omega
        have hvt : visGE c w = some (c.base.getD i 0) := by
          refine visGE_eq_some (Or.inl (getD_mem _ i 0 hilen)) hwb ?_ ?_
          · unfold isVis
            rw [(dTypeOf_none_iff c _).mpr hnotd]
            show decide (c.base.getD i 0 ∈ c.base) = true
            rw [decide_eq_true_eq]
            exact getD_mem _ i 0 hilen
          · intro x hx hwx hvx
            rcases hx with hxb | hxd
            · exact firstGE_min hB hfb hxb hwx
            · exact absurd ((firstGE_none_iff _ _).mp hfd x hxd) (by omega)
        rw [hvt] at hvg
        rw [Option.some_inj] at hvg
        have hdhv : deltaHas c v = false := by
          unfold deltaHas
          simp only [decide_eq_false_iff_not]
          rw [← hvg]
          exact hnotd
        refine ⟨?_, ?_, ?_, ?_, ?_⟩
        · rw [hdhv]
          rfl
        · symm
          exact firstGE_stable hfb (by omega) (by omega)
        · exact (firstGE_none_stable hfd (by omega)).symm
        · rw [hdhv]
          simp
        · show bKeyAt c i = v
          exact hvg
      | some j =>
        have hjlen : j < c.delta.length := by
          have := firstGE_wf hfd
          rwa [dKeys_length] at this
        have hspecd := (firstGE_iff (dKeys c) w j).mp hfd
        have htk : (dEntryAt c j).1 = (dKeys c).getD j 0 := dEntryAt_key c j
        have hbk : bKeyAt c i = c.base.getD i 0 := rfl
        have hwt : w ≤ (dKeys c).getD j 0 := hspecd.2.1
        have hdpj : s.dPos = some j := by rw [hdp, hfd]
        have hone : (if s.fwd = true then (1 : Int) else -1) = 1 := by
          rw [hf]
          rfl
        dsimp only
        rw [hone, htk, hbk]
        by_cases hlt2 : (dKeys c).getD j 0 < c.base.getD i 0
        · have hcmp : natCmp ((dKeys c).getD j 0) (c.base.getD i 0) = -1 := by
            unfold natCmp
            rw [if_pos hlt2]
          rw [hcmp]
          rw [if_pos (show (1 : Int) * -1 ≤ 0 by norm_num),
            if_neg (show ¬ ((1 : Int) * -1 = 0) by norm_num)]
          by_cases h4 : isTomb (dEntryAt c j).2
          · rw [if_neg (show ¬ (isTomb (dEntryAt c j).2 = false)
              by simp [h4])]
            have hgap : ∀ x : Nat, x ∈ c.base ∨ x ∈ dKeys c → w ≤ x →
                x < (dKeys c).getD j 0 + 1 → isVis c x = false := by
              intro x hx hwx hxt
              rcases hx with hxb | hxd
              · have := firstGE_min hB hfb hxb hwx
                omega
              · have hge := firstGE_min hD hfd hxd hwx
                have hxe : x = (dKeys c).getD j 0 := by omega
                rw [hxe, ← htk, isVis_at_cursor c hD hjlen]
                simp [h4]
            refine ih ((dKeys c).getD j 0 + 1) _ ?_ ?_ ?_ ?_ v ?_
            · exact Nat.lt_of_lt_of_le
                (dRemaining_advD c s _ j hjlen hdpj rfl rfl)
                (Nat.lt_succ_iff.mp hlt)
            · exact hf
            · exact (firstGE_stable hfb (by omega) (by omega)).symm
            · show advD c s.fwd (some j) =
                firstGE (dKeys c) ((dKeys c).getD j 0 + 1)
              rw [hf]
              show optNext c.delta.length (some j) = _
              rw [← dKeys_length c]
              exact optNext_firstGE hD hfd
            · rw [← visGE_stable hwt hgap]
              exact hvg
          · have h4' : isTomb (dEntryAt c j).2 = false := by
              cases hbv : isTomb (dEntryAt c j).2 with
              | true => exact absurd hbv h4
              | false => rfl
            rw [if_pos h4']
            have hvt : visGE c w = some ((dKeys c).getD j 0) := by
              refine visGE_eq_some
                (Or.inr (getD_mem _ j 0 (by rwa [dKeys_length]))) hwt ?_ ?_
              · rw [← htk, isVis_at_cursor c hD hjlen, h4']
                rfl
              · intro x hx hwx hvx
                rcases hx with hxb | hxd
                · have := firstGE_min hB hfb hxb hwx
                  omega
                · exact firstGE_min hD hfd hxd hwx
            rw [hvt] at hvg
            rw [Option.some_inj] at hvg
            have hdhv : deltaHas c v = true := by
              unfold deltaHas
              rw [decide_eq_true_eq, ← hvg]
              exact getD_mem _ j 0 (by rwa [dKeys_length])
            have hbhv : baseHas c v = false := by
              unfold baseHas
              simp only [decide_eq_false_iff_not]
              intro hvb
              have := firstGE_min hB hfb hvb (by omega)
              omega
            refine ⟨?_, ?_, ?_, ?_, ?_⟩
            · rw [hdhv]
              rfl
            · symm
              exact firstGE_stable hfb (by omega) (by omega)
            · symm
              exact firstGE_stable hfd (by omega) (by omega)
            · rw [hbhv]
              rfl
            · show (dEntryAt c j).1 = v
              rw [htk]
              exact hvg
        · by_cases heq2 : (dKeys c).getD j 0 = c.base.getD i 0
          · have hcmp : natCmp ((dKeys c).getD j 0) (c.base.getD i 0) = 0 := by
              unfold natCmp
              rw [if_neg (by omega), if_neg (by omega)]
            rw [hcmp]
            rw [if_pos (show (1 : Int) * 0 ≤ 0 by norm_num),
              if_pos (show (1 : Int) * 0 = 0 by norm_num)]
            by_cases h4 : isTomb (dEntryAt c j).2
            · rw [if_neg (show ¬ (isTomb (dEntryAt c j).2 = false)
                by simp [h4])]
              have hgap : ∀ x : Nat, x ∈ c.base ∨ x ∈ dKeys c → w ≤ x →
                  x < (dKeys c).getD j 0 + 1 → isVis c x = false := by
                intro x hx hwx hxt
                rcases hx with hxb | hxd
                · have hge := firstGE_min hB hfb hxb hwx
                  have hxe : x = (dKeys c).getD j 0 := by omega
                  rw [hxe, ← htk, isVis_at_cursor c hD hjlen]
                  simp [h4]
                · have hge := firstGE_min hD hfd hxd hwx
                  have hxe : x = (dKeys c).getD j 0 := by omega
                  rw [hxe, ← htk, isVis_at_cursor c hD hjlen]
                  simp [h4]
              refine ih ((dKeys c).getD j 0 + 1) _ ?_ ?_ ?_ ?_ v ?_
              · exact Nat.lt_of_lt_of_le
                  (dRemaining_advD c s _ j hjlen hdpj rfl rfl)
                  (Nat.lt_succ_iff.mp hlt)
              · exact hf
              · show advB c s.fwd (some i) =
                  firstGE c.base ((dKeys c).getD j 0 + 1)
                rw [hf]
                show optNext c.base.length (some i) = _
                rw [heq2]
                exact optNext_firstGE hB hfb
              · show advD c s.fwd (some j) =
                  firstGE (dKeys c) ((dKeys c).getD j 0 + 1)
                rw [hf]
                show optNext c.delta.length (some j) = _
                rw [← dKeys_length c]
                exact optNext_firstGE hD hfd
              · rw [← visGE_stable hwt hgap]
                exact hvg
            · have h4' : isTomb (dEntryAt c j).2 = false := by
                cases hbv : isTomb (dEntryAt c j).2 with
                | true => exact absurd hbv h4
                | false => rfl
              rw [if_pos h4']
              have hvt : visGE c w = some ((dKeys c).getD j 0) := by
                refine visGE_eq_some
                  (Or.inr (getD_mem _ j 0 (by rwa [dKeys_length]))) hwt ?_ ?_
                · rw [← htk, isVis_at_cursor c hD hjlen, h4']
                  rfl
                · intro x hx hwx hvx
                  rcases hx with hxb | hxd
                  · have := firstGE_min hB hfb hxb hwx
                    omega
                  · exact firstGE_min hD hfd hxd hwx
              rw [hvt] at hvg
              rw [Option.some_inj] at hvg
              have hdhv : deltaHas c v = true := by
                unfold deltaHas
                rw [decide_eq_true_eq, ← hvg]
                exact getD_mem _ j 0 (by rwa [dKeys_length])
              have hbhv : baseHas c v = true := by
                unfold baseHas
                rw [decide_eq_true_eq, ← hvg, heq2]
                exact getD_mem _ i 0 hilen
              refine ⟨?_, ?_, ?_, ?_, ?_⟩
              · rw [hdhv]
                rfl
              · symm
                exact firstGE_stable hfb (by omega) (by omega)
              · symm
                exact firstGE_stable hfd (by omega) (by omega)
              · rw [hbhv, hdhv]
                rfl
              · show (dEntryAt c j).1 = v
                rw [htk]
                exact hvg
          · have hgt2 : c.base.getD i 0 < (dKeys c).getD j 0 := by omega
            have hcmp : natCmp ((dKeys c).getD j 0) (c.base.getD i 0) = 1 := by
              unfold natCmp
              rw [if_neg (by omega), if_pos hgt2]
            rw [hcmp]
            rw [if_neg (show ¬ ((1 : Int) * 1 ≤ 0) by norm_num)]
            have hnotd : ¬ c.base.getD i 0 ∈ dKeys c := by
              intro hmem
              have := firstGE_min hD hfd hmem (by omega)
              omega
            have hvt : visGE c w = some (c.base.getD i 0) := by
              refine visGE_eq_some (Or.inl (getD_mem _ i 0 hilen)) hwb ?_ ?_
              · unfold isVis
                rw [(dTypeOf_none_iff c _).mpr hnotd]
                show decide (c.base.getD i 0 ∈ c.base) = true
                rw [decide_eq_true_eq]
                exact getD_mem _ i 0 hilen
              · intro x hx hwx hvx
                rcases hx with hxb | hxd
                · exact firstGE_min hB hfb hxb hwx
                · have := firstGE_min hD hfd hxd hwx
                  omega
            rw [hvt] at hvg
            rw [Option.some_inj] at hvg
            have hdhv : deltaHas c v = false := by
              unfold deltaHas
              simp only [decide_eq_false_iff_not]
              rw [← hvg]
              exact hnotd
            refine ⟨?_, ?_, ?_, ?_, ?_⟩
            · rw [hdhv]
              rfl
            · symm
              exact firstGE_stable hfb (by omega) (by omega)
            · symm
              exact firstGE_stable hfd (by omega) (by omega)
            · rw [hdhv]
              simp
            · show bKeyAt c i = v
              exact hvg

theorem ucGo_fwd_none (c : BDCfg) (hB : List.Chain' (· < ·) c.base)
    (hD : List.Chain' (· < ·) (dKeys c)) (hub : c.ub = none)
    (hbs : c.bStat = MStatus.ok) (hds : c.dStat = MStatus.ok) :
    ∀ fuel : Nat, ∀ w : Nat, ∀ s : BDState, dRemaining c s < fuel →
      s.fwd = true → s.bPos = firstGE c.base w →
      s.dPos = firstGE (dKeys c) w → visGE c w = none →
      (ucGo c fuel s).bPos = none ∧ (ucGo c fuel s).dPos = none := by
  intro fuel
  induction fuel with
  | zero => intro w s hlt; omega
  | succ fuel ih =>
    intro w s hlt hf hbp hdp hvg
    unfold ucGo
    rw [if_neg (fun hcon => hcon.2 hds)]
    rw [hbp, hdp]
    dsimp only
    cases hfb : firstGE c.base w with
    | none =>
      cases hfd : firstGE (dKeys c) w with
      | none =>
        dsimp only
        rw [if_neg (not_not_intro hbs)]
        exact ⟨rfl, rfl⟩
      | some j =>
        have hjlen : j < c.delta.length := by
          have := firstGE_wf hfd
          rwa [dKeys_length] at this
        have hspecd := (firstGE_iff (dKeys c) w j).mp hfd
        have htk : (dEntryAt c j).1 = (dKeys c).getD j 0 := dEntryAt_key c j
        have hwt : w ≤ (dKeys c).getD j 0 := hspecd.2.1
        have hdpj : s.dPos = some j := by rw [hdp, hfd]
        by_cases h4 : isTomb (dEntryAt c j).2
        · dsimp only
          rw [if_neg (not_not_intro hbs)]
          have hub' : ubExceeded c (dEntryAt c j).1 = false := by
            simp [ubExceeded, hub]
          simp only [hub', Bool.false_eq_true, if_false]
          rw [if_pos h4]
          have hgap : ∀ x : Nat, x ∈ c.base ∨ x ∈ dKeys c → w ≤ x →
              x < (dKeys c).getD j 0 + 1 → isVis c x = false := by
            intro x hx hwx hxt
            rcases hx with hxb | hxd
            · exact absurd ((firstGE_none_iff _ _).mp hfb x hxb) (by omega)
            · have hge := firstGE_min hD hfd hxd hwx
              have hxe : x = (dKeys c).getD j 0 := by omega
              rw [hxe, ← htk, isVis_at_cursor c hD hjlen]
              simp [h4]
          refine ih ((dKeys c).getD j 0 + 1) _ ?_ ?_ ?_ ?_ ?_
          · exact Nat.lt_of_lt_of_le (dRemaining_advD c s _ j hjlen hdpj rfl rfl)
              (Nat.lt_succ_iff.mp hlt)
          · exact hf
          · exact (firstGE_none_stable hfb (by omega)).symm
          · show advD c s.fwd (some j) =
              firstGE (dKeys c) ((dKeys c).getD j 0 + 1)
            rw [hf]
            show optNext c.delta.length (some j) = _
            rw [← dKeys_length c]
            exact optNext_firstGE hD hfd
          · rw [← visGE_stable hwt hgap]
            exact hvg
        · exfalso
          have h4' : isTomb (dEntryAt c j).2 = false := by
            cases hbv : isTomb (dEntryAt c j).2 with
            | true => exact absurd hbv h4
            | false => rfl
          have hvt : visGE c w = some ((dKeys c).getD j 0) := by
            refine visGE_eq_some
              (Or.inr (getD_mem _ j 0 (by rwa [dKeys_length]))) hwt ?_ ?_
            · rw [← htk, isVis_at_cursor c hD hjlen, h4']
              rfl
            · intro x hx hwx hvx
              rcases hx with hxb | hxd
              · exact absurd ((firstGE_none_iff _ _).mp hfb x hxb) (by omega)
              · exact firstGE_min hD hfd hxd hwx
          rw [hvt] at hvg
          exact Option.noConfusion hvg
    | some i =>
      have hilen : i < c.base.length := firstGE_wf hfb
      have hspecb := (firstGE_iff c.base w i).mp hfb
      have hwb : w ≤ c.base.getD i 0 := hspecb.2.1
      cases hfd : firstGE (dKeys c) w with
      | none =>
        exfalso
        have hnotd : ¬ c.base.getD i 0 ∈ dKeys c := by
          intro hmem
          have := (firstGE_none_iff _ _).mp hfd _ hmem
          omega
        have hvt : visGE c w = some (c.base.getD i 0) := by
          refine visGE_eq_some (Or.inl (getD_mem _ i 0 hilen)) hwb ?_ ?_
          · unfold isVis
            rw [(dTypeOf_none_iff c _).mpr hnotd]
            show decide (c.base.getD i 0 ∈ c.base) = true
            rw [decide_eq_true_eq]
            exact getD_mem _ i 0 hilen
          · intro x hx hwx hvx
            rcases hx with hxb | hxd
            · exact firstGE_min hB hfb hxb hwx
            · exact absurd ((firstGE_none_iff _ _).mp hfd x hxd) (by omega)
        rw [hvt] at hvg
        exact Option.noConfusion hvg
      | some j =>
        have hjlen : j < c.delta.length := by
          have := firstGE_wf hfd
          rwa [dKeys_length] at this
        have hspecd := (firstGE_iff (dKeys c) w j).mp hfd
        have htk : (dEntryAt c j).1 = (dKeys c).getD j 0 := dEntryAt_key c j
        have hbk : bKeyAt c i = c.base.getD i 0 := rfl
        have hwt : w ≤ (dKeys c).getD j 0 := hspecd.2.1
        have hdpj : s.dPos = some j := by rw [hdp, hfd]
        have hone : (if s.fwd = true then (1 : Int) else -1) = 1 := by
          rw [hf]
          rfl
        by_cases h4 : isTomb (dEntryAt c j).2
        case neg =>
          exfalso
          have h4' : isTomb (dEntryAt c j).2 = false := by
            cases hbv : isTomb (dEntryAt c j).2 with
            | true => exact absurd hbv h4
            | false => rfl
          by_cases hle2 : (dKeys c).getD j 0 ≤ c.base.getD i 0
          · have hvt : visGE c w = some ((dKeys c).getD j 0) := by
              refine visGE_eq_some
                (Or.inr (getD_mem _ j 0 (by rwa [dKeys_length]))) hwt ?_ ?_
              · rw [← htk, isVis_at_cursor c hD hjlen, h4']
                rfl
              · intro x hx hwx hvx
                rcases hx with hxb | hxd
                · have := firstGE_min hB hfb hxb hwx
                  omega
                · exact firstGE_min hD hfd hxd hwx
            rw [hvt] at hvg
            exact Option.noConfusion hvg
          · have hnotd : ¬ c.base.getD i 0 ∈ dKeys c := by
              intro hmem
              have := firstGE_min hD hfd hmem (by omega)
              omega
            have hvt : visGE c w = some (c.base.getD i 0) := by
              refine visGE_eq_some (Or.inl (getD_mem _ i 0 hilen)) hwb ?_ ?_
              · unfold isVis
                rw [(dTypeOf_none_iff c _).mpr hnotd]
                show decide (c.base.getD i 0 ∈ c.base) = true
                rw [decide_eq_true_eq]
                exact getD_mem _ i 0 hilen
              · intro x hx hwx hvx
                rcases hx with hxb | hxd
                · exact firstGE_min hB hfb hxb hwx
                · have := firstGE_min hD hfd hxd hwx
                  omega
            rw [hvt] at hvg
            exact Option.noConfusion hvg
        case pos =>
          by_cases hgt2 : c.base.getD i 0 < (dKeys c).getD j 0
          case pos =>
            exfalso
            have hnotd : ¬ c.base.getD i 0 ∈ dKeys c := by
              intro hmem
              have := firstGE_min hD hfd hmem (by omega)
              omega
            have hvt : visGE c w = some (c.base.getD i 0) := by
              refine visGE_eq_some (Or.inl (getD_mem _ i 0 hilen)) hwb ?_ ?_
              · unfold isVis
                rw [(dTypeOf_none_iff c _).mpr hnotd]
                show decide (c.base.getD i 0 ∈ c.base) = true
                rw [decide_eq_true_eq]
                exact getD_mem _ i 0 hilen
              · intro x hx hwx hvx
                rcases hx with hxb | hxd
                · exact firstGE_min hB hfb hxb hwx
                · have := firstGE_min hD hfd hxd hwx
                  omega
            rw [hvt] at hvg
            exact Option.noConfusion hvg
          case neg =>
            have hgap : ∀ x : Nat, x ∈ c.base ∨ x ∈ dKeys c → w ≤ x →
                x < (dKeys c).getD j 0 + 1 → isVis c x = false := by
              intro x hx hwx hxt
              rcases hx with hxb | hxd
              · have hge := firstGE_min hB hfb hxb hwx
                have hxe : x = (dKeys c).getD j 0 := by omega
                rw [hxe, ← htk, isVis_at_cursor c hD hjlen]
                simp [h4]
              · have hge := firstGE_min hD hfd hxd hwx
                have hxe : x = (dKeys c).getD j 0 := by omega
                rw [hxe, ← htk, isVis_at_cursor c hD hjlen]
                simp [h4]
            dsimp only
            rw [hone, htk, hbk]
            by_cases hlt2 : (dKeys c).getD j 0 < c.base.getD i 0
            · have hcmp : natCmp ((dKeys c).getD j 0) (c.base.getD i 0)
                  = -1 := by
                unfold natCmp
                rw [if_pos hlt2]
              rw [hcmp]
              rw [if_pos (show (1 : Int) * -1 ≤ 0 by norm_num),
                if_neg (show ¬ ((1 : Int) * -1 = 0) by norm_num)]
              rw [if_neg (show ¬ (isTomb (dEntryAt c j).2 = false)
                by simp [h4])]
              refine ih ((dKeys c).getD j 0 + 1) _ ?_ ?_ ?_ ?_ ?_
              · exact Nat.lt_of_lt_of_le
                  (dRemaining_advD c s _ j hjlen hdpj rfl rfl)
                  (Nat.lt_succ_iff.mp hlt)
              · exact hf
              · exact (firstGE_stable hfb (by omega) (by omega)).symm
              · show advD c s.fwd (some j) =
                  firstGE (dKeys c) ((dKeys c).getD j 0 + 1)
                rw [hf]
                show optNext c.delta.length (some j) = _
                rw [← dKeys_length c]
                exact optNext_firstGE hD hfd
              · rw [← visGE_stable hwt hgap]
                exact hvg
            · have heq2 : (dKeys c).getD j 0 = c.base.getD i 0 := by omega
              have hcmp : natCmp ((dKeys c).getD j 0) (c.base.getD i 0)
                  = 0 := by
                unfold natCmp
                rw [if_neg (by omega), if_neg (by omega)]
              rw [hcmp]
              rw [if_pos (show (1 : Int) * 0 ≤ 0 by norm_num),
                if_pos (show (1 : Int) * 0 = 0 by norm_num)]
              rw [if_neg (show ¬ (isTomb (dEntryAt c j).2 = false)
                by simp [h4])]
              refine ih ((dKeys c).getD j 0 + 1) _ ?_ ?_ ?_ ?_ ?_
              · exact Nat.lt_of_lt_of_le
                  (dRemaining_advD c s _ j hjlen hdpj rfl rfl)
                  (Nat.lt_succ_iff.mp hlt)
              · exact hf
              · show advB c s.fwd (some i) =
                  firstGE c.base ((dKeys c).getD j 0 + 1)
                rw [hf]
                show optNext c.base.length (some i) = _
                rw [heq2]
                exact optNext_firstGE hB hfb
              · show advD c s.fwd (some j) =
                  firstGE (dKeys c) ((dKeys c).getD j 0 + 1)
                rw [hf]
                show optNext c.delta.length (some j) = _
                rw [← dKeys_length c]
                exact optNext_firstGE hD hfd
              · rw [← visGE_stable hwt hgap]
                exact hvg

/-! ### The UpdateCurrent loop characterised, backward direction -/

theorem ucGo_bwd_some (c : BDCfg) (hB : List.Chain' (· < ·) c.base)
    (hD : List.Chain' (· < ·) (dKeys c)) (hub : c.ub = none)
    (hbs : c.bStat = MStatus.ok) (hds : c.dStat = MStatus.ok) :
    ∀ fuel : Nat, ∀ w : Nat, ∀ s : BDState, dRemaining c s < fuel →
      s.fwd = false → s.bPos = lastLT c.base w →
      s.dPos = lastLT (dKeys c) w →
      ∀ v : Nat, visLT c w = some v →
        (ucGo c fuel s).atBase = !(deltaHas c v) ∧
        (ucGo c fuel s).bPos = lastLT c.base (v + 1) ∧
        (ucGo c fuel s).dPos = lastLT (dKeys c) (v + 1) ∧
        (ucGo c fuel s).eqKeys = (baseHas c v && deltaHas c v) ∧
        bdKey c (ucGo c fuel s) = v := by
  intro fuel
  induction fuel with
  | zero => intro w s hlt; omega
  | succ fuel ih =>
    intro w s hlt hf hbp hdp v hvg
    unfold ucGo
    rw [if_neg (fun hcon => hcon.2 hds)]
    rw [hbp, hdp]
    dsimp only
    cases hfb : lastLT c.base w with
    | none =>
      have hballw : ∀ x ∈ c.base, w ≤ x := (lastLT_none_iff _ hB _).mp hfb
      cases hfd : lastLT (dKeys c) w with
      | none =>
        exfalso
        have hdallw : ∀ x ∈ dKeys c, w ≤ x := (lastLT_none_iff _ hD _).mp hfd
        have hnone : visLT c w = none := by
          refine visLT_eq_none ?_
          intro x hx hxw
          exfalso
          rcases hx with hxb | hxd
          · have := hballw x hxb
            omega
          · have := hdallw x hxd
            omega
        rw [hnone] at hvg
        exact Option.noConfusion hvg
      | some j =>
        have hjlen : j < c.delta.length := by
          have := ((lastLT_some_iff _ hD w j).mp hfd).1
          rwa [dKeys_length] at this
        have hspecd := (lastLT_some_iff _ hD w j).mp hfd
        have htk : (dEntryAt c j).1 = (dKeys c).getD j 0 := dEntryAt_key c j
        have htw : (dKeys c).getD j 0 < w := hspecd.2.1
        have hdpj : s.dPos = some j := by rw [hdp, hfd]
        by_cases h4 : isTomb (dEntryAt c j).2
        · dsimp only
          rw [if_neg (not_not_intro hbs)]
          have hub' : ubExceeded c (dEntryAt c j).1 = false := by
            simp [ubExceeded, hub]
          simp only [hub', Bool.false_eq_true, if_false]
          rw [if_pos h4]
          have hgap : ∀ x : Nat, x ∈ c.base ∨ x ∈ dKeys c →
              (dKeys c).getD j 0 ≤ x → x < w → isVis c x = false := by
            intro x hx htx hxw
            rcases hx with hxb | hxd
            · exact absurd (hballw x hxb) (by omega)
            · have hle := lastLT_max hD hfd hxd hxw
              have hxe : x = (dKeys c).getD j 0 := by omega
              rw [hxe, ← htk, isVis_at_cursor c hD hjlen]
              simp [h4]
          refine ih ((dKeys c).getD j 0) _ ?_ ?_ ?_ ?_ v ?_
          · exact Nat.lt_of_lt_of_le (dRemaining_advD c s _ j hjlen hdpj rfl rfl)
              (Nat.lt_succ_iff.mp hlt)
          · exact hf
          · exact (lastLT_none_stable hB hfb (by omega)).symm
          · show advD c s.fwd (some j) = lastLT (dKeys c) ((dKeys c).getD j 0)
            rw [hf]
            show optPrev (some j) = _
            exact optPrev_lastLT hD hfd
          · rw [← visLT_stable (by omega) hgap]
            exact hvg
        · have h4' : isTomb (dEntryAt c j).2 = false := by
            cases hbv : isTomb (dEntryAt c j).2 with
            | true => exact absurd hbv h4
            | false => rfl
          dsimp only
          rw [if_neg (not_not_intro hbs)]
          have hub' : ubExceeded c (dEntryAt c j).1 = false := by
            simp [ubExceeded, hub]
          simp only [hub', Bool.false_eq_true, if_false]
          rw [if_neg (show ¬ (isTomb (dEntryAt c j).2 = true) by simp [h4'])]
          have hvt : visLT c w = some ((dKeys c).getD j 0) := by
            refine visLT_eq_some
              (Or.inr (getD_mem _ j 0 (by rwa [dKeys_length]))) htw ?_ ?_
            · rw [← htk, isVis_at_cursor c hD hjlen, h4']
              rfl
            · intro x hx hxw hvx
              rcases hx with hxb | hxd
              · exact absurd (hballw x hxb) (by omega)
              · exact lastLT_max hD hfd hxd hxw
          rw [hvt] at hvg
          rw [Option.some_inj] at hvg
          have hdhv : deltaHas c v = true := by
            unfold deltaHas
            rw [decide_eq_true_eq, ← hvg]
            exact getD_mem _ j 0 (by rwa [dKeys_length])
          have hbhv : baseHas c v = false := by
            unfold baseHas
            simp only [decide_eq_false_iff_not]
            intro hvb
            have := hballw v hvb
            omega
          refine ⟨?_, ?_, ?_, ?_, ?_⟩
          · rw [hdhv]
            rfl
          · exact (lastLT_none_stable hB hfb (by omega)).symm
          · symm
            exact lastLT_stable hD hfd (by omega) (by omega)
          · rw [hbhv]
            rfl
          · show (dEntryAt c j).1 = v
            rw [htk]
            exact hvg
    | some i =>
      have hilen : i < c.base.length := ((lastLT_some_iff _ hB w i).mp hfb).1
      have hspecb := (lastLT_some_iff _ hB w i).mp hfb
      have hbw : c.base.getD i 0 < w := hspecb.2.1
      cases hfd : lastLT (dKeys c) w with
      | none =>
        have hdallw : ∀ x ∈ dKeys c, w ≤ x := (lastLT_none_iff _ hD _).mp hfd
        have hnotd : ¬ c.base.getD i 0 ∈ dKeys c := by
          intro hmem
          have := hdallw _ hmem
          omega
        have hvt : visLT c w = some (c.base.getD i 0) := by
          refine visLT_eq_some (Or.inl (getD_mem _ i 0 hilen)) hbw ?_ ?_
          · unfold isVis
            rw [(dTypeOf_none_iff c _).mpr hnotd]
            show decide (c.base.getD i 0 ∈ c.base) = true
            rw [decide_eq_true_eq]
            exact getD_mem _ i 0 hilen
          · intro x hx hxw hvx
            rcases hx with hxb | hxd
            · exact lastLT_max hB hfb hxb hxw
            · exact absurd (hdallw x hxd) (by omega)
        rw [hvt] at hvg
        rw [Option.some_inj] at hvg
        have hdhv : deltaHas c v = false := by
          unfold deltaHas
          simp only [decide_eq_false_iff_not]
          rw [← hvg]
          exact hnotd
        refine ⟨?_, ?_, ?_, ?_, ?_⟩
        · rw [hdhv]
          rfl
        · symm
          exact lastLT_stable hB hfb (by omega) (by omega)
        · exact (lastLT_none_stable hD hfd (by omega)).symm
        · rw [hdhv]
          simp
        · show bKeyAt c i = v
          exact hvg
      | some j =>
        have hjlen : j < c.delta.length := by
          have := ((lastLT_some_iff _ hD w j).mp hfd).1
          rwa [dKeys_length] at this
        have hspecd := (lastLT_some_iff _ hD w j).mp hfd
        have htk : (dEntryAt c j).1 = (dKeys c).getD j 0 := dEntryAt_key c j
        have hbk : bKeyAt c i = c.base.getD i 0 := rfl
        have htw : (dKeys c).getD j 0 < w := hspecd.2.1
        have hdpj : s.dPos = some j := by rw [hdp, hfd]
        have hone : (if s.fwd = true then (1 : Int) else -1) = -1 := by
          rw [hf]
          rfl
        dsimp only
        rw [hone, htk, hbk]
        by_cases hgt2 : c.base.getD i 0 < (dKeys c).getD j 0
        · have hcmp : natCmp ((dKeys c).getD j 0) (c.base.getD i 0) = 1 := by
            unfold natCmp
            rw [if_neg (by omega), if_pos hgt2]
          rw [hcmp]
          rw [if_pos (show (-1 : Int) * 1 ≤ 0 by norm_num),
            if_neg (show ¬ ((-1 : Int) * 1 = 0) by norm_num)]
          by_cases h4 : isTomb (dEntryAt c j).2
          · rw [if_neg (show ¬ (isTomb (dEntryAt c j).2 = false)
              by simp [h4])]
            have hgap : ∀ x : Nat, x ∈ c.base ∨ x ∈ dKeys c →
                (dKeys c).getD j 0 ≤ x → x < w → isVis c x = false := by
              intro x hx htx hxw
              rcases hx with hxb | hxd
              · have := lastLT_max hB hfb hxb hxw
                omega
              · have hle := lastLT_max hD hfd hxd hxw
                have hxe : x = (dKeys c).getD j 0 := by omega
                rw [hxe, ← htk, isVis_at_cursor c hD hjlen]
                simp [h4]
            refine ih ((dKeys c).getD j 0) _ ?_ ?_ ?_ ?_ v ?_
            · exact Nat.lt_of_lt_of_le
                (dRemaining_advD c s _ j hjlen hdpj rfl rfl)
                (Nat.lt_succ_iff.mp hlt)
            · exact hf
            · exact (lastLT_stable hB hfb (by omega) (by omega)).symm
            · show advD c s.fwd (some j) = lastLT (dKeys c) ((dKeys c).getD j 0)
              rw [hf]
              show optPrev (some j) = _
              exact optPrev_lastLT hD hfd
            · rw [← visLT_stable (by omega) hgap]
              exact hvg
          · have h4' : isTomb (dEntryAt c j).2 = false := by
              cases hbv : isTomb (dEntryAt c j).2 with
              | true => exact absurd hbv h4
              | false => rfl
            rw [if_pos h4']
            have hvt : visLT c w = some ((dKeys c).getD j 0) := by
              refine visLT_eq_some
                (Or.inr (getD_mem _ j 0 (by rwa [dKeys_length]))) htw ?_ ?_
              · rw [← htk, isVis_at_cursor c hD hjlen, h4']
                rfl
              · intro x hx hxw hvx
                rcases hx with hxb | hxd
                · have := lastLT_max hB hfb hxb hxw
                  omega
                · exact lastLT_max hD hfd hxd hxw
            rw [hvt] at hvg
            rw [Option.some_inj] at hvg
            have hdhv : deltaHas c v = true := by
              unfold deltaHas
              rw [decide_eq_true_eq, ← hvg]
              exact getD_mem _ j 0 (by rwa [dKeys_length])
            have hbhv : baseHas c v = false := by
              unfold baseHas
              simp only [decide_eq_false_iff_not]
              intro hvb
              have := lastLT_max hB hfb hvb (by omega)
              omega
            refine ⟨?_, ?_, ?_, ?_, ?_⟩
            · rw [hdhv]
              rfl
            · symm
              exact lastLT_stable hB hfb (by omega) (by omega)
            · symm
              exact lastLT_stable hD hfd (by omega) (by omega)
            · rw [hbhv]
              rfl
            · show (dEntryAt c j).1 = v
              rw [htk]
              exact hvg
        · by_cases heq2 : (dKeys c).getD j 0 = c.base.getD i 0
          · have hcmp : natCmp ((dKeys c).getD j 0) (c.base.getD i 0) = 0 := by
              unfold natCmp
              rw [if_neg (by omega), if_neg (by omega)]
            rw [hcmp]
            rw [if_pos (show (-1 : Int) * 0 ≤ 0 by norm_num),
              if_pos (show (-1 : Int) * 0 = 0 by norm_num)]
            by_cases h4 : isTomb (dEntryAt c j).2
            · rw [if_neg (show ¬ (isTomb (dEntryAt c j).2 = false)
                by simp [h4])]
              have hgap : ∀ x : Nat, x ∈ c.base ∨ x ∈ dKeys c →
                  (dKeys c).getD j 0 ≤ x → x < w → isVis c x = false := by
                intro x hx htx hxw
                rcases hx with hxb | hxd
                · have := lastLT_max hB hfb hxb hxw
                  have hxe : x = (dKeys c).getD j 0 := by omega
                  rw [hxe, ← htk, isVis_at_cursor c hD hjlen]
                  simp [h4]
                · have := lastLT_max hD hfd hxd hxw
                  have hxe : x = (dKeys c).getD j 0 := by omega
                  rw [hxe, ← htk, isVis_at_cursor c hD hjlen]
                  simp [h4]
              refine ih ((dKeys c).getD j 0) _ ?_ ?_ ?_ ?_ v ?_
              · exact Nat.lt_of_lt_of_le
                  (dRemaining_advD c s _ j hjlen hdpj rfl rfl)
                  (Nat.lt_succ_iff.mp hlt)
              · exact hf
              · show advB c s.fwd (some i) = lastLT c.base ((dKeys c).getD j 0)
                rw [hf]
                show optPrev (some i) = _
                rw [heq2]
                exact optPrev_lastLT hB hfb
              · show advD c s.fwd (some j) =
                  lastLT (dKeys c) ((dKeys c).getD j 0)
                rw [hf]
                show optPrev (some j) = _
                exact optPrev_lastLT hD hfd
              · rw [← visLT_stable (by omega) hgap]
                exact hvg
            · have h4' : isTomb (dEntryAt c j).2 = false := by
                cases hbv : isTomb (dEntryAt c j).2 with
                | true => exact absurd hbv h4
                | false => rfl
              rw [if_pos h4']
              have hvt : visLT c w = some ((dKeys c).getD j 0) := by
                refine visLT_eq_some
                  (Or.inr (getD_mem _ j 0 (by rwa [dKeys_length]))) htw ?_ ?_
                · rw [← htk, isVis_at_cursor c hD hjlen, h4']
                  rfl
                · intro x hx hxw hvx
                  rcases hx with hxb | hxd
                  · have := lastLT_max hB hfb hxb hxw
                    omega
                  · exact lastLT_max hD hfd hxd hxw
              rw [hvt] at hvg
              rw [Option.some_inj] at hvg
              have hdhv : deltaHas c v = true := by
                unfold deltaHas
                rw [decide_eq_true_eq, ← hvg]
                exact getD_mem _ j 0 (by rwa [dKeys_length])
              have hbhv : baseHas c v = true := by
                unfold baseHas
                rw [decide_eq_true_eq, ← hvg, heq2]
                exact getD_mem _ i 0 hilen
              refine ⟨?_, ?_, ?_, ?_, ?_⟩
              · rw [hdhv]
                rfl
              · symm
                exact lastLT_stable hB hfb (by omega) (by omega)
              · symm
                exact lastLT_stable hD hfd (by omega) (by omega)
              · rw [hbhv, hdhv]
                rfl
              · show (dEntryAt c j).1 = v
                rw [htk]
                exact hvg
          · have hlt2 : (dKeys c).getD j 0 < c.base.getD i 0 := by omega
            have hcmp : natCmp ((dKeys c).getD j 0) (c.base.getD i 0)
                = -1 := by
              unfold natCmp
              rw [if_pos hlt2]
            rw [hcmp]
            rw [if_neg (show ¬ ((-1 : Int) * -1 ≤ 0) by norm_num)]
            have hnotd : ¬ c.base.getD i 0 ∈ dKeys c := by
              intro hmem
              have := lastLT_max hD hfd hmem (by omega)
              omega
            have hvt : visLT c w = some (c.base.getD i 0) := by
              refine visLT_eq_some (Or.inl (getD_mem _ i 0 hilen)) hbw ?_ ?_
              · unfold isVis
                rw [(dTypeOf_none_iff c _).mpr hnotd]
                show decide (c.base.getD i 0 ∈ c.base) = true
                rw [decide_eq_true_eq]
                exact getD_mem _ i 0 hilen
              · intro x hx hxw hvx
                rcases hx with hxb | hxd
                · exact lastLT_max hB hfb hxb hxw
                · have := lastLT_max hD hfd hxd hxw
                  omega
            rw [hvt] at hvg
            rw [Option.some_inj] at hvg
            have hdhv : deltaHas c v = false := by
              unfold deltaHas
              simp only [decide_eq_false_iff_not]
              rw [← hvg]
              exact hnotd
            refine ⟨?_, ?_, ?_, ?_, ?_⟩
            · rw [hdhv]
              rfl
            · symm
              exact lastLT_stable hB hfb (by omega) (by omega)
            · symm
              exact lastLT_stable hD hfd (by omega) (by omega)
            · rw [hdhv]
              simp
            · show bKeyAt c i = v
              exact hvg

theorem ucGo_bwd_none (c : BDCfg) (hB : List.Chain' (· < ·) c.base)
    (hD : List.Chain' (· < ·) (dKeys c)) (hub : c.ub = none)
    (hbs : c.bStat = MStatus.ok) (hds : c.dStat = MStatus.ok) :
    ∀ fuel : Nat, ∀ w : Nat, ∀ s : BDState, dRemaining c s < fuel →
      s.fwd = false → s.bPos = lastLT c.base w →
      s.dPos = lastLT (dKeys c) w → visLT c w = none →
      (ucGo c fuel s).bPos = none ∧ (ucGo c fuel s).dPos = none := by
  intro fuel
  induction fuel with
  | zero => intro w s hlt; omega
  | succ fuel ih =>
    intro w s hlt hf hbp hdp hvg
    unfold ucGo
    rw [if_neg (fun hcon => hcon.2 hds)]
    rw [hbp, hdp]
    dsimp only
    cases hfb : lastLT c.base w with
    | none =>
      have hballw : ∀ x ∈ c.base, w ≤ x := (lastLT_none_iff _ hB _).mp hfb
      cases hfd : lastLT (dKeys c) w with
      | none =>
        dsimp only
        rw [if_neg (not_not_intro hbs)]
        exact ⟨rfl, rfl⟩
      | some j =>
        have hjlen : j < c.delta.length := by
          have := ((lastLT_some_iff _ hD w j).mp hfd).1
          rwa [dKeys_length] at this
        have hspecd := (lastLT_some_iff _ hD w j).mp hfd
        have htk : (dEntryAt c j).1 = (dKeys c).getD j 0 := dEntryAt_key c j
        have htw : (dKeys c).getD j 0 < w := hspecd.2.1
        have hdpj : s.dPos = some j := by rw [hdp, hfd]
        by_cases h4 : isTomb (dEntryAt c j).2
        · dsimp only
          rw [if_neg (not_not_intro hbs)]
          have hub' : ubExceeded c (dEntryAt c j).1 = false := by
            simp [ubExceeded, hub]
          simp only [hub', Bool.false_eq_true, if_false]
          rw [if_pos h4]
          have hgap : ∀ x : Nat, x ∈ c.base ∨ x ∈ dKeys c →
              (dKeys c).getD j 0 ≤ x → x < w → isVis c x = false := by
            intro x hx htx hxw
            rcases hx with hxb | hxd
            · exact absurd (hballw x hxb) (by omega)
            · have hle := lastLT_max hD hfd hxd hxw
              have hxe : x = (dKeys c).getD j 0 := by omega
              rw [hxe, ← htk, isVis_at_cursor c hD hjlen]
              simp [h4]
          refine ih ((dKeys c).getD j 0) _ ?_ ?_ ?_ ?_ ?_
          · exact Nat.lt_of_lt_of_le (dRemaining_advD c s _ j hjlen hdpj rfl rfl)
              (Nat.lt_succ_iff.mp hlt)
          · exact hf
          · exact (lastLT_none_stable hB hfb (by omega)).symm
          · show advD c s.fwd (some j) = lastLT (dKeys c) ((dKeys c).getD j 0)
            rw [hf]
            show optPrev (some j) = _
            exact optPrev_lastLT hD hfd
          · rw [← visLT_stable (by omega) hgap]
            exact hvg
        · exfalso
          have h4' : isTomb (dEntryAt c j).2 = false := by
            cases hbv : isTomb (dEntryAt c j).2 with
            | true => exact absurd hbv h4
            | false => rfl
          have hvt : visLT c w = some ((dKeys c).getD j 0) := by
            refine visLT_eq_some
              (Or.inr (getD_mem _ j 0 (by rwa [dKeys_length]))) htw ?_ ?_
            · rw [← htk, isVis_at_cursor c hD hjlen, h4']
              rfl
            · intro x hx hxw hvx
              rcases hx with hxb | hxd
              · exact absurd (hballw x hxb) (by omega)
              · exact lastLT_max hD hfd hxd hxw
          rw [hvt] at hvg
          exact Option.noConfusion hvg
    | some i =>
      have hilen : i < c.base.length := ((lastLT_some_iff _ hB w i).mp hfb).1
      have hspecb := (lastLT_some_iff _ hB w i).mp hfb
      have hbw : c.base.getD i 0 < w := hspecb.2.1
      cases hfd : lastLT (dKeys c) w with
      | none =>
        exfalso
        have hdallw : ∀ x ∈ dKeys c, w ≤ x := (lastLT_none_iff _ hD _).mp hfd
        have hnotd : ¬ c.base.getD i 0 ∈ dKeys c := by
          intro hmem
          have := hdallw _ hmem
          omega
        have hvt : visLT c w = some (c.base.getD i 0) := by
          refine visLT_eq_some (Or.inl (getD_mem _ i 0 hilen)) hbw ?_ ?_
          · unfold isVis
            rw [(dTypeOf_none_iff c _).mpr hnotd]
            show decide (c.base.getD i 0 ∈ c.base) = true
            rw [decide_eq_true_eq]
            exact getD_mem _ i 0 hilen
          · intro x hx hxw hvx
            rcases hx with hxb | hxd
            · exact lastLT_max hB hfb hxb hxw
            · exact absurd (hdallw x hxd) (by omega)
        rw [hvt] at hvg
        exact Option.noConfusion hvg
      | some j =>
        have hjlen : j < c.delta.length := by
          have := ((lastLT_some_iff _ hD w j).mp hfd).1
          rwa [dKeys_length] at this
        have hspecd := (lastLT_some_iff _ hD w j).mp hfd
        have htk : (dEntryAt c j).1 = (dKeys c).getD j 0 := dEntryAt_key c j
        have hbk : bKeyAt c i = c.base.getD i 0 := rfl
        have htw : (dKeys c).getD j 0 < w := hspecd.2.1
        have hdpj : s.dPos = some j := by rw [hdp, hfd]
        have hone : (if s.fwd = true then (1 : Int) else -1) = -1 := by
          rw [hf]
          rfl
        by_cases h4 : isTomb (dEntryAt c j).2
        case neg =>
          exfalso
          have h4' : isTomb (dEntryAt c j).2 = false := by
            cases hbv : isTomb (dEntryAt c j).2 with
            | true => exact absurd hbv h4
            | false => rfl
          by_cases hge2 : c.base.getD i 0 ≤ (dKeys c).getD j 0
          · have hvt : visLT c w = some ((dKeys c).getD j 0) := by
              refine visLT_eq_some
                (Or.inr (getD_mem _ j 0 (by rwa [dKeys_length]))) htw ?_ ?_
              · rw [← htk, isVis_at_cursor c hD hjlen, h4']
                rfl
              · intro x hx hxw hvx
                rcases hx with hxb | hxd
                · have := lastLT_max hB hfb hxb hxw
                  omega
                · exact lastLT_max hD hfd hxd hxw
            rw [hvt] at hvg
            exact Option.noConfusion hvg
          · have hnotd : ¬ c.base.getD i 0 ∈ dKeys c := by
              intro hmem
              have := lastLT_max hD hfd hmem (by omega)
              omega
            have hvt : visLT c w = some (c.base.getD i 0) := by
              refine visLT_eq_some (Or.inl (getD_mem _ i 0 hilen)) hbw ?_ ?_
              · unfold isVis
                rw [(dTypeOf_none_iff c _).mpr hnotd]
                show decide (c.base.getD i 0 ∈ c.base) = true
                rw [decide_eq_true_eq]
                exact getD_mem _ i 0 hilen
              · intro x hx hxw hvx
                rcases hx with hxb | hxd
                · exact lastLT_max hB hfb hxb hxw
                · have := lastLT_max hD hfd hxd hxw
                  omega
            rw [hvt] at hvg
            exact Option.noConfusion hvg
        case pos =>
          by_cases hlt2 : (dKeys c).getD j 0 < c.base.getD i 0
          case pos =>
            exfalso
            have hnotd : ¬ c.base.getD i 0 ∈ dKeys c := by
              intro hmem
              have := lastLT_max hD hfd hmem (by omega)
              omega
            have hvt : visLT c w = some (c.base.getD i 0) := by
              refine visLT_eq_some (Or.inl (getD_mem _ i 0 hilen)) hbw ?_ ?_
              · unfold isVis
                rw [(dTypeOf_none_iff c _).mpr hnotd]
                show decide (c.base.getD i 0 ∈ c.base) = true
                rw [decide_eq_true_eq]
                exact getD_mem _ i 0 hilen
              · intro x hx hxw hvx
                rcases hx with hxb | hxd
                · exact lastLT_max hB hfb hxb hxw
                · have := lastLT_max hD hfd hxd hxw
                  omega
            rw [hvt] at hvg
            exact Option.noConfusion hvg
          case neg =>
            have hgap : ∀ x : Nat, x ∈ c.base ∨ x ∈ dKeys c →
                (dKeys c).getD j 0 ≤ x → x < w → isVis c x = false := by
              intro x hx htx hxw
              rcases hx with hxb | hxd
              · have := lastLT_max hB hfb hxb hxw
                have hxe : x = (dKeys c).getD j 0 := by omega
                rw [hxe, ← htk, isVis_at_cursor c hD hjlen]
                simp [h4]
              · have := lastLT_max hD hfd hxd hxw
                have hxe : x = (dKeys c).getD j 0 := by omega
                rw [hxe, ← htk, isVis_at_cursor c hD hjlen]
                simp [h4]
            dsimp only
            rw [hone, htk, hbk]
            by_cases hgt2 : c.base.getD i 0 < (dKeys c).getD j 0
            · have hcmp : natCmp ((dKeys c).getD j 0) (c.base.getD i 0)
                  = 1 := by
                unfold natCmp
                rw [if_neg (by omega), if_pos hgt2]
              rw [hcmp]
              rw [if_pos (show (-1 : Int) * 1 ≤ 0 by norm_num),
                if_neg (show ¬ ((-1 : Int) * 1 = 0) by norm_num)]
              rw [if_neg (show ¬ (isTomb (dEntryAt c j).2 = false)
                by simp [h4])]
              refine ih ((dKeys c).getD j 0) _ ?_ ?_ ?_ ?_ ?_
              · exact Nat.lt_of_lt_of_le
                  (dRemaining_advD c s _ j hjlen hdpj rfl rfl)
                  (Nat.lt_succ_iff.mp hlt)
              · exact hf
              · exact (lastLT_stable hB hfb (by omega) (by omega)).symm
              · show advD c s.fwd (some j) =
                  lastLT (dKeys c) ((dKeys c).getD j 0)
                rw [hf]
                show optPrev (some j) = _
                exact optPrev_lastLT hD hfd
              · rw [← visLT_stable (by omega) hgap]
                exact hvg
            · have heq2 : (dKeys c).getD j 0 = c.base.getD i 0 := by omega
              have hcmp : natCmp ((dKeys c).getD j 0) (c.base.getD i 0)
                  = 0 := by
                unfold natCmp
                rw [if_neg (by omega), if_neg (by omega)]
              rw [hcmp]
              rw [if_pos (show (-1 : Int) * 0 ≤ 0 by norm_num),
                if_pos (show (-1 : Int) * 0 = 0 by norm_num)]
              rw [if_neg (show ¬ (isTomb (dEntryAt c j).2 = false)
                by simp [h4])]
              refine ih ((dKeys c).getD j 0) _ ?_ ?_ ?_ ?_ ?_
              · exact Nat.lt_of_lt_of_le
                  (dRemaining_advD c s _ j hjlen hdpj rfl rfl)
                  (Nat.lt_succ_iff.mp hlt)
              · exact hf
              · show advB c s.fwd (some i) = lastLT c.base ((dKeys c).getD j 0)
                rw [hf]
                show optPrev (some i) = _
                rw [heq2]
                exact optPrev_lastLT hB hfb
              · show advD c s.fwd (some j) =
                  lastLT (dKeys c) ((dKeys c).getD j 0)
                rw [hf]
                show optPrev (some j) = _
                exact optPrev_lastLT hD hfd
              · rw [← visLT_stable (by omega) hgap]
                exact hvg

/-! ### Seek, Next and Prev through the loop characterisation -/

theorem updateCurrent_fwd_some (c : BDCfg) (hB : List.Chain' (· < ·) c.base)
    (hD : List.Chain' (· < ·) (dKeys c)) (hub : c.ub = none)
    (hbs : c.bStat = MStatus.ok) (hds : c.dStat = MStatus.ok)
    (w : Nat) (s : BDState) (hf : s.fwd = true)
    (hbp : s.bPos = firstGE c.base w) (hdp : s.dPos = firstGE (dKeys c) w)
    (v : Nat) (hv : visGE c w = some v) :
    (updateCurrent c s).stat = MStatus.ok ∧
    (updateCurrent c s).fwd = true ∧
    (updateCurrent c s).atBase = !(deltaHas c v) ∧
    (updateCurrent c s).bPos = firstGE c.base v ∧
    (updateCurrent c s).dPos = firstGE (dKeys c) v ∧
    (updateCurrent c s).eqKeys = (baseHas c v && deltaHas c v) ∧
    bdKey c (updateCurrent c s) = v := by
  have hmeas : dRemaining c { s with stat := MStatus.ok } <
      c.base.length + c.delta.length + 2 := by
    have hle : dRemaining c { s with stat := MStatus.ok } ≤ c.delta.length := by
      refine dRemaining_le c _ ?_
      intro j hj
      replace hj : s.dPos = some j := hj
      rw [hdp] at hj
      have := firstGE_wf hj
      rwa [dKeys_length] at this
    omega
  have hcore := ucGo_fwd_some c hB hD hub hbs hds
    (c.base.length + c.delta.length + 2) w { s with stat := MStatus.ok }
    hmeas hf hbp hdp v hv
  have hpres := ucGo_pres c (c.base.length + c.delta.length + 2)
    { s with stat := MStatus.ok }
  exact ⟨hpres.1, hpres.2.trans hf, hcore.1, hcore.2.1, hcore.2.2.1,
    hcore.2.2.2.1, hcore.2.2.2.2⟩

theorem updateCurrent_fwd_none (c : BDCfg) (hB : List.Chain' (· < ·) c.base)
    (hD : List.Chain' (· < ·) (dKeys c)) (hub : c.ub = none)
    (hbs : c.bStat = MStatus.ok) (hds : c.dStat = MStatus.ok)
    (w : Nat) (s : BDState) (hf : s.fwd = true)
    (hbp : s.bPos = firstGE c.base w) (hdp : s.dPos = firstGE (dKeys c) w)
    (hv : visGE c w = none) :
    (updateCurrent c s).stat = MStatus.ok ∧
    (updateCurrent c s).fwd = true ∧
    (updateCurrent c s).bPos = none ∧ (updateCurrent c s).dPos = none := by
  have hmeas : dRemaining c { s with stat := MStatus.ok } <
      c.base.length + c.delta.length + 2 := by
    have hle : dRemaining c { s with stat := MStatus.ok } ≤ c.delta.length := by
      refine dRemaining_le c _ ?_
      intro j hj
      replace hj : s.dPos = some j := hj
      rw [hdp] at hj
      have := firstGE_wf hj
      rwa [dKeys_length] at this
    omega
  have hcore := ucGo_fwd_none c hB hD hub hbs hds
    (c.base.length + c.delta.length + 2) w { s with stat := MStatus.ok }
    hmeas hf hbp hdp hv
  have hpres := ucGo_pres c (c.base.length + c.delta.length + 2)
    { s with stat := MStatus.ok }
  exact ⟨hpres.1, hpres.2.trans hf, hcore.1, hcore.2⟩

theorem updateCurrent_bwd_some (c : BDCfg) (hB : List.Chain' (· < ·) c.base)
    (hD : List.Chain' (· < ·) (dKeys c)) (hub : c.ub = none)
    (hbs : c.bStat = MStatus.ok) (hds : c.dStat = MStatus.ok)
    (w : Nat) (s : BDState) (hf : s.fwd = false)
    (hbp : s.bPos = lastLT c.base w) (hdp : s.dPos = lastLT (dKeys c) w)
    (v : Nat) (hv : visLT c w = some v) :
    (updateCurrent c s).stat = MStatus.ok ∧
    (updateCurrent c s).fwd = false ∧
    (updateCurrent c s).atBase = !(deltaHas c v) ∧
    (updateCurrent c s).bPos = lastLT c.base (v + 1) ∧
    (updateCurrent c s).dPos = lastLT (dKeys c) (v + 1) ∧
    (updateCurrent c s).eqKeys = (baseHas c v && deltaHas c v) ∧
    bdKey c (updateCurrent c s) = v := by
  have hmeas : dRemaining c { s with stat := MStatus.ok } <
      c.base.length + c.delta.length + 2 := by
    have hle : dRemaining c { s with stat := MStatus.ok } ≤ c.delta.length := by
      refine dRemaining_le c _ ?_
      intro j hj
      replace hj : s.dPos = some j := hj
      rw [hdp] at hj
      have := ((lastLT_some_iff _ hD w j).mp hj).1
      rwa [dKeys_length] at this
    omega
  have hcore := ucGo_bwd_some c hB hD hub hbs hds
    (c.base.length + c.delta.length + 2) w { s with stat := MStatus.ok }
    hmeas hf hbp hdp v hv
  have hpres := ucGo_pres c (c.base.length + c.delta.length + 2)
    { s with stat := MStatus.ok }
  exact ⟨hpres.1, hpres.2.trans hf, hcore.1, hcore.2.1, hcore.2.2.1,
    hcore.2.2.2.1, hcore.2.2.2.2⟩

theorem updateCurrent_bwd_none (c : BDCfg) (hB : List.Chain' (· < ·) c.base)
    (hD : List.Chain' (· < ·) (dKeys c)) (hub : c.ub = none)
    (hbs : c.bStat = MStatus.ok) (hds : c.dStat = MStatus.ok)
    (w : Nat) (s : BDState) (hf : s.fwd = false)
    (hbp : s.bPos = lastLT c.base w) (hdp : s.dPos = lastLT (dKeys c) w)
    (hv : visLT c w = none) :
    (updateCurrent c s).stat = MStatus.ok ∧
    (updateCurrent c s).fwd = false ∧
    (updateCurrent c s).bPos = none ∧ (updateCurrent c s).dPos = none := by
  have hmeas : dRemaining c { s with stat := MStatus.ok } <
      c.base.length + c.delta.length + 2 := by
    have hle : dRemaining c { s with stat := MStatus.ok } ≤ c.delta.length := by
      refine dRemaining_le c _ ?_
      intro j hj
      replace hj : s.dPos = some j := hj
      rw [hdp] at hj
      have := ((lastLT_some_iff _ hD w j).mp hj).1
      rwa [dKeys_length] at this
    omega
  have hcore := ucGo_bwd_none c hB hD hub hbs hds
    (c.base.length + c.delta.length + 2) w { s with stat := MStatus.ok }
    hmeas hf hbp hdp hv
  have hpres := ucGo_pres c (c.base.length + c.delta.length + 2)
    { s with stat := MStatus.ok }
  exact ⟨hpres.1, hpres.2.trans hf, hcore.1, hcore.2⟩

theorem fwdPost_valid (c : BDCfg) (hB : List.Chain' (· < ·) c.base)
    (hD : List.Chain' (· < ·) (dKeys c)) (u : BDState) (v : Nat)
    (hstat : u.stat = MStatus.ok) (hat : u.atBase = !(deltaHas c v))
    (hbp : u.bPos = firstGE c.base v) (hdp : u.dPos = firstGE (dKeys c) v)
    (hmem : v ∈ c.base ∨ v ∈ dKeys c) :
    bdValid u = true := by
  unfold bdValid
  rw [hstat, hat]
  by_cases hdm : v ∈ dKeys c
  · have hdhv : deltaHas c v = true := by
      unfold deltaHas
      rw [decide_eq_true_eq]
      exact hdm
    rw [hdhv]
    obtain ⟨j, hje, _⟩ := firstGE_mem hD hdm
    rw [hdp, hje]
    simp
  · have hvb : v ∈ c.base := by
      rcases hmem with h | h
      · exact h
      · exact absurd h hdm
    have hdhv : deltaHas c v = false := by
      unfold deltaHas
      simp only [decide_eq_false_iff_not]
      exact hdm
    rw [hdhv]
    obtain ⟨i, hie, _⟩ := firstGE_mem hB hvb
    rw [hbp, hie]
    simp

theorem bwdPost_valid (c : BDCfg) (hB : List.Chain' (· < ·) c.base)
    (hD : List.Chain' (· < ·) (dKeys c)) (u : BDState) (v : Nat)
    (hstat : u.stat = MStatus.ok) (hat : u.atBase = !(deltaHas c v))
    (hbp : u.bPos = lastLT c.base (v + 1))
    (hdp : u.dPos = lastLT (dKeys c) (v + 1))
    (hmem : v ∈ c.base ∨ v ∈ dKeys c) :
    bdValid u = true := by
  unfold bdValid
  rw [hstat, hat]
  by_cases hdm : v ∈ dKeys c
  · have hdhv : deltaHas c v = true := by
      unfold deltaHas
      rw [decide_eq_true_eq]
      exact hdm
    rw [hdhv]
    obtain ⟨j, hje, _⟩ := lastLT_mem hD hdm
    rw [hdp, hje]
    simp
  · have hvb : v ∈ c.base := by
      rcases hmem with h | h
      · exact h
      · exact absurd h hdm
    have hdhv : deltaHas c v = false := by
      unfold deltaHas
      simp only [decide_eq_false_iff_not]
      exact hdm
    rw [hdhv]
    obtain ⟨i, hie, _⟩ := lastLT_mem hB hvb
    rw [hbp, hie]
    simp

theorem invalid_of_cursors_none (s : BDState) (hb : s.bPos = none)
    (hd : s.dPos = none) : bdValid s = false := by
  unfold bdValid
  rw [hb, hd]
  split <;> simp

theorem visGE_mem (c : BDCfg) {w v : Nat} (h : visGE c w = some v) :
    v ∈ c.base ∨ v ∈ dKeys c := (visGE_some_spec h).1

theorem visLT_mem (c : BDCfg) {w v : Nat} (h : visLT c w = some v) :
    v ∈ c.base ∨ v ∈ dKeys c := (visLT_some_spec h).1

theorem bdNext_cursors (c : BDCfg) (hB : List.Chain' (· < ·) c.base)
    (hD : List.Chain' (· < ·) (dKeys c)) (u : BDState) (v : Nat)
    (hstat : u.stat = MStatus.ok) (hfwd : u.fwd = true)
    (hat : u.atBase = !(deltaHas c v)) (hbp : u.bPos = firstGE c.base v)
    (hdp : u.dPos = firstGE (dKeys c) v)
    (heq : u.eqKeys = (baseHas c v && deltaHas c v))
    (hmem : v ∈ c.base ∨ v ∈ dKeys c) :
    bdNext c u = updateCurrent c
      { u with
        bPos := firstGE c.base (v + 1), dPos := firstGE (dKeys c) (v + 1) } := by
  have hvalid : bdValid u = true := fwdPost_valid c hB hD u v hstat hat hbp hdp hmem
  unfold bdNext
  rw [if_neg (fun hh => Bool.noConfusion (hvalid ▸ hh))]
  rw [if_neg (fun hh => Bool.noConfusion (hfwd ▸ hh))]
  unfold bdAdvance
  dsimp only
  by_cases hdm : v ∈ dKeys c
  · have hdhv : deltaHas c v = true := by
      unfold deltaHas
      rw [decide_eq_true_eq]
      exact hdm
    obtain ⟨j, hje, hjk⟩ := firstGE_mem hD hdm
    have hdadv : advD c u.fwd u.dPos = firstGE (dKeys c) (v + 1) := by
      rw [hfwd, hdp, hje]
      show optNext c.delta.length (some j) = _
      rw [← dKeys_length c]
      have := optNext_firstGE hD hje
      rwa [hjk] at this
    by_cases hbm : v ∈ c.base
    · have hbhv : baseHas c v = true := by
        unfold baseHas
        rw [decide_eq_true_eq]
        exact hbm
      obtain ⟨i, hie, hik⟩ := firstGE_mem hB hbm
      have hbadv : advB c u.fwd u.bPos = firstGE c.base (v + 1) := by
        rw [hfwd, hbp, hie]
        show optNext c.base.length (some i) = _
        have := optNext_firstGE hB hie
        rwa [hik] at this
      rw [if_pos (show u.eqKeys = true by rw [heq, hbhv, hdhv]; rfl)]
      rw [hbadv, hdadv]
    · have hbhv : baseHas c v = false := by
        unfold baseHas
        simp only [decide_eq_false_iff_not]
        exact hbm
      rw [if_neg (show ¬ (u.eqKeys = true) by rw [heq, hbhv]; simp)]
      rw [if_neg (show ¬ (u.atBase = true) by rw [hat, hdhv]; simp)]
      rw [hdadv]
      have hbstay : u.bPos = firstGE c.base (v + 1) := by
        rw [hbp]
        exact firstGE_succ_of_not_mem hbm
      rw [hbstay]
  · have hbm : v ∈ c.base := by
      rcases hmem with h | h
      · exact h
      · exact absurd h hdm
    have hdhv : deltaHas c v = false := by
      unfold deltaHas
      simp only [decide_eq_false_iff_not]
      exact hdm
    obtain ⟨i, hie, hik⟩ := firstGE_mem hB hbm
    have hbadv : advB c u.fwd u.bPos = firstGE c.base (v + 1) := by
      rw [hfwd, hbp, hie]
      show optNext c.base.length (some i) = _
      have := optNext_firstGE hB hie
      rwa [hik] at this
    rw [if_neg (show ¬ (u.eqKeys = true) by rw [heq, hdhv]; simp)]
    rw [if_pos (show u.atBase = true by rw [hat, hdhv]; rfl)]
    rw [hbadv]
    have hdstay : u.dPos = firstGE (dKeys c) (v + 1) := by
      rw [hdp]
      exact firstGE_succ_of_not_mem hdm
    rw [hdstay]

theorem lastIdx_key_lt {L : List Nat} {w i0 : Nat}
    (hall : ∀ x ∈ L, x < w) (h : lastIdx L = some i0) : L.getD i0 0 < w :=
  hall _ (getD_mem L i0 0 (lastIdx_wf h))

theorem bdReverseToBwd_spec (c : BDCfg) (hB : List.Chain' (· < ·) c.base)
    (hD : List.Chain' (· < ·) (dKeys c)) (u : BDState) (v₂ : Nat)
    (hat : u.atBase = !(deltaHas c v₂)) (hbp : u.bPos = firstGE c.base v₂)
    (hdp : u.dPos = firstGE (dKeys c) v₂)
    (hmem : v₂ ∈ c.base ∨ v₂ ∈ dKeys c) :
    (bdReverseToBwd c u).fwd = false ∧
    (bdReverseToBwd c u).eqKeys = false ∧
    (bdReverseToBwd c u).atBase = u.atBase ∧
    (bdReverseToBwd c u).stat = u.stat ∧
    (bdReverseToBwd c u).bPos =
      (if u.atBase = true then u.bPos else lastLT c.base v₂) ∧
    (bdReverseToBwd c u).dPos =
      (if u.atBase = true then lastLT (dKeys c) v₂ else u.dPos) := by
  unfold bdReverseToBwd
  dsimp only
  by_cases hdm : v₂ ∈ dKeys c
  · have hdhv : deltaHas c v₂ = true := by
      unfold deltaHas
      rw [decide_eq_true_eq]
      exact hdm
    have hatf : u.atBase = false := by
      rw [hat, hdhv]
      rfl
    obtain ⟨j, hje, hjk⟩ := firstGE_mem hD hdm
    have hjlen : j < c.delta.length := by
      have := firstGE_wf hje
      rwa [dKeys_length] at this
    have hudp : u.dPos = some j := by rw [hdp, hje]
    have hdkey : (dEntryAt c j).1 = v₂ := by
      rw [dEntryAt_key]
      exact hjk
    cases hfb : firstGE c.base v₂ with
    | none =>
      have hubp : u.bPos = none := by rw [hbp, hfb]
      have hball : ∀ x ∈ c.base, x < v₂ := (firstGE_none_iff _ _).mp hfb
      have hlast : lastIdx c.base = lastLT c.base v₂ := lastIdx_eq_lastLT hball
      rw [if_pos hubp]
      dsimp only
      have hcnd : ¬ ((lastIdx c.base).isSome = true ∧ u.dPos.isSome = true ∧
          (dEntryAt c (u.dPos.getD 0)).1 = bKeyAt c ((lastIdx c.base).getD 0)) := by
        intro hc
        obtain ⟨hc1, hc2, hc3⟩ := hc
        cases hli : lastIdx c.base with
        | none =>
          rw [hli] at hc1
          simp at hc1
        | some i0 =>
          have hklt : bKeyAt c i0 < v₂ := lastIdx_key_lt hball hli
          rw [hli, hudp] at hc3
          have hc3' : (dEntryAt c j).1 = bKeyAt c i0 := hc3
          rw [hdkey] at hc3'
          omega
      rw [if_neg hcnd]
      refine ⟨rfl, rfl, rfl, rfl, ?_, ?_⟩
      · show lastIdx c.base = _
        rw [hatf]
        rw [if_neg Bool.false_ne_true]
        exact hlast
      · show u.dPos = _
        rw [hatf]
        rw [if_neg Bool.false_ne_true]
    | some i =>
      have hubp : u.bPos = some i := by rw [hbp, hfb]
      have hblt : advB c false u.bPos = lastLT c.base v₂ := by
        rw [hubp]
        show optPrev (some i) = _
        exact optPrev_firstGE hfb
      rw [if_neg (show ¬ (u.bPos = none) from
        fun hh => Option.noConfusion (hubp.symm.trans hh))]
      rw [if_neg (show ¬ (u.dPos = none) from
        fun hh => Option.noConfusion (hudp.symm.trans hh))]
      rw [if_neg (show ¬ (u.atBase = true) from
        fun hh => Bool.noConfusion (hatf.symm.trans hh))]
      dsimp only
      have hcnd : ¬ ((advB c false u.bPos).isSome = true ∧
          u.dPos.isSome = true ∧
          (dEntryAt c (u.dPos.getD 0)).1 =
            bKeyAt c ((advB c false u.bPos).getD 0)) := by
        intro hc
        obtain ⟨hc1, hc2, hc3⟩ := hc
        rw [hblt] at hc1 hc3
        cases hll : lastLT c.base v₂ with
        | none =>
          rw [hll] at hc1
          simp at hc1
        | some i0 =>
          have hklt : bKeyAt c i0 < v₂ :=
            ((lastLT_some_iff _ hB v₂ i0).mp hll).2.1
          rw [hll, hudp] at hc3
          have hc3' : (dEntryAt c j).1 = bKeyAt c i0 := hc3
          rw [hdkey] at hc3'
          omega
      rw [if_neg hcnd]
      refine ⟨rfl, rfl, rfl, rfl, ?_, ?_⟩
      · show advB c false u.bPos = _
        rw [hatf]
        rw [if_neg Bool.false_ne_true]
        exact hblt
      · show u.dPos = _
        rw [hatf]
        rw [if_neg Bool.false_ne_true]
  · have hbm : v₂ ∈ c.base := by
      rcases hmem with h | h
      · exact h
      · exact absurd h hdm
    have hdhv : deltaHas c v₂ = false := by
      unfold deltaHas
      simp only [decide_eq_false_iff_not]
      exact hdm
    have hatt : u.atBase = true := by
      rw [hat, hdhv]
      rfl
    obtain ⟨i, hie, hik⟩ := firstGE_mem hB hbm
    have hubp : u.bPos = some i := by rw [hbp, hie]
    have hbkey : bKeyAt c i = v₂ := hik
    rw [if_neg (show ¬ (u.bPos = none) from
      fun hh => Option.noConfusion (hubp.symm.trans hh))]
    cases hfd : firstGE (dKeys c) v₂ with
    | none =>
      have hudp : u.dPos = none := by rw [hdp, hfd]
      have hdall : ∀ x ∈ dKeys c, x < v₂ := (firstGE_none_iff _ _).mp hfd
      have hlastd : lastIdx (dKeys c) = lastLT (dKeys c) v₂ :=
        lastIdx_eq_lastLT hdall
      rw [if_pos hudp]
      dsimp only
      have hcnd : ¬ (u.bPos.isSome = true ∧
          (lastIdx c.delta).isSome = true ∧
          (dEntryAt c ((lastIdx c.delta).getD 0)).1 =
            bKeyAt c (u.bPos.getD 0)) := by
        intro hc
        obtain ⟨hc1, hc2, hc3⟩ := hc
        rw [lastIdx_delta_dKeys] at hc2 hc3
        cases hld : lastIdx (dKeys c) with
        | none =>
          rw [hld] at hc2
          simp at hc2
        | some j0 =>
          have hklt : (dKeys c).getD j0 0 < v₂ := lastIdx_key_lt hdall hld
          rw [hld, hubp] at hc3
          have hc3' : (dEntryAt c j0).1 = bKeyAt c i := hc3
          rw [dEntryAt_key, hbkey] at hc3'
          omega
      rw [if_neg hcnd]
      refine ⟨rfl, rfl, rfl, rfl, ?_, ?_⟩
      · show u.bPos = _
        rw [hatt]
        rw [if_pos rfl]
      · show lastIdx c.delta = _
        rw [hatt]
        rw [if_pos rfl, lastIdx_delta_dKeys]
        exact hlastd
    | some j =>
      have hudp : u.dPos = some j := by rw [hdp, hfd]
      have hdlt : advD c false u.dPos = lastLT (dKeys c) v₂ := by
        rw [hudp]
        show optPrev (some j) = _
        exact optPrev_firstGE hfd
      rw [if_neg (show ¬ (u.dPos = none) from
        fun hh => Option.noConfusion (hudp.symm.trans hh))]
      rw [if_pos hatt]
      dsimp only
      have hcnd : ¬ (u.bPos.isSome = true ∧
          (advD c false u.dPos).isSome = true ∧
          (dEntryAt c ((advD c false u.dPos).getD 0)).1 =
            bKeyAt c (u.bPos.getD 0)) := by
        intro hc
        obtain ⟨hc1, hc2, hc3⟩ := hc
        rw [hdlt] at hc2 hc3
        cases hll : lastLT (dKeys c) v₂ with
        | none =>
          rw [hll] at hc2
          simp at hc2
        | some j0 =>
          have hklt : (dKeys c).getD j0 0 < v₂ :=
            ((lastLT_some_iff _ hD v₂ j0).mp hll).2.1
          rw [hll, hubp] at hc3
          have hc3' : (dEntryAt c j0).1 = bKeyAt c i := hc3
          rw [dEntryAt_key, hbkey] at hc3'
          omega
      rw [if_neg hcnd]
      refine ⟨rfl, rfl, rfl, rfl, ?_, ?_⟩
      · show u.bPos = _
        rw [hatt]
        rw [if_pos rfl]
      · show advD c false u.dPos = _
        rw [hatt]
        rw [if_pos rfl]
        exact hdlt

theorem visLT_link {c : BDCfg} {k v v₂ : Nat} (h1 : visGE c k = some v)
    (h2 : visGE c (v + 1) = some v₂) : visLT c v₂ = some v := by
  obtain ⟨hm1, hk1, hvis1, hmin1⟩ := visGE_some_spec h1
  obtain ⟨hm2, hk2, hvis2, hmin2⟩ := visGE_some_spec h2
  refine visLT_eq_some hm1 (by omega) hvis1 ?_
  intro x hx hxlt hxvis
  by_cases hle : v + 1 ≤ x
  · have := hmin2 x hx hle hxvis
    omega
  · omega

theorem bdPrev_some (c : BDCfg) (hB : List.Chain' (· < ·) c.base)
    (hD : List.Chain' (· < ·) (dKeys c)) (hub : c.ub = none)
    (hbs : c.bStat = MStatus.ok) (hds : c.dStat = MStatus.ok)
    (u : BDState) (v₂ : Nat) (hstat : u.stat = MStatus.ok)
    (hfwd : u.fwd = true) (hat : u.atBase = !(deltaHas c v₂))
    (hbp : u.bPos = firstGE c.base v₂) (hdp : u.dPos = firstGE (dKeys c) v₂)
    (hmem : v₂ ∈ c.base ∨ v₂ ∈ dKeys c)
    (v : Nat) (hv : visLT c v₂ = some v) :
    (bdPrev c u).stat = MStatus.ok ∧
    (bdPrev c u).fwd = false ∧
    (bdPrev c u).atBase = !(deltaHas c v) ∧
    (bdPrev c u).bPos = lastLT c.base (v + 1) ∧
    (bdPrev c u).dPos = lastLT (dKeys c) (v + 1) ∧
    (bdPrev c u).eqKeys = (baseHas c v && deltaHas c v) ∧
    bdKey c (bdPrev c u) = v := by
  have hvalid : bdValid u = true := fwdPost_valid c hB hD u v₂ hstat hat hbp hdp hmem
  obtain ⟨hrf, hre, hra, hrs, hrb, hrd⟩ :=
    bdReverseToBwd_spec c hB hD u v₂ hat hbp hdp hmem
  unfold bdPrev
  rw [if_neg (show ¬ (bdValid u = false) from
    fun hh => Bool.noConfusion (hvalid.symm.trans hh))]
  rw [if_pos hfwd]
  unfold bdAdvance
  dsimp only
  rw [if_neg (show ¬ ((bdReverseToBwd c u).eqKeys = true) from
    fun hh => Bool.noConfusion (hre.symm.trans hh))]
  by_cases hdm : v₂ ∈ dKeys c
  · have hdhv : deltaHas c v₂ = true := by
      unfold deltaHas
      rw [decide_eq_true_eq]
      exact hdm
    have hab : u.atBase = false := by
      rw [hat, hdhv]
      rfl
    obtain ⟨j, hje, hjk⟩ := firstGE_mem hD hdm
    rw [if_neg (show ¬ ((bdReverseToBwd c u).atBase = true) from
      fun hh => Bool.noConfusion (hab.symm.trans (hra.symm.trans hh)))]
    refine updateCurrent_bwd_some c hB hD hub hbs hds v₂ _ ?_ ?_ ?_ v hv
    · show (bdReverseToBwd c u).fwd = false
      exact hrf
    · show (bdReverseToBwd c u).bPos = lastLT c.base v₂
      rw [hrb, hab]
      rw [if_neg Bool.false_ne_true]
    · show advD c (bdReverseToBwd c u).fwd (bdReverseToBwd c u).dPos =
        lastLT (dKeys c) v₂
      rw [hrf, hrd, hab]
      rw [if_neg Bool.false_ne_true]
      rw [hdp, hje]
      show optPrev (some j) = _
      exact optPrev_firstGE hje
  · have hvb : v₂ ∈ c.base := by
      rcases hmem with h | h
      · exact h
      · exact absurd h hdm
    have hdhv : deltaHas c v₂ = false := by
      unfold deltaHas
      simp only [decide_eq_false_iff_not]
      exact hdm
    have hab : u.atBase = true := by
      rw [hat, hdhv]
      rfl
    obtain ⟨i, hie, hik⟩ := firstGE_mem hB hvb
    rw [if_pos (show (bdReverseToBwd c u).atBase = true from hra.trans hab)]
    refine updateCurrent_bwd_some c hB hD hub hbs hds v₂ _ ?_ ?_ ?_ v hv
    · show (bdReverseToBwd c u).fwd = false
      exact hrf
    · show advB c (bdReverseToBwd c u).fwd (bdReverseToBwd c u).bPos =
        lastLT c.base v₂
      rw [hrf, hrb, hab]
      rw [if_pos rfl]
      rw [hbp, hie]
      show optPrev (some i) = _
      exact optPrev_firstGE hie
    · show (bdReverseToBwd c u).dPos = lastLT (dKeys c) v₂
      rw [hrd, hab]
      rw [if_pos rfl]

/-- Claim C3: over sorted duplicate-free base and delta key sequences with
no `iterate_upper_bound` and OK child statuses, `Seek(k); Next; Prev`
returns the merge iterator to the position of `Seek(k)` alone whenever the
intermediate `Next` stays within the valid range: `Seek(k)` lands on the
first visible merged key ≥ k, and after `Next; Prev` the iterator is again
Valid, presents the same key, and sits on the same side (base or delta).
Moreover, in the spec's walk-through scenario — base `{a, c}` rendered as
`{10, 30}`, delta `{Put b}` rendered as `{Put 20}` — the observable run
`SeekToFirst, Next, Next, Prev` yields keys `a, b, c, b`, i.e.
`10, 20, 30, 20`. -/
theorem C3_seek_next_prev (c : BDCfg) (k : Nat)
    (hB : List.Chain' (· < ·) c.base) (hD : List.Chain' (· < ·) (dKeys c))
    (hub : c.ub = none) (hbs : c.bStat = MStatus.ok)
    (hds : c.dStat = MStatus.ok) :
    (∀ s₀ : BDState, bdValid (bdNext c (bdSeek c k s₀)) = true →
      bdValid (bdSeek c k s₀) = true ∧
      visGE c k = some (bdKey c (bdSeek c k s₀)) ∧
      bdValid (bdPrev c (bdNext c (bdSeek c k s₀))) = true ∧
      bdKey c (bdPrev c (bdNext c (bdSeek c k s₀))) =
        bdKey c (bdSeek c k s₀) ∧
      (bdPrev c (bdNext c (bdSeek c k s₀))).atBase =
        (bdSeek c k s₀).atBase) ∧
    ([[BDOp.opSeekToFirst],
      [BDOp.opSeekToFirst, BDOp.opNext],
      [BDOp.opSeekToFirst, BDOp.opNext, BDOp.opNext],
      [BDOp.opSeekToFirst, BDOp.opNext, BDOp.opNext, BDOp.opPrev]].map
        (obsRun cW3) =
      [(true, 10), (true, 20), (true, 30), (true, 20)]) := by
  constructor
  · intro s₀ hvT
    cases hk : visGE c k with
    | none =>
      have hnone := updateCurrent_fwd_none c hB hD hub hbs hds k
        { s₀ with
          fwd := true,
          bPos := firstGE c.base k,
          dPos := firstGE (dKeys c) k } rfl rfl rfl hk
      have hSb : (bdSeek c k s₀).bPos = none := hnone.2.2.1
      have hSd : (bdSeek c k s₀).dPos = none := hnone.2.2.2
      have hinv : bdValid (bdSeek c k s₀) = false :=
        invalid_of_cursors_none _ hSb hSd
      have hnv : bdValid (bdNext c (bdSeek c k s₀)) = false := by
        unfold bdNext
        rw [if_pos hinv]
        rfl
      exact Bool.noConfusion (hnv.symm.trans hvT)
    | some v =>
      have hpost := updateCurrent_fwd_some c hB hD hub hbs hds k
        { s₀ with
          fwd := true,
          bPos := firstGE c.base k,
          dPos := firstGE (dKeys c) k } rfl rfl rfl v hk
      have h1 : (bdSeek c k s₀).stat = MStatus.ok := hpost.1
      have h2 : (bdSeek c k s₀).fwd = true := hpost.2.1
      have h3 : (bdSeek c k s₀).atBase = !(deltaHas c v) := hpost.2.2.1
      have h4 : (bdSeek c k s₀).bPos = firstGE c.base v := hpost.2.2.2.1
      have h5 : (bdSeek c k s₀).dPos = firstGE (dKeys c) v :=
        hpost.2.2.2.2.1
      have h6 : (bdSeek c k s₀).eqKeys = (baseHas c v && deltaHas c v) :=
        hpost.2.2.2.2.2.1
      have h7 : bdKey c (bdSeek c k s₀) = v := hpost.2.2.2.2.2.2
      have hmemv : v ∈ c.base ∨ v ∈ dKeys c := visGE_mem c hk
      have hvalidS : bdValid (bdSeek c k s₀) = true :=
        fwdPost_valid c hB hD _ v h1 h3 h4 h5 hmemv
      have hnext := bdNext_cursors c hB hD (bdSeek c k s₀) v
        h1 h2 h3 h4 h5 h6 hmemv
      cases hk2 : visGE c (v + 1) with
      | none =>
        have hnone := updateCurrent_fwd_none c hB hD hub hbs hds (v + 1)
          { bdSeek c k s₀ with
            bPos := firstGE c.base (v + 1),
            dPos := firstGE (dKeys c) (v + 1) } h2 rfl rfl hk2
        have hTb : (bdNext c (bdSeek c k s₀)).bPos = none := by
          rw [hnext]
          exact hnone.2.2.1
        have hTd : (bdNext c (bdSeek c k s₀)).dPos = none := by
          rw [hnext]
          exact hnone.2.2.2
        have hTinv := invalid_of_cursors_none _ hTb hTd
        exact Bool.noConfusion (hTinv.symm.trans hvT)
      | some v₂ =>
        have hpost2 := updateCurrent_fwd_some c hB hD hub hbs hds (v + 1)
          { bdSeek c k s₀ with
            bPos := firstGE c.base (v + 1),
            dPos := firstGE (dKeys c) (v + 1) } h2 rfl rfl v₂ hk2
        have t1 : (bdNext c (bdSeek c k s₀)).stat = MStatus.ok := by
          rw [hnext]
          exact hpost2.1
        have t2 : (bdNext c (bdSeek c k s₀)).fwd = true := by
          rw [hnext]
          exact hpost2.2.1
        have t3 : (bdNext c (bdSeek c k s₀)).atBase = !(deltaHas c v₂) := by
          rw [hnext]
          exact hpost2.2.2.1
        have t4 : (bdNext c (bdSeek c k s₀)).bPos = firstGE c.base v₂ := by
          rw [hnext]
          exact hpost2.2.2.2.1
        have t5 : (bdNext c (bdSeek c k s₀)).dPos = firstGE (dKeys c) v₂ := by
          rw [hnext]
          exact hpost2.2.2.2.2.1
        have hmem2 : v₂ ∈ c.base ∨ v₂ ∈ dKeys c := visGE_mem c hk2
        have hlink : visLT c v₂ = some v := visLT_link hk hk2
        have hprev := bdPrev_some c hB hD hub hbs hds
          (bdNext c (bdSeek c k s₀)) v₂ t1 t2 t3 t4 t5 hmem2 v hlink
        refine ⟨hvalidS, ?_, ?_, ?_, ?_⟩
        · rw [h7]
        · exact bwdPost_valid c hB hD _ v hprev.1 hprev.2.2.1
            hprev.2.2.2.1 hprev.2.2.2.2.1 hmemv
        · rw [hprev.2.2.2.2.2.2, h7]
        · rw [hprev.2.2.1, h3]
  · decide

theorem C3_seek_next_prev_witness :
    bdValid (bdNext cW3 (bdSeek cW3 15 bdInit)) = true ∧
    (bdValid (bdSeek cW3 15 bdInit) = true ∧
     visGE cW3 15 = some (bdKey cW3 (bdSeek cW3 15 bdInit)) ∧
     bdValid (bdPrev cW3 (bdNext cW3 (bdSeek cW3 15 bdInit))) = true ∧
     bdKey cW3 (bdPrev cW3 (bdNext cW3 (bdSeek cW3 15 bdInit))) =
       bdKey cW3 (bdSeek cW3 15 bdInit) ∧
     (bdPrev cW3 (bdNext cW3 (bdSeek cW3 15 bdInit))).atBase =
       (bdSeek cW3 15 bdInit).atBase) :=
  by
  refine ⟨by decide, ?_⟩
  refine (C3_seek_next_prev cW3 15 ?_ ?_ rfl rfl rfl).1 bdInit (by decide)
  · show List.Chain' (· < ·) ([10, 30] : List Nat)
    exact List.chain'_cons.mpr ⟨by norm_num, List.chain'_singleton 30⟩
  · show List.Chain' (· < ·) ([20] : List Nat)
    exact List.chain'_singleton 20

end WBWI
